import Mathlib

/-! The tools `mangapub` and `crunchy` of clitools.

A shallow embedding of the comic-archive converter `mangapub` (`ParseCBZ`, `CreateEPUB`) and of
the image sniffing shared with `crunchy` (`decodeImage`), with the properties the design
document states about them.

Go byte slices and strings are lists of byte values; Go `int` is `Int` (or `Nat` where the
value is a length or an index); a Go `(value, error)` pair is an `Except`.
-/

namespace Clitools

/-! ## Bytes and strings -/

/-- Contents of a Go `[]byte` or `string`: the sequence of its byte values. -/
abbrev Bytes := List Nat

/-- The bytes of an ASCII literal. -/
def bytesOf (s : String) : Bytes := s.toList.map Char.toNat

/-! ## Magic-byte sniffing (`ParseCBZ` worker and `decodeImage` share the same `switch`) -/

/-- The four decoders the `switch` can dispatch to. -/
inductive Codec where
  | jpeg
  | png
  | gif
  | webp
deriving DecidableEq, Repr

/-- The `switch` of `ParseCBZ` (mangapub/main.go:276-297) and of `decodeImage`
(crunchy/main.go:166-187): the first case whose guard holds picks the codec, `none` is the
`default` branch. Each guard is `len(d) > n && d[0] == .. && ..`, tried in source order. -/
def sniff (d : Bytes) : Option Codec :=
  if d.length > 3 ∧
      d[0]? = some 0xFF ∧ d[1]? = some 0xD8 ∧ d[2]? = some 0xFF then
    some Codec.jpeg
  else if d.length > 8 ∧
      d[0]? = some 0x89 ∧ d[1]? = some 0x50 ∧ d[2]? = some 0x4E ∧ d[3]? = some 0x47 ∧
      d[4]? = some 0x0D ∧ d[5]? = some 0x0A ∧ d[6]? = some 0x1A ∧ d[7]? = some 0x0A then
    some Codec.png
  else if d.length > 4 ∧
      d[0]? = some 0x47 ∧ d[1]? = some 0x49 ∧ d[2]? = some 0x46 ∧ d[3]? = some 0x38 then
    some Codec.gif
  else if d.length > 12 ∧
      d[0]? = some 0x52 ∧ d[1]? = some 0x49 ∧ d[2]? = some 0x46 ∧ d[3]? = some 0x46 ∧
      d[8]? = some 0x57 ∧ d[9]? = some 0x45 ∧ d[10]? = some 0x42 ∧ d[11]? = some 0x50 then
    some Codec.webp
  else
    none

/-- The image decoders of the Go libraries (`jpeg.Decode`, `png.Decode`, `gif.Decode`,
`webp.Decode`), taken as parameters: each maps the file bytes to a decoded image or an error
message. -/
structure Decoders (Img : Type) where
  jpegDecode : Bytes → Except String Img
  pngDecode : Bytes → Except String Img
  gifDecode : Bytes → Except String Img
  webpDecode : Bytes → Except String Img

/-- The decoder call made in the branch of the given codec. -/
def Decoders.run {Img : Type} (dec : Decoders Img) : Codec → Bytes → Except String Img
  | Codec.jpeg => dec.jpegDecode
  | Codec.png => dec.pngDecode
  | Codec.gif => dec.gifDecode
  | Codec.webp => dec.webpDecode

/-- Function `decodeImage` of crunchy/main.go:161-193. -/
def decodeImage {Img : Type} (dec : Decoders Img) (d : Bytes) : Except String Img :=
  match sniff d with
  | none => Except.error "unsupported file type"
  | some c =>
    match dec.run c d with
    | Except.error decoderError => Except.error decoderError
    | Except.ok decoderImage => Except.ok decoderImage

/-! ### The magic numbers as the design document lists them -/

/-- Length of the byte run a codec is recognised by: 3, 8, 4 and 12 bytes. -/
def magicLen : Codec → Nat
  | Codec.jpeg => 3
  | Codec.png => 8
  | Codec.gif => 4
  | Codec.webp => 12

/-- The bytes carry the magic number of the codec: JPEG `bytes[0..3] = FF D8 FF`, PNG
`bytes[0..8] = 89 50 4E 47 0D 0A 1A 0A`, GIF `bytes[0..4] = 47 49 46 38`, WEBP
`bytes[0..4] = 52 49 46 46` and `bytes[8..12] = 57 45 42 50`. -/
def carries : Codec → Bytes → Prop
  | Codec.jpeg, d => d.take 3 = [0xFF, 0xD8, 0xFF]
  | Codec.png, d => d.take 8 = [0x89, 0x50, 0x4E, 0x47, 0x0D, 0x0A, 0x1A, 0x0A]
  | Codec.gif, d => d.take 4 = [0x47, 0x49, 0x46, 0x38]
  | Codec.webp, d =>
    d.take 4 = [0x52, 0x49, 0x46, 0x46] ∧ (d.drop 8).take 4 = [0x57, 0x45, 0x42, 0x50]

instance (c : Codec) (d : Bytes) : Decidable (carries c d) := by
  cases c <;> unfold carries <;> infer_instance

/-! ## Strings and paths (Go `strings` and `path`) -/

/-- Go's `<` on strings: bytewise lexicographic order, a proper initial segment sorting
first. -/
def strLess : Bytes → Bytes → Bool
  | [], [] => false
  | [], _ :: _ => true
  | _ :: _, [] => false
  | a :: as, b :: bs => decide (a < b) || (decide (a = b) && strLess as bs)

/-- Go's `<=` on strings. -/
def strLE (a b : Bytes) : Prop := strLess a b = true ∨ a = b

instance (a b : Bytes) : Decidable (strLE a b) := by unfold strLE; infer_instance

/-- Function `strings.TrimSuffix`: `s` without the trailing `suffix`, or `s` itself when it
does not end in `suffix`. -/
def TrimSuffix (s suffix : Bytes) : Bytes :=
  if suffix.length ≤ s.length ∧ s.drop (s.length - suffix.length) = suffix then
    s.take (s.length - suffix.length)
  else
    s

/-- Loop of `path.Ext`, walking from the last byte towards the first: `rev` is what is still to
be visited (last byte first), `acc` the bytes already passed. Stops with the empty string at a
slash and with the dot and what follows it at a dot. -/
def extLoop : Bytes → Bytes → Bytes
  | [], _ => []
  | c :: rev, acc =>
    if c = 47 then []
    else if c = 46 then c :: acc
    else extLoop rev (c :: acc)

/-- Function `path.Ext`: the suffix beginning at the final dot in the final slash-separated
element of the path, empty if there is no dot. -/
def Ext (path : Bytes) : Bytes := extLoop path.reverse []

/-- Function `path.Base`: the last element of the path; trailing slashes are removed first, an
empty path gives `.` and a path of slashes only gives `/`. -/
def Base (path : Bytes) : Bytes :=
  if path = [] then bytesOf "."
  else
    let stripped := (path.reverse.dropWhile (fun c => decide (c = 47))).reverse
    let last := (stripped.reverse.takeWhile (fun c => !decide (c = 47))).reverse
    if last = [] then bytesOf "/" else last

/-! ## Sorting (Go `sort.Slice`) -/

/-- Inner loop of `insertionSortLessFunc` in Go's `sort` package,
`for j := i; j > a && less(j, j-1); j-- { swap(j, j-1) }`: the new element `x` moves towards
the front past every element it is less than. The slice before `x` is given last element
first. -/
def sinkLeft {α : Type} (less : α → α → Bool) (x : α) : List α → List α
  | [] => [x]
  | y :: ys => if less x y then y :: sinkLeft less x ys else x :: y :: ys

/-- Outer loop of `insertionSortLessFunc`: `done` is the part already in order (last element
first), the second list is what is still to be inserted. -/
def insertionSortLessFunc {α : Type} (less : α → α → Bool) : List α → List α → List α
  | done, [] => done.reverse
  | done, x :: rest => insertionSortLessFunc less (sinkLeft less x done) rest

/-- Function `sort.Slice(data, less)` from the Go library: it leaves the slice ordered by `less`
and makes no promise about equal elements. For slices of at most 12 elements the library runs
exactly this insertion sort; the theorems below use only that the result is an ordered
rearrangement, except where two concrete runs are compared. -/
def sortSlice {α : Type} (less : α → α → Bool) (data : List α) : List α :=
  insertionSortLessFunc less [] data

/-- A comparison that orders by a key the way `<` orders strings: never both ways round, and
whatever is less than `c` is less than `b` or has `b` less than `c`. -/
structure StrictWeak {α : Type} (less : α → α → Bool) : Prop where
  asymm : ∀ a b, less a b = true → less b a = false
  split : ∀ a b c, less a c = true → less a b = true ∨ less b c = true

/-! ## float64 arithmetic

Finite non-negative `float64` values are kept as fractions `num / den`. Every operation is the
exact operation followed by rounding to 53 significant bits, nearest value, ties to even
(IEEE 754 binary64). Exponent overflow and underflow are not modelled: the values that arise
from 64-bit integers stay far inside the normal range. -/

/-- A finite non-negative `float64`, the value `num / den`. -/
structure Float64 where
  num : Nat
  den : Nat
deriving DecidableEq, Repr

/-- The rational value of a float. -/
def Float64.toRat (f : Float64) : ℚ := (f.num : ℚ) / (f.den : ℚ)

/-- Doubles the numerator until `2^52 * d ≤ n`; returns the numerator and the number of
doublings. -/
def scaleUp : Nat → Nat → Nat → Nat × Nat
  | 0, n, _ => (n, 0)
  | fuel + 1, n, d =>
    if n < 2 ^ 52 * d then
      let r := scaleUp fuel (2 * n) d
      (r.1, r.2 + 1)
    else (n, 0)

/-- Doubles the denominator until `n < 2^53 * d`; returns the denominator and the number of
doublings. -/
def scaleDown : Nat → Nat → Nat → Nat × Nat
  | 0, _, d => (d, 0)
  | fuel + 1, n, d =>
    if 2 ^ 53 * d ≤ n then
      let r := scaleDown fuel n (2 * d)
      (r.1, r.2 + 1)
    else (d, 0)

/-- Rounding of the positive fraction `n / d` to `float64`. The fraction is scaled by a power of
two into `[2^52, 2^53)`, rounded to the nearest integer (a tie goes to the even one), and scaled
back. The loop bounds `52 + d` and `n` always suffice. Zero rounds to zero. -/
def Float64.round (n d : Nat) : Float64 :=
  if n = 0 ∨ d = 0 then ⟨0, 1⟩
  else
    let up := scaleUp (52 + d) n d
    let down := scaleDown n up.1 d
    let m := up.1 / down.1
    let rem := up.1 % down.1
    let m1 := if down.1 < 2 * rem ∨ (2 * rem = down.1 ∧ m % 2 = 1) then m + 1 else m
    ⟨m1 * 2 ^ down.2, 2 ^ up.2⟩

/-- Conversion `float64(i)` of a non-negative `int`. -/
def Float64.ofInt (i : Nat) : Float64 := Float64.round i 1

/-- Division `x / y` on `float64`, for `y` not zero (Go yields an infinity or a NaN for a zero
divisor; that case is outside this model and gives zero here). -/
def Float64.div (x y : Float64) : Float64 := Float64.round (x.num * y.den) (x.den * y.num)

/-- Product `x * y` on `float64`. -/
def Float64.mul (x y : Float64) : Float64 := Float64.round (x.num * y.num) (x.den * y.den)

/-- Function `math.Min` on finite values. -/
def Float64.min (x y : Float64) : Float64 :=
  if x.num * y.den ≤ y.num * x.den then x else y

/-- Conversion `int(f)`: the fraction is dropped. -/
def Float64.toInt (f : Float64) : Nat := f.num / f.den

/-! ## mangapub: the page renderer inside `ParseCBZ` -/

/-- Scaled width and height, mangapub/main.go:305-308, for a source of `iw × ih` pixels and a
canvas of `targetW × targetH`:
`ratio := math.Min(float64(targetW)/float64(iw), float64(targetH)/float64(ih))`,
`sw, sh := int(float64(iw)*ratio), int(float64(ih)*ratio)`. -/
def scaledSize (iw ih targetW targetH : Nat) : Nat × Nat :=
  let ratio := Float64.min
    (Float64.div (Float64.ofInt targetW) (Float64.ofInt iw))
    (Float64.div (Float64.ofInt targetH) (Float64.ofInt ih))
  ((Float64.mul (Float64.ofInt iw) ratio).toInt, (Float64.mul (Float64.ofInt ih) ratio).toInt)

/-- Offsets of the scaled image, mangapub/main.go:317-318: `(targetW - sw) / 2` and
`(targetH - sh) / 2` with Go's integer division, which truncates towards zero. -/
def offsets (targetW targetH sw sh : Nat) : Int × Int :=
  (Int.tdiv ((targetW : Int) - (sw : Int)) 2, Int.tdiv ((targetH : Int) - (sh : Int)) 2)

/-- A Go `image.Rectangle`: `Min` is `(x0, y0)` and `Max` is `(x1, y1)`. -/
structure Rectangle where
  x0 : Int
  y0 : Int
  x1 : Int
  y1 : Int
deriving DecidableEq, Repr

/-- Function `image.Rect`: the rectangle with the given corners, the coordinates swapped where
needed so that `Min` is not beyond `Max`. -/
def Rect (x0 y0 x1 y1 : Int) : Rectangle :=
  let (a0, a1) := if x0 > x1 then (x1, x0) else (x0, x1)
  let (b0, b1) := if y0 > y1 then (y1, y0) else (y0, y1)
  ⟨a0, b0, a1, b1⟩

/-- Width `Dx()` of a rectangle. -/
def Rectangle.Dx (r : Rectangle) : Int := r.x1 - r.x0

/-- Height `Dy()` of a rectangle. -/
def Rectangle.Dy (r : Rectangle) : Int := r.y1 - r.y0

/-- The destination rectangle handed to `draw.CatmullRom.Scale`, mangapub/main.go:319:
`image.Rect(offsetX, offsetY, offsetX+sw, offsetY+sh)`. -/
def drawRect (iw ih targetW targetH : Nat) : Rectangle :=
  let s := scaledSize iw ih targetW targetH
  let o := offsets targetW targetH s.1 s.2
  Rect o.1 o.2 (o.1 + (s.1 : Int)) (o.2 + (s.2 : Int))

/-- The canvas after lines 309-320: `width × height` pixels, all opaque white, with the source
image `src` resampled into the rectangle `dst`. -/
structure Canvas (Img : Type) where
  width : Nat
  height : Nat
  dst : Rectangle
  src : Img

/-- The values of the flags `--width`, `--height` and `--quality` (`featureWidth`,
`featureHeight`, `featureQuality`). -/
structure Features where
  featureWidth : Nat
  featureHeight : Nat
  featureQuality : Nat

/-- The defaults of mangapub/main.go:56-58. -/
def Features.default : Features := ⟨600, 800, 25⟩

/-- The library functions the worker calls, taken as parameters: the four decoders, the size
`Bounds().Dx()`, `Bounds().Dy()` of a decoded image, and `jpeg.Encode` at a given quality. -/
structure Codecs (Img : Type) where
  dec : Decoders Img
  Dx : Img → Nat
  Dy : Img → Nat
  jpegEncode : Canvas Img → Nat → Except String Bytes

/-! ## mangapub: `ParseCBZ` -/

/-- Type `Image` of mangapub/main.go:36-40. -/
structure Image where
  Name : Bytes
  Data : Bytes
  MimeType : Bytes
deriving DecidableEq, Repr

/-- Type `File` of mangapub/main.go:31-34. -/
structure File where
  Name : Bytes
  Images : List Image
deriving DecidableEq, Repr

/-- One element of `reader.File`: the entry name, what `FileInfo().IsDir()` answers, and what
`file.Open()` followed by `io.ReadAll` delivers (an error of `Open`, or the bytes read). -/
structure ZipEntry where
  Name : Bytes
  IsDir : Bool
  Open : Except String Bytes

/-- The name given to a page, mangapub/main.go:332 without the `.jpeg` ending:
`strings.TrimSuffix(path.Base(file.Name), path.Ext(file.Name))`. -/
def derivedBase (name : Bytes) : Bytes := TrimSuffix (Base name) (Ext name)

/-- Lines 303-320 for a decoded image: the white canvas of the configured size with the image
scaled into the centred rectangle. -/
def render {Img : Type} (lib : Codecs Img) (cfg : Features) (decoderImage : Img) : Canvas Img :=
  { width := cfg.featureWidth
    height := cfg.featureHeight
    dst := drawRect (lib.Dx decoderImage) (lib.Dy decoderImage)
      cfg.featureWidth cfg.featureHeight
    src := decoderImage }

/-- Body of the worker loop, mangapub/main.go:255-336, for one entry: `none` stands for every
`continue`, `some` is the image appended to `cbzFile.Images`. -/
def processEntry {Img : Type} (lib : Codecs Img) (cfg : Features) (file : ZipEntry) :
    Option Image :=
  if file.IsDir then none
  else
    match file.Open with
    | Except.error _ => none
    | Except.ok d =>
      match sniff d with
      | none => none
      | some c =>
        match lib.dec.run c d with
        | Except.error _ => none
        | Except.ok decoderImage =>
          match lib.jpegEncode (render lib cfg decoderImage) cfg.featureQuality with
          | Except.error _ => none
          | Except.ok enc =>
            some
              { Name := derivedBase file.Name ++ bytesOf ".jpeg"
                Data := enc
                MimeType := bytesOf "image/jpeg" }

/-- An entry that is not a directory, opens, sniffs as a supported format, decodes without
error and encodes without error. -/
def rendersPage {Img : Type} (lib : Codecs Img) (cfg : Features) (file : ZipEntry) : Bool :=
  let opens : Option Bytes :=
    match file.Open with
    | Except.ok d => some d
    | Except.error _ => none
  let decodes : Option Img :=
    opens.bind fun d => (sniff d).bind fun c =>
      match lib.dec.run c d with
      | Except.ok img => some img
      | Except.error _ => none
  let encodes : Option Bytes :=
    decodes.bind fun img =>
      match lib.jpegEncode (render lib cfg img) cfg.featureQuality with
      | Except.ok enc => some enc
      | Except.error _ => none
  !file.IsDir && encodes.isSome

/-- The shared slice `cbzFile.Images` when all workers are done (line 346). Every index of
`reader.File` is sent on the channel once; `order` lists the indices in the order in which the
workers reach the locked `append`, so a page is appended for each index whose entry yields
one, in that order. -/
def collected {Img : Type} (lib : Codecs Img) (cfg : Features) (files : List ZipEntry)
    (order : List Nat) : List Image :=
  order.filterMap (fun i => (files[i]?).bind (processEntry lib cfg))

/-- An order in which the workers can finish: every index of `reader.File` exactly once. -/
def Schedule (files : List ZipEntry) (order : List Nat) : Prop :=
  order.Perm (List.range files.length)

instance (files : List ZipEntry) (order : List Nat) : Decidable (Schedule files order) := by
  unfold Schedule; infer_instance

/-- The comparison handed to `sort.Slice` at line 349:
`cbzFile.Images[i].Name < cbzFile.Images[j].Name`. -/
def lessByName (a b : Image) : Bool := strLess a.Name b.Name

/-- Function `ParseCBZ` of mangapub/main.go:233-353. `reader` is the result of
`zip.OpenReader(filename)`: an error, or the entries of the archive. -/
def ParseCBZ {Img : Type} (lib : Codecs Img) (cfg : Features) (filename : Bytes)
    (reader : Except String (List ZipEntry)) (order : List Nat) : Except String File :=
  match reader with
  | Except.error err => Except.error ("failed to open CBZ file: " ++ err)
  | Except.ok files =>
    Except.ok
      { Name := filename
        Images := sortSlice lessByName (collected lib cfg files order) }

/-! ### A concrete library for running the model

The decoders accept any sniffed file whose last byte is not zero and remember the bytes; the
image size is taken from the fifth and sixth byte from the end; the encoder accepts every
canvas and emits the source bytes behind a one-byte marker. -/

/-- A decoder that rejects files ending in a zero byte. -/
def demoDecode (d : Bytes) : Except String Bytes :=
  if d.getLast? = some 0 then Except.error "malformed" else Except.ok d

/-- The library used in the worked examples. -/
def demoLib : Codecs Bytes :=
  { dec := ⟨demoDecode, demoDecode, demoDecode, demoDecode⟩
    Dx := fun img => img.length
    Dy := fun img => 2 * img.length
    jpegEncode := fun canvas quality => Except.ok (quality :: canvas.src) }

/-- A file with the JPEG magic number and the given payload. -/
def jpegBytes (payload : Bytes) : Bytes := [0xFF, 0xD8, 0xFF] ++ payload

/-- A file with the PNG magic number and the given payload. -/
def pngBytes (payload : Bytes) : Bytes :=
  [0x89, 0x50, 0x4E, 0x47, 0x0D, 0x0A, 0x1A, 0x0A] ++ payload

/-- A file with the GIF magic number and the given payload. -/
def gifBytes (payload : Bytes) : Bytes := [0x47, 0x49, 0x46, 0x38] ++ payload

/-- A regular archive entry that opens. -/
def entry (name : String) (d : Bytes) : ZipEntry := ⟨bytesOf name, false, Except.ok d⟩

/-- An archive of two entries with different names and the same derived base name. -/
def twins : List ZipEntry := [entry "a.png" (pngBytes [1]), entry "a.jpg" (jpegBytes [2])]

/-- The archive of the round-trip scenario: `b.png`, `a.jpg`, `c.gif`, each decodable. -/
def roundTrip : List ZipEntry :=
  [entry "b.png" (pngBytes [1]), entry "a.jpg" (jpegBytes [2]), entry "c.gif" (gifBytes [3])]

/-- An archive with three valid images, a directory, an entry that does not open, a text file
and a corrupt image. -/
def mixedArchive : List ZipEntry :=
  roundTrip ++
    [⟨bytesOf "dir/", true, Except.ok []⟩,
     ⟨bytesOf "locked.png", false, Except.error "checksum"⟩,
     entry "notes.txt" (bytesOf "hello, world"),
     entry "bad.png" (pngBytes [0])]


/-! ## mangapub: `CreateEPUB` -/

/-- Loop of the decimal conversion: the digits of `n` as ASCII bytes, most significant first,
put in front of `acc`. -/
def decimalLoop : Nat → Nat → Bytes → Bytes
  | 0, _, acc => acc
  | fuel + 1, n, acc =>
    if n < 10 then (48 + n) :: acc
    else decimalLoop fuel (n / 10) ((48 + n % 10) :: acc)

/-- The verb `%d` of `fmt` for a non-negative integer. -/
def decimal (n : Nat) : Bytes := decimalLoop (n + 1) n []

/-- The verb `%03d` of `fmt` for a non-negative integer: the decimal digits, with zeros in front
up to a width of three. -/
def decimal03 (n : Nat) : Bytes :=
  List.replicate (3 - (decimal n).length) 48 ++ decimal n

/-- The page name `fmt.Sprintf("page%03d", i+1)` for the page at index `i`
(mangapub/main.go:395 and 475). -/
def pageBase (i : Nat) : Bytes := bytesOf "page" ++ decimal03 (i + 1)

/-- Compression method of an archive entry: `zip.Store` or `zip.Deflate`. -/
inductive Method where
  | Store
  | Deflate
deriving DecidableEq, Repr

/-- An entry of the output archive: its header name and method, and the bytes written to it. -/
structure ArchiveEntry where
  Name : Bytes
  Method : Method
  Data : Bytes
deriving DecidableEq, Repr

/-- State of the `zip.Writer`: the entries created so far, in order. Writes go to the entry
created last. -/
abbrev Archive := List ArchiveEntry

/-- Type `Item` of mangapub/main.go:381-385; the field `Type` is spelled `Typ` here. -/
structure Item where
  ID : Nat
  Base : Bytes
  Typ : Bytes
deriving DecidableEq, Repr

/-- The map `literals` of mangapub/main.go:436-441. -/
structure Literals where
  ContentTitle : Bytes
  ContentDate : Bytes
  ContentUUID : Bytes
  ContentImages : List Item
deriving DecidableEq, Repr

/-- Everything `CreateEPUB` obtains from outside: the error (if any) of `os.Create`, of
`archive.CreateHeader` and `archive.Create` for a name in a given state, of `Write` for given
bytes in a given state, and of `template.ParseFS` for a template path; the output and error of
`tmpl.Execute` for the page template and for a metadata template; the formatted date and the
result of `GenerateUUID`. -/
structure World where
  osCreate : Bytes → Option String
  createHeader : Archive → Bytes → Option String
  write : Archive → Bytes → Option String
  parseFS : Bytes → Option String
  executePage : Item → Bytes × Option String
  executeMeta : Bytes → Literals → Bytes × Option String
  today : Bytes
  uuid : Bytes

/-- What a run leaves behind: the entries of the archive (with the bytes of the writes that
returned without error, and whatever a failing `Execute` had put out) and the returned
error, `none` for `nil`. -/
structure Outcome where
  archive : Archive
  err : Option String
deriving DecidableEq, Repr

/-- Text of a byte string, for error messages. -/
def textOf (b : Bytes) : String := String.mk (b.map Char.ofNat)

/-- Bytes appended to the entry created last. -/
def appendLast (a : Archive) (data : Bytes) : Archive :=
  match a.reverse with
  | [] => []
  | e :: before => (before.reverse ++ [{ e with Data := e.Data ++ data }])

/-- The name `fmt.Sprint("OEBPS/pages/", pathBase, ".xhtml")` of the markup document of the
page at index `i`. -/
def xhtmlPath (i : Nat) : Bytes := bytesOf "OEBPS/pages/" ++ pageBase i ++ bytesOf ".xhtml"

/-- The name `fmt.Sprint("OEBPS/images/", pathBase, ".jpeg")` of the image entry of the page at
index `i`. -/
def imagePath (i : Nat) : Bytes := bytesOf "OEBPS/images/" ++ pageBase i ++ bytesOf ".jpeg"

/-- The `pathItem` built for the page at index `i`. -/
def pathItem (i : Nat) (image : Image) : Item :=
  { ID := i + 1, Base := pageBase i, Typ := image.MimeType }

/-- Loop `for i, image := range input.Images` of mangapub/main.go:392-432, from index `i` on:
`a` is the archive and `items` is `ContentImages` on entry to the iteration. Returns the
archive, `ContentImages` and the error that ended the loop, if any. -/
def writePages (w : World) : Nat → List Image → Archive → List Item →
    Archive × List Item × Option String
  | _, [], a, items => (a, items, none)
  | i, image :: rest, a, items =>
    let pathTemplate := bytesOf "templates/page.xml"
    match w.parseFS pathTemplate with
    | some err =>
      (a, items, some ("cannot open template file '" ++ textOf pathTemplate ++ "': " ++ err))
    | none =>
      match w.createHeader a (xhtmlPath i) with
      | some err =>
        (a, items, some ("cannot create archive file '" ++ textOf (xhtmlPath i) ++ "': " ++ err))
      | none =>
        let a1 := a ++ [{ Name := xhtmlPath i, Method := Method.Deflate, Data := [] }]
        match w.executePage (pathItem i image) with
        | (out, some err) =>
          (appendLast a1 out, items,
            some ("cannot execute template file '" ++ textOf pathTemplate ++ "': " ++ err))
        | (out, none) =>
          let a2 := appendLast a1 out
          match w.createHeader a2 (imagePath i) with
          | some err =>
            (a2, items,
              some ("cannot create archive file '" ++ textOf (imagePath i) ++ "': " ++ err))
          | none =>
            let a3 := a2 ++ [{ Name := imagePath i, Method := Method.Deflate, Data := [] }]
            match w.write a3 image.Data with
            | some err =>
              (a3, items,
                some ("cannot write archive file '" ++ textOf (imagePath i) ++ "': " ++ err))
            | none =>
              writePages w (i + 1) rest (appendLast a3 image.Data) (items ++ [pathItem i image])

/-- The entries a loop over `images` from index `i` on adds when nothing fails: for each page
its markup document and then its image. -/
def pageEntries (w : World) : Nat → List Image → Archive
  | _, [] => []
  | i, image :: rest =>
    { Name := xhtmlPath i, Method := Method.Deflate, Data := (w.executePage (pathItem i image)).1 }
      :: { Name := imagePath i, Method := Method.Deflate, Data := image.Data }
      :: pageEntries w (i + 1) rest

/-- The names of the page entries for `n` pages from index `i` on. -/
def pageNames : Nat → Nat → List Bytes
  | _, 0 => []
  | i, n + 1 => xhtmlPath i :: imagePath i :: pageNames (i + 1) n

/-- The items for the pages from index `i` on. -/
def pageItems : Nat → List Image → List Item
  | _, [] => []
  | i, image :: rest => pathItem i image :: pageItems (i + 1) rest

/-- The three metadata documents of mangapub/main.go:442-446, each with its template. -/
def metaFiles : List (Bytes × Bytes) :=
  [(bytesOf "OEBPS/content.opf", bytesOf "templates/content.opf"),
   (bytesOf "OEBPS/toc.ncx", bytesOf "templates/toc.ncx"),
   (bytesOf "META-INF/container.xml", bytesOf "templates/container.xml")]

/-- Loop `for _, meta := range ...` of mangapub/main.go:442-460 over the remaining metadata
documents. -/
def writeMeta (w : World) (literals : Literals) : List (Bytes × Bytes) → Archive → Outcome
  | [], a => ⟨a, none⟩
  | (pathOutput, pathTemplate) :: rest, a =>
    match w.parseFS pathTemplate with
    | some err =>
      ⟨a, some ("cannot open template file '" ++ textOf pathTemplate ++ "': " ++ err)⟩
    | none =>
      match w.createHeader a pathOutput with
      | some err =>
        ⟨a, some ("cannot create archive file '" ++ textOf pathOutput ++ "': " ++ err)⟩
      | none =>
        let a1 := a ++ [{ Name := pathOutput, Method := Method.Deflate, Data := [] }]
        match w.executeMeta pathTemplate literals with
        | (out, some err) =>
          ⟨appendLast a1 out,
            some ("cannot execute template file '" ++ textOf pathTemplate ++ "': " ++ err)⟩
        | (out, none) => writeMeta w literals rest (appendLast a1 out)

/-- Function `CreateEPUB` of mangapub/main.go:355-464. -/
def CreateEPUB (w : World) (input : File) (filename : Bytes) : Outcome :=
  match w.osCreate (filename ++ bytesOf ".epub") with
  | some err => ⟨[], some ("failed to create output file: " ++ err)⟩
  | none =>
    match w.createHeader [] (bytesOf "mimetype") with
    | some err => ⟨[], some ("failed to create mimetype file: " ++ err)⟩
    | none =>
      let a0 : Archive := [{ Name := bytesOf "mimetype", Method := Method.Store, Data := [] }]
      match w.write a0 (bytesOf "application/epub+zip") with
      | some err => ⟨a0, some ("failed to write mimetype file: " ++ err)⟩
      | none =>
        let a1 := appendLast a0 (bytesOf "application/epub+zip")
        match writePages w 0 input.Images a1 [] with
        | (a2, _, some err) => ⟨a2, some err⟩
        | (a2, ContentImages, none) =>
          writeMeta w
            { ContentTitle := derivedBase input.Name
              ContentDate := w.today
              ContentUUID := w.uuid
              ContentImages := ContentImages }
            metaFiles a2

/-- The first entry of every container: named `mimetype`, stored, holding the document type. -/
def mimetypeEntry : ArchiveEntry :=
  { Name := bytesOf "mimetype", Method := Method.Store, Data := bytesOf "application/epub+zip" }

/-- The `literals` of a run in which the page loop went through. -/
def literalsOf (w : World) (input : File) : Literals :=
  { ContentTitle := derivedBase input.Name
    ContentDate := w.today
    ContentUUID := w.uuid
    ContentImages := pageItems 0 input.Images }

/-- The metadata entries of a run in which nothing fails. -/
def metaEntries (w : World) (input : File) : Archive :=
  metaFiles.map (fun m =>
    { Name := m.1, Method := Method.Deflate, Data := (w.executeMeta m.2 (literalsOf w input)).1 })

/-- The value a string of decimal digits stands for. -/
def digitsValue (s : Bytes) : Nat := s.foldl (fun acc c => 10 * acc + (c - 48)) 0

/-- A world in which nothing fails; the page template prints the page name and the metadata
templates print the title. -/
def calmWorld : World :=
  { osCreate := fun _ => none
    createHeader := fun _ _ => none
    write := fun _ _ => none
    parseFS := fun _ => none
    executePage := fun item => (item.Base, none)
    executeMeta := fun _ literals => (literals.ContentTitle, none)
    today := bytesOf "2024-01-01"
    uuid := bytesOf "00000000-0000-4000-8000-000000000000" }

/-- A world in which the disk is full after the first page: the third `Write` fails. -/
def fullDisk : World :=
  { calmWorld with write := fun a _ => if a.length < 3 then none else some "no space left" }

/-- A document of two pages. -/
def twoPages : File :=
  { Name := bytesOf "dir/book.cbz"
    Images := [⟨bytesOf "a.jpeg", [1, 2, 3], bytesOf "image/jpeg"⟩,
               ⟨bytesOf "b.jpeg", [4, 5], bytesOf "image/jpeg"⟩] }

/-! ## The design document's scaling formula -/

/-- The scaled size as the design document words it, in exact arithmetic:
`floor(W * r)` and `floor(H * r)` with `r = min(TW / W, TH / H)`. -/
def exactScaled (W H TW TH : Nat) : Nat × Nat :=
  let r : ℚ := min ((TW : ℚ) / (W : ℚ)) ((TH : ℚ) / (H : ℚ))
  (⌊(W : ℚ) * r⌋₊, ⌊(H : ℚ) * r⌋₊)

/-! ## Error bounds used in the proofs about `scaledSize` -/

/-- The float `v` is within one part in `2^53` of the fraction `n / d`. -/
def Approx (v : Float64) (n d : Nat) : Prop :=
  0 < v.den ∧
  (2 ^ 53 - 1) * (n * v.den) ≤ 2 ^ 53 * (v.num * d) ∧
  2 ^ 53 * (v.num * d) ≤ (2 ^ 53 + 1) * (n * v.den)

/-- The value `x` lies between `A * c₁` and `A * c₂`. -/
def Within (x A c₁ c₂ : ℚ) : Prop := A * c₁ ≤ x ∧ x ≤ A * c₂

/-- Lower factor of one rounding: `1 - 2^-53`. -/
def roundLo : ℚ := 1 - 1 / 2 ^ 53

/-- Upper factor of one rounding: `1 + 2^-53`. -/
def roundHi : ℚ := 1 + 1 / 2 ^ 53

/-- Lower factor accumulated over the conversions, the division and the product. -/
def chainLo : ℚ := roundLo * (roundLo / roundHi * roundLo) * roundLo

/-- Upper factor accumulated over the conversions, the division and the product. -/
def chainHi : ℚ := roundHi * (roundHi / roundLo * roundHi) * roundHi

/-! ## mangapub: `CreateDirectory` -/

/-- The elements of a path between its slashes, empty elements included (a path without a slash
is one element). -/
def splitSlash : Bytes → List Bytes
  | [] => [[]]
  | c :: cs =>
    if c = 47 then [] :: splitSlash cs
    else
      match splitSlash cs with
      | [] => [[c]]
      | e :: es => (c :: e) :: es

/-- One element met by `path.Clean`, `kept` being the elements kept so far: an empty element
and `.` are dropped; `..` removes the element kept last, unless there is none or it is itself a
`..`, in which case it is kept in an unrooted path and dropped in a rooted one; any other
element is kept. -/
def cleanStep (rooted : Bool) (kept : List Bytes) (e : Bytes) : List Bytes :=
  if e = [] ∨ e = [46] then kept
  else if e = [46, 46] then
    if kept ≠ [] ∧ kept.getLast? ≠ some [46, 46] then kept.dropLast
    else if rooted then kept
    else kept ++ [e]
  else kept ++ [e]

/-- The elements with a slash between them. -/
def joinSlash : List Bytes → Bytes
  | [] => []
  | [e] => e
  | e :: es => e ++ 47 :: joinSlash es

/-- Function `path.Clean` of the Go library: the shortest path equivalent to the given one by
purely lexical processing. -/
def Clean (path : Bytes) : Bytes :=
  if path = [] then bytesOf "."
  else
    let rooted := decide (path.head? = some 47)
    let kept := (splitSlash path).foldl (cleanStep rooted) []
    if rooted then 47 :: joinSlash kept
    else if kept = [] then bytesOf "."
    else joinSlash kept

/-- Function `path.Join` of the Go library for two elements: the non-empty elements with a slash
between them, cleaned; the empty string if both are empty. -/
def Join (a b : Bytes) : Bytes :=
  if a = [] ∧ b = [] then []
  else if a = [] then Clean b
  else if b = [] then Clean a
  else Clean (a ++ 47 :: b)

/-- The file name `fmt.Sprintf("page%03d.jpeg", i+1)` of the page at index `i`
(mangapub/main.go:475). -/
def imageName (i : Nat) : Bytes := bytesOf "page" ++ decimal03 (i + 1) ++ bytesOf ".jpeg"

/-- What `CreateDirectory` obtains from the file system: the error (if any) of `os.MkdirAll`
for a path, and of `os.WriteFile` for a path and content, given the files written before. -/
structure Disk where
  mkdirAll : Bytes → Option String
  writeFile : List (Bytes × Bytes) → Bytes → Bytes → Option String

/-- What a run of `CreateDirectory` leaves behind: the files written, as path and content in the
order of writing, and the returned error, `none` for `nil`. -/
structure DirOutcome where
  files : List (Bytes × Bytes)
  err : Option String
deriving DecidableEq, Repr

/-- Loop `for i, image := range input.Images` of mangapub/main.go:474-480 from index `i` on,
`done` being the files written before. -/
def writeImages (fs : Disk) (filename : Bytes) : Nat → List Image → List (Bytes × Bytes) →
    DirOutcome
  | _, [], done => ⟨done, none⟩
  | i, image :: rest, done =>
    let target := Join filename (imageName i)
    match fs.writeFile done target image.Data with
    | some err => ⟨done, some ("failed to write image: " ++ err)⟩
    | none => writeImages fs filename (i + 1) rest (done ++ [(target, image.Data)])

/-- Function `CreateDirectory` of mangapub/main.go:466-483. -/
def CreateDirectory (fs : Disk) (input : File) (filename : Bytes) : DirOutcome :=
  match fs.mkdirAll filename with
  | some err => ⟨[], some ("failed to create output dir: " ++ err)⟩
  | none => writeImages fs filename 0 input.Images []

/-- A file system on which nothing fails. -/
def calmDisk : Disk := { mkdirAll := fun _ => none, writeFile := fun _ _ _ => none }

/-- A document of three pages. -/
def threePages : File :=
  { Name := bytesOf "dir/book.cbz"
    Images := [⟨bytesOf "a.jpeg", [1, 2, 3], bytesOf "image/jpeg"⟩,
               ⟨bytesOf "b.jpeg", [4, 5], bytesOf "image/jpeg"⟩,
               ⟨bytesOf "c.jpeg", [6], bytesOf "image/jpeg"⟩] }

/-- A plain file name: not empty, without a slash, and neither `.` nor `..`. -/
def PlainName (name : Bytes) : Prop :=
  name ≠ [] ∧ 47 ∉ name ∧ name ≠ [46] ∧ name ≠ [46, 46]

/-- The files a loop over `images` from index `i` on writes when nothing fails. -/
def imageFiles (filename : Bytes) : Nat → List Image → List (Bytes × Bytes)
  | _, [] => []
  | i, image :: rest => (Join filename (imageName i), image.Data) :: imageFiles filename (i + 1) rest

/-! ## mangapub: `GenerateUUID` -/

/-- A lowercase hexadecimal digit as ASCII: `0`..`9`, `a`..`f`. -/
def hexDigit (n : Nat) : Nat := if n < 10 then 48 + n else 87 + n

/-- The verb `%x` of `fmt` for one byte of a byte slice: two lowercase hexadecimal digits. -/
def hexByte (b : Nat) : Bytes := [hexDigit (b / 16), hexDigit (b % 16)]

/-- The verb `%x` of `fmt` for a byte slice: two digits for each byte, in order. -/
def hexBytes : Bytes → Bytes
  | [] => []
  | b :: bs => hexByte b ++ hexBytes bs

/-- Loop of the hexadecimal conversion of a number: its digits, most significant first, put in
front of `acc`. -/
def hexLoop : Nat → Nat → Bytes → Bytes
  | 0, _, acc => acc
  | fuel + 1, n, acc =>
    if n < 16 then hexDigit n :: acc
    else hexLoop fuel (n / 16) (hexDigit (n % 16) :: acc)

/-- The verb `%x` of `fmt` for an integer: a minus sign for a negative number, then the digits
of its magnitude. -/
def hexInt (i : Int) : Bytes :=
  if i < 0 then 45 :: hexLoop (i.natAbs + 1) i.natAbs []
  else hexLoop (i.natAbs + 1) i.natAbs []

/-- The slice expression `s[lo:hi]`. -/
def slice (s : Bytes) (lo hi : Nat) : Bytes := (s.drop lo).take (hi - lo)

/-- The two assignments of mangapub/main.go:227-228 on the random bytes:
`uuid[6] = (uuid[6] & 0x0f) | 0x40` and `uuid[8] = (uuid[8] & 0x3f) | 0x80`. -/
def setVersionVariant (uuid : Bytes) : Bytes :=
  let uuid6 := uuid.set 6 ((uuid.getD 6 0 &&& 0x0f) ||| 0x40)
  uuid6.set 8 ((uuid6.getD 8 0 &&& 0x3f) ||| 0x80)

/-- Function `GenerateUUID` of mangapub/main.go:218-231. `randRead` is what `rand.Read` leaves
in the 16-byte slice, or its error; `unixNano` is `time.Now().UnixNano()`. -/
def GenerateUUID (randRead : Except String Bytes) (unixNano : Int) : Bytes :=
  match randRead with
  | Except.error _ => hexInt unixNano
  | Except.ok random =>
    let uuid := setVersionVariant random
    hexBytes (slice uuid 0 4) ++ 45 :: (hexBytes (slice uuid 4 6) ++ 45 ::
      (hexBytes (slice uuid 6 8) ++ 45 :: (hexBytes (slice uuid 8 10) ++ 45 ::
        hexBytes (slice uuid 10 16))))

/-- The value of a lowercase hexadecimal digit, `none` for any other byte. -/
def hexValue (c : Nat) : Option Nat :=
  if 48 ≤ c ∧ c ≤ 57 then some (c - 48)
  else if 97 ≤ c ∧ c ≤ 102 then some (c - 87)
  else none

/-- The bytes a string of lowercase hexadecimal digits stands for, two digits for a byte. -/
def unhex : Bytes → Option Bytes
  | [] => some []
  | [_] => none
  | hi :: lo :: rest =>
    match hexValue hi, hexValue lo, unhex rest with
    | some h, some l, some bs => some ((16 * h + l) :: bs)
    | _, _, _ => none

/-! ## crunchy: the command line -/

/-- Function `strings.SplitN(s, "=", 2)`: the string itself if it holds no `=`, otherwise what
is before and what is after the first `=`. -/
def SplitN2 (s : Bytes) : List Bytes :=
  match s.span (fun c => !decide (c = 61)) with
  | (before, []) => [before]
  | (before, _ :: after) => [before, after]

/-- Lower-case form of an ASCII letter, any other byte unchanged. -/
def foldByte (c : Nat) : Nat := if 65 ≤ c ∧ c ≤ 90 then c + 32 else c

/-- Function `strings.EqualFold` on ASCII strings: equality up to the case of letters. (Go also
folds the non-ASCII relatives of `k` and `s`; bytes above 127 are compared as they are here.) -/
def EqualFold (s t : Bytes) : Bool := decide (s.map foldByte = t.map foldByte)

/-- The digits of a decimal numeral read from the left, `acc` being the value so far; `none` at
a byte that is not a digit. -/
def readDigits : Bytes → Nat → Option Nat
  | [], acc => some acc
  | c :: cs, acc => if 48 ≤ c ∧ c ≤ 57 then readDigits cs (10 * acc + (c - 48)) else none

/-- Function `strconv.Atoi`: an optional sign and at least one decimal digit, the value within
the range of a 64-bit `int`; `none` stands for the error. -/
def Atoi (s : Bytes) : Option Int :=
  let (neg, digits) :=
    match s with
    | 45 :: ds => (true, ds)
    | 43 :: ds => (false, ds)
    | ds => (false, ds)
  if digits = [] then none
  else
    match readDigits digits 0 with
    | none => none
    | some v =>
      let i : Int := if neg then -(v : Int) else (v : Int)
      if -(2 ^ 63 : Int) ≤ i ∧ i ≤ 2 ^ 63 - 1 then some i else none

/-- Function `parseInteger` of crunchy/main.go:142-157 (the same in mangapub); the error is the
status of `os.Exit`. The flag name `n` only appears in the messages. -/
def parseInteger (_n : Bytes) (s : Bytes) (min max : Int) : Except Nat Int :=
  match Atoi s with
  | none => Except.error 1
  | some v =>
    if v < min then Except.error 1
    else if v > max then Except.error 1
    else Except.ok v

/-- The variables `optionQuality`, `optionNoise`, `optionGenerations` and `flags` of
crunchy/main.go:26-31. -/
structure Options where
  optionQuality : Int
  optionNoise : Int
  optionGenerations : Int
  flags : List Bytes
deriving DecidableEq, Repr

/-- The values before the first argument is read, crunchy/main.go:26-31. -/
def Options.initial : Options :=
  { optionQuality := 0, optionNoise := 25, optionGenerations := 5, flags := [] }

/-- Loop `for i := 1; i < len(os.Args); i++` of crunchy/main.go:32-61 over the remaining
arguments; the error is the status of `os.Exit`. -/
def parseArgs : List Bytes → Options → Except Nat Options
  | [], o => Except.ok o
  | arg :: rest, o =>
    match SplitN2 arg with
    | [n, s] =>
      if EqualFold n (bytesOf "--generations") then
        match parseInteger n s 0 (2 ^ 63 - 1) with
        | Except.error code => Except.error code
        | Except.ok v => parseArgs rest { o with optionGenerations := v }
      else if EqualFold n (bytesOf "--quality") then
        match parseInteger n s 0 100 with
        | Except.error code => Except.error code
        | Except.ok v => parseArgs rest { o with optionQuality := v }
      else if EqualFold n (bytesOf "--noise") then
        match parseInteger n s 0 100 with
        | Except.error code => Except.error code
        | Except.ok v => parseArgs rest { o with optionQuality := v }
      else Except.error 1
    | _ => parseArgs rest { o with flags := o.flags ++ [arg] }

/-- The argument handling of crunchy's `main`, crunchy/main.go:25-70, for the arguments after
the program name: the options in force when the image is read, or the status of `os.Exit`
(0 after the usage text when no file name is given). -/
def crunchyOptions (args : List Bytes) : Except Nat Options :=
  match parseArgs args Options.initial with
  | Except.error code => Except.error code
  | Except.ok o => if o.flags.length < 1 then Except.error 0 else Except.ok o

/-- A lowercase hexadecimal digit: `0`..`9` or `a`..`f`. -/
def LowerHex (c : Nat) : Prop := (48 ≤ c ∧ c ≤ 57) ∨ (97 ≤ c ∧ c ≤ 102)

/-! ## mangapub: worlds used to observe the item list of `CreateEPUB` -/

/-- No call to the outside fails: creating the output file, creating an entry, writing to an
entry, opening a template and executing a template all return without error. -/
def NoFailure (w : World) : Prop :=
  (∀ p, w.osCreate p = none) ∧
  (∀ a n, w.createHeader a n = none) ∧
  (∀ a d, w.write a d = none) ∧
  (∀ p, w.parseFS p = none) ∧
  (∀ item, (w.executePage item).2 = none) ∧
  (∀ p literals, (w.executeMeta p literals).2 = none)

/-- One line per item: its `ID` in decimal, its `Base` and its `Type`, separated by a blank. -/
def listing (items : List Item) : Bytes :=
  items.flatMap (fun item => decimal item.ID ++ [32] ++ item.Base ++ [32] ++ item.Typ ++ [10])

/-- A world in which nothing fails and every metadata template prints the item list it is
handed. -/
def listingWorld : World :=
  { calmWorld with executeMeta := fun _ literals => (listing literals.ContentImages, none) }
/-- A byte sequence that carries a magic number is at least as long as it. -/
theorem carries_length {c : Codec} {d : Bytes} (h : carries c d) : magicLen c ≤ d.length := by
  cases c
  · have := congrArg List.length h
    simp at this; simp [magicLen]; omega
  · have := congrArg List.length h
    simp at this; simp [magicLen]; omega
  · have := congrArg List.length h
    simp at this; simp [magicLen]; omega
  · have := congrArg List.length h.2
    simp at this; simp [magicLen]; omega

/-- What a guard of the `switch` tests, in terms of the listed magic numbers: the codec chosen
by `sniff` is one whose magic number the bytes carry, with at least one more byte behind it. -/
theorem sniff_some {d : Bytes} {c : Codec} (h : sniff d = some c) :
    carries c d ∧ magicLen c < d.length := by
  unfold sniff at h
  split_ifs at h with h1 h2 h3 h4 <;> cases h
  · obtain ⟨hl, a0, a1, a2⟩ := h1
    refine ⟨?_, by simpa [magicLen] using hl⟩
    rcases d with _ | ⟨x0, _ | ⟨x1, _ | ⟨x2, t⟩⟩⟩ <;> simp_all [carries]
  · obtain ⟨hl, a0, a1, a2, a3, a4, a5, a6, a7⟩ := h2
    refine ⟨?_, by simpa [magicLen] using hl⟩
    rcases d with _ | ⟨x0, _ | ⟨x1, _ | ⟨x2, _ | ⟨x3, _ | ⟨x4, _ | ⟨x5, _ | ⟨x6, _ | ⟨x7, t⟩⟩⟩⟩⟩⟩⟩⟩ <;>
      simp_all [carries]
  · obtain ⟨hl, a0, a1, a2, a3⟩ := h3
    refine ⟨?_, by simpa [magicLen] using hl⟩
    rcases d with _ | ⟨x0, _ | ⟨x1, _ | ⟨x2, _ | ⟨x3, t⟩⟩⟩⟩ <;> simp_all [carries]
  · obtain ⟨hl, a0, a1, a2, a3, a8, a9, a10, a11⟩ := h4
    refine ⟨?_, by simpa [magicLen] using hl⟩
    rcases d with _ | ⟨x0, _ | ⟨x1, _ | ⟨x2, _ | ⟨x3, _ | ⟨x4, _ | ⟨x5, _ | ⟨x6, _ | ⟨x7,
      _ | ⟨x8, _ | ⟨x9, _ | ⟨x10, _ | ⟨x11, t⟩⟩⟩⟩⟩⟩⟩⟩⟩⟩⟩⟩ <;> simp_all [carries]

/-- A byte sequence that carries the magic number of a codec and is longer than it is
dispatched to that codec. -/
theorem sniff_of_carries {d : Bytes} {c : Codec} (h : carries c d) (hl : magicLen c < d.length) :
    sniff d = some c := by
  cases c
  · rcases d with _ | ⟨x0, _ | ⟨x1, _ | ⟨x2, t⟩⟩⟩ <;> simp_all [carries, magicLen, sniff]
  · rcases d with _ | ⟨x0, _ | ⟨x1, _ | ⟨x2, _ | ⟨x3, _ | ⟨x4, _ | ⟨x5, _ | ⟨x6, _ | ⟨x7, t⟩⟩⟩⟩⟩⟩⟩⟩ <;>
      simp_all [carries, magicLen, sniff]
  · rcases d with _ | ⟨x0, _ | ⟨x1, _ | ⟨x2, _ | ⟨x3, t⟩⟩⟩⟩ <;>
      simp_all [carries, magicLen, sniff]
  · rcases d with _ | ⟨x0, _ | ⟨x1, _ | ⟨x2, _ | ⟨x3, _ | ⟨x4, _ | ⟨x5, _ | ⟨x6, _ | ⟨x7,
      _ | ⟨x8, _ | ⟨x9, _ | ⟨x10, _ | ⟨x11, t⟩⟩⟩⟩⟩⟩⟩⟩⟩⟩⟩⟩ <;>
      simp_all [carries, magicLen, sniff]


/-! ## The string order -/

theorem strLess_irrefl (a : Bytes) : strLess a a = false := by
  induction a with
  | nil => rfl
  | cons x xs ih => simp [strLess, ih]

theorem strLess_trans {a b c : Bytes} (hab : strLess a b = true) (hbc : strLess b c = true) :
    strLess a c = true := by
  induction a generalizing b c with
  | nil =>
    cases b with
    | nil => simp [strLess] at hab
    | cons y ys =>
      cases c with
      | nil => simp [strLess] at hbc
      | cons z zs => simp [strLess]
  | cons x xs ih =>
    cases b with
    | nil => simp [strLess] at hab
    | cons y ys =>
      cases c with
      | nil => simp [strLess] at hbc
      | cons z zs =>
        simp only [strLess, Bool.or_eq_true, Bool.and_eq_true, decide_eq_true_eq] at hab hbc ⊢
        rcases hab with hxy | ⟨hxy, hs⟩
        · rcases hbc with hyz | ⟨hyz, _⟩
          · exact Or.inl (lt_trans hxy hyz)
          · exact Or.inl (hyz ▸ hxy)
        · rcases hbc with hyz | ⟨hyz, ht⟩
          · exact Or.inl (hxy ▸ hyz)
          · exact Or.inr ⟨hxy.trans hyz, ih hs ht⟩

theorem strLess_total (a b : Bytes) : strLess a b = true ∨ a = b ∨ strLess b a = true := by
  induction a generalizing b with
  | nil =>
    cases b with
    | nil => exact Or.inr (Or.inl rfl)
    | cons y ys => exact Or.inl rfl
  | cons x xs ih =>
    cases b with
    | nil => exact Or.inr (Or.inr rfl)
    | cons y ys =>
      simp only [strLess, Bool.or_eq_true, Bool.and_eq_true, decide_eq_true_eq, List.cons.injEq]
      rcases Nat.lt_trichotomy x y with h | h | h
      · exact Or.inl (Or.inl h)
      · rcases ih ys with h1 | h1 | h1
        · exact Or.inl (Or.inr ⟨h, h1⟩)
        · exact Or.inr (Or.inl ⟨h, h1⟩)
        · exact Or.inr (Or.inr (Or.inr ⟨h.symm, h1⟩))
      · exact Or.inr (Or.inr (Or.inl h))

theorem strLess_asymm {a b : Bytes} (hab : strLess a b = true) : strLess b a = false := by
  cases h : strLess b a with
  | false => rfl
  | true =>
    have := strLess_trans hab h
    rw [strLess_irrefl] at this
    cases this

theorem strLE_of_not_less {a b : Bytes} (h : strLess b a = false) : strLE a b := by
  rcases strLess_total a b with h1 | h1 | h1
  · exact Or.inl h1
  · exact Or.inr h1
  · rw [h] at h1; cases h1

/-! ## Insertion sort -/

theorem sinkLeft_perm {α : Type} (less : α → α → Bool) (x : α) (done : List α) :
    (sinkLeft less x done).Perm (x :: done) := by
  induction done with
  | nil => exact List.Perm.refl _
  | cons y ys ih =>
    unfold sinkLeft
    split
    · exact (List.Perm.cons y ih).trans (List.Perm.swap x y ys)
    · exact List.Perm.refl _

theorem insertionSortLessFunc_perm {α : Type} (less : α → α → Bool) (done rest : List α) :
    (insertionSortLessFunc less done rest).Perm (done ++ rest) := by
  induction rest generalizing done with
  | nil => simp [insertionSortLessFunc]
  | cons x xs ih =>
    unfold insertionSortLessFunc
    refine (ih _).trans ?_
    refine (List.Perm.append_right xs (sinkLeft_perm less x done)).trans ?_
    simpa using (@List.perm_middle _ x done xs).symm

theorem sortSlice_perm {α : Type} (less : α → α → Bool) (data : List α) :
    (sortSlice less data).Perm data := by
  simpa [sortSlice] using insertionSortLessFunc_perm less [] data

theorem sinkLeft_pairwise {α : Type} {less : α → α → Bool} (hw : StrictWeak less) (x : α)
    (done : List α) (hd : done.Pairwise (fun a b => less a b = false)) :
    (sinkLeft less x done).Pairwise (fun a b => less a b = false) := by
  induction done with
  | nil => simp [sinkLeft]
  | cons y ys ih =>
    rw [List.pairwise_cons] at hd
    unfold sinkLeft
    split
    · rename_i hxy
      rw [List.pairwise_cons]
      refine ⟨?_, ih hd.2⟩
      intro z hz
      rcases List.mem_cons.mp ((sinkLeft_perm less x ys).mem_iff.mp hz) with rfl | hz
      · exact hw.asymm _ _ hxy
      · exact hd.1 z hz
    · rename_i hxy
      rw [List.pairwise_cons]
      refine ⟨?_, List.pairwise_cons.mpr hd⟩
      intro z hz
      rcases List.mem_cons.mp hz with rfl | hz
      · simpa using hxy
      · cases hxz : less x z with
        | false => rfl
        | true =>
          rcases hw.split x y z hxz with h | h
          · exact absurd h hxy
          · rw [hd.1 z hz] at h; cases h

theorem insertionSortLessFunc_pairwise {α : Type} {less : α → α → Bool} (hw : StrictWeak less)
    (done rest : List α) (hd : done.Pairwise (fun a b => less a b = false)) :
    (insertionSortLessFunc less done rest).Pairwise (fun a b => less b a = false) := by
  induction rest generalizing done with
  | nil => simpa [insertionSortLessFunc, List.pairwise_reverse] using hd
  | cons x xs ih =>
    unfold insertionSortLessFunc
    exact ih _ (sinkLeft_pairwise hw x done hd)

theorem sortSlice_pairwise {α : Type} {less : α → α → Bool} (hw : StrictWeak less)
    (data : List α) : (sortSlice less data).Pairwise (fun a b => less b a = false) :=
  insertionSortLessFunc_pairwise hw [] data List.Pairwise.nil

theorem lessByName_strictWeak : StrictWeak lessByName where
  asymm := fun _ _ h => strLess_asymm h
  split := by
    intro a b c hac
    unfold lessByName at *
    rcases strLess_total a.Name b.Name with h | h | h
    · exact Or.inl h
    · exact Or.inr (h ▸ hac)
    · exact Or.inr (strLess_trans h hac)

/-! ## The worker and the collected pages -/

theorem processEntry_name {Img : Type} {lib : Codecs Img} {cfg : Features} {file : ZipEntry}
    {p : Image} (h : processEntry lib cfg file = some p) :
    p.Name = derivedBase file.Name ++ bytesOf ".jpeg" := by
  unfold processEntry at h
  split at h
  · cases h
  · split at h
    · cases h
    · split at h
      · cases h
      · split at h
        · cases h
        · split at h
          · cases h
          · cases h; rfl

theorem processEntry_isSome {Img : Type} (lib : Codecs Img) (cfg : Features) (file : ZipEntry) :
    (processEntry lib cfg file).isSome = rendersPage lib cfg file := by
  unfold processEntry rendersPage
  cases hdir : file.IsDir
  · cases hd : file.Open with
    | error e => simp
    | ok d =>
      cases hc : sniff d with
      | none => simp [hc]
      | some c =>
        cases hi : lib.dec.run c d with
        | error e => simp [hc, hi]
        | ok img =>
          cases he : lib.jpegEncode (render lib cfg img) cfg.featureQuality with
          | error e => simp [hc, hi, he]
          | ok enc => simp [hc, hi, he]
  · simp

theorem filterMap_range_getElem {α β : Type} (f : α → Option β) (l : List α) :
    (List.range l.length).filterMap (fun i => (l[i]?).bind f) = l.filterMap f := by
  induction l with
  | nil => rfl
  | cons x xs ih =>
    rw [List.length_cons, List.range_succ_eq_map, List.filterMap_cons, List.filterMap_map]
    have : ((fun i => ((x :: xs)[i]?).bind f) ∘ Nat.succ) = fun i => (xs[i]?).bind f := by
      funext i; simp
    rw [this, ih]
    cases hx : f x <;> simp [hx]

theorem collected_perm {Img : Type} (lib : Codecs Img) (cfg : Features) {files : List ZipEntry}
    {order : List Nat} (h : Schedule files order) :
    (collected lib cfg files order).Perm (files.filterMap (processEntry lib cfg)) := by
  unfold collected
  rw [← filterMap_range_getElem (processEntry lib cfg) files]
  exact List.Perm.filterMap _ h

theorem images_perm {Img : Type} (lib : Codecs Img) (cfg : Features) {files : List ZipEntry}
    {order : List Nat} (h : Schedule files order) :
    (sortSlice lessByName (collected lib cfg files order)).Perm
      (files.filterMap (processEntry lib cfg)) :=
  (sortSlice_perm _ _).trans (collected_perm lib cfg h)

theorem length_filterMap_eq_countP {α β : Type} (f : α → Option β) (l : List α) :
    (l.filterMap f).length = l.countP (fun a => (f a).isSome) := by
  induction l with
  | nil => rfl
  | cons x xs ih =>
    cases hx : f x <;> simp [List.filterMap_cons, List.countP_cons, hx, ih]

theorem names_filterMap {Img : Type} (lib : Codecs Img) (cfg : Features)
    (files : List ZipEntry) :
    ((files.filterMap (processEntry lib cfg)).map Image.Name) =
      ((files.filter (rendersPage lib cfg)).map (fun e => derivedBase e.Name)).map
        (fun b => b ++ bytesOf ".jpeg") := by
  induction files with
  | nil => rfl
  | cons x xs ih =>
    have hx := processEntry_isSome lib cfg x
    cases hp : processEntry lib cfg x with
    | none =>
      rw [hp] at hx
      have hx2 : rendersPage lib cfg x = false := by simpa using hx.symm
      simp [List.filterMap_cons, hp, List.filter_cons, hx2, ih]
    | some p =>
      rw [hp] at hx
      have hx2 : rendersPage lib cfg x = true := by simpa using hx.symm
      simp [List.filterMap_cons, hp, List.filter_cons, hx2, ih, processEntry_name hp]

theorem sorted_strict_of_nodup {l : List Image}
    (hs : l.Pairwise (fun a b => lessByName b a = false)) (hn : (l.map Image.Name).Nodup) :
    l.Pairwise (fun a b => strLess a.Name b.Name = true) := by
  have hne : l.Pairwise (fun a b => a.Name ≠ b.Name) := by
    simpa [List.Nodup, List.pairwise_map] using hn
  refine (hs.and hne).imp ?_
  rintro a b ⟨h1, h2⟩
  rcases strLess_total a.Name b.Name with h | h | h
  · exact h
  · exact absurd h h2
  · unfold lessByName at h1; rw [h1] at h; cases h

theorem sorted_unique {l₁ l₂ : List Image} (hp : l₁.Perm l₂)
    (h₁ : l₁.Pairwise (fun a b => strLess a.Name b.Name = true))
    (h₂ : l₂.Pairwise (fun a b => strLess a.Name b.Name = true)) : l₁ = l₂ := by
  haveI : IsAntisymm Image (fun a b => strLess a.Name b.Name = true) :=
    ⟨fun a b hab hba => by rw [strLess_asymm hab] at hba; cases hba⟩
  exact List.eq_of_perm_of_sorted hp h₁ h₂

/-! ## Claims on `sniff`, `decodeImage` and `ParseCBZ` -/

/-- C2, as stated, fails: the three bytes `FF D8 FF` carry the JPEG magic number and are as
long as it, yet the `switch` takes its `default` branch, so `decodeImage` answers
`unsupported file type` without calling a decoder and the `ParseCBZ` worker drops the entry. The
same happens for the bare PNG, GIF and WEBP magic numbers. -/
theorem sniff_bare_magic_unsupported :
    (carries Codec.jpeg [0xFF, 0xD8, 0xFF] ∧ magicLen Codec.jpeg ≤ [0xFF, 0xD8, 0xFF].length ∧
      sniff [0xFF, 0xD8, 0xFF] = none) ∧
    (carries Codec.png [0x89, 0x50, 0x4E, 0x47, 0x0D, 0x0A, 0x1A, 0x0A] ∧
      sniff [0x89, 0x50, 0x4E, 0x47, 0x0D, 0x0A, 0x1A, 0x0A] = none) ∧
    (carries Codec.gif [0x47, 0x49, 0x46, 0x38] ∧ sniff [0x47, 0x49, 0x46, 0x38] = none) ∧
    (carries Codec.webp [0x52, 0x49, 0x46, 0x46, 0, 0, 0, 0, 0x57, 0x45, 0x42, 0x50] ∧
      sniff [0x52, 0x49, 0x46, 0x46, 0, 0, 0, 0, 0x57, 0x45, 0x42, 0x50] = none) ∧
    (∀ (Img : Type) (dec : Decoders Img),
      decodeImage dec [0xFF, 0xD8, 0xFF] = Except.error "unsupported file type") ∧
    (∀ (Img : Type) (lib : Codecs Img) (cfg : Features) (name : Bytes),
      processEntry lib cfg ⟨name, false, Except.ok [0xFF, 0xD8, 0xFF]⟩ = none) := by
  refine ⟨by decide, by decide, by decide, by decide, ?_, ?_⟩
  · intro Img dec
    have h : sniff [0xFF, 0xD8, 0xFF] = none := by decide
    simp [decodeImage, h]
  · intro Img lib cfg name
    have h : sniff [0xFF, 0xD8, 0xFF] = none := by decide
    simp [processEntry, h]

/-- C2 (amended): a byte sequence that carries the magic number of a codec (JPEG `FF D8 FF`,
PNG `89 50 4E 47 0D 0A 1A 0A`, GIF `47 49 46 38`, WEBP `52 49 46 46` at 0..4 and `57 45 42 50`
at 8..12) and is longer than it (more than 3, 8, 4 and 12 bytes) is dispatched to that codec:
`decodeImage` returns what that decoder returns, and the `ParseCBZ` worker drops the entry when
that decoder fails and otherwise encodes the rendering of the image that decoder produced. -/
theorem sniff_dispatches_longer_input (d : Bytes) (c : Codec) (hc : carries c d)
    (hl : magicLen c < d.length) :
    sniff d = some c ∧
    (∀ (Img : Type) (dec : Decoders Img), decodeImage dec d = dec.run c d) ∧
    (∀ (Img : Type) (lib : Codecs Img) (cfg : Features) (name : Bytes),
      (∀ e, lib.dec.run c d = Except.error e →
        processEntry lib cfg ⟨name, false, Except.ok d⟩ = none) ∧
      (∀ img enc, lib.dec.run c d = Except.ok img →
        lib.jpegEncode (render lib cfg img) cfg.featureQuality = Except.ok enc →
        processEntry lib cfg ⟨name, false, Except.ok d⟩ =
          some ⟨derivedBase name ++ bytesOf ".jpeg", enc, bytesOf "image/jpeg"⟩)) := by
  have hs := sniff_of_carries hc hl
  refine ⟨hs, ?_, ?_⟩
  · intro Img dec
    unfold decodeImage
    rw [hs]
    cases h : dec.run c d <;> simp [h]
  · intro Img lib cfg name
    constructor
    · intro e he
      simp [processEntry, hs, he]
    · intro img enc hi he
      simp [processEntry, hs, hi, he]

/-- Witness of C2 (amended) at the four bytes `FF D8 FF E0`. -/
theorem sniff_dispatches_longer_input_witness :
    carries Codec.jpeg [0xFF, 0xD8, 0xFF, 0xE0] ∧
    magicLen Codec.jpeg < [0xFF, 0xD8, 0xFF, 0xE0].length ∧
    sniff [0xFF, 0xD8, 0xFF, 0xE0] = some Codec.jpeg :=
  ⟨by decide, by decide,
    (sniff_dispatches_longer_input [0xFF, 0xD8, 0xFF, 0xE0] Codec.jpeg (by decide)
      (by decide)).1⟩

/-- C3: a byte sequence that, for each of the four codecs, either does not carry its magic
number or is shorter than it, is dispatched to no codec: the `switch` takes the `default`
branch, `decodeImage` returns the error `unsupported file type` whatever the decoders are, and
the `ParseCBZ` worker produces no page for an entry with these bytes. -/
theorem unsupported_bytes_reach_no_codec (d : Bytes)
    (h : ∀ c : Codec, ¬ carries c d ∨ d.length < magicLen c) :
    sniff d = none ∧
    (∀ (Img : Type) (dec : Decoders Img),
      decodeImage dec d = Except.error "unsupported file type") ∧
    (∀ (Img : Type) (lib : Codecs Img) (cfg : Features) (name : Bytes) (dir : Bool),
      processEntry lib cfg ⟨name, dir, Except.ok d⟩ = none) := by
  have hs : sniff d = none := by
    cases hc : sniff d with
    | none => rfl
    | some c =>
      obtain ⟨h1, h2⟩ := sniff_some hc
      rcases h c with h3 | h3
      · exact absurd h1 h3
      · omega
  refine ⟨hs, ?_, ?_⟩
  · intro Img dec
    simp [decodeImage, hs]
  · intro Img lib cfg name dir
    cases dir <;> simp [processEntry, hs]

/-- Witness of C3 at the two bytes `47 49`, the start of a GIF magic number cut short. -/
theorem unsupported_bytes_reach_no_codec_witness :
    (∀ c : Codec, ¬ carries c [0x47, 0x49] ∨ [0x47, 0x49].length < magicLen c) ∧
    sniff [0x47, 0x49] = none ∧
    (∀ (Img : Type) (dec : Decoders Img),
      decodeImage dec [0x47, 0x49] = Except.error "unsupported file type") ∧
    (∀ (Img : Type) (lib : Codecs Img) (cfg : Features) (name : Bytes) (dir : Bool),
      processEntry lib cfg ⟨name, dir, Except.ok [0x47, 0x49]⟩ = none) :=
  ⟨fun c => by cases c <;> decide,
    unsupported_bytes_reach_no_codec [0x47, 0x49] (fun c => by cases c <;> decide)⟩

/-- C1, as stated, fails: for the entries `a.png`, `a-b.jpg` the returned pages are `a-b.jpeg`,
`a.jpeg` (the order of the display names, `-` sorting before `.`), while the derived base
names are `a-b` and `a`, and `a` sorts before `a-b`. -/
theorem ParseCBZ_not_in_base_name_order :
    (ParseCBZ demoLib Features.default (bytesOf "x.cbz")
        (Except.ok [entry "a.png" (pngBytes [1]), entry "a-b.jpg" (jpegBytes [2])])
        [0, 1]).toOption.map (fun f => f.Images.map Image.Name)
      = some [bytesOf "a-b.jpeg", bytesOf "a.jpeg"] ∧
    derivedBase (bytesOf "a-b.jpg") = bytesOf "a-b" ∧
    derivedBase (bytesOf "a.png") = bytesOf "a" ∧
    strLess (bytesOf "a") (bytesOf "a-b") = true ∧
    ¬ strLE (bytesOf "a-b") (bytesOf "a") := by
  decide

/-- C1 (amended): for every archive and every completion order `ParseCBZ` returns a file whose
pages are in nondecreasing bytewise order of their display names (derived base name followed by
`.jpeg`), so no page has a display name below that of the first page; the entries `b.png`,
`a.jpg`, `c.gif` give `a.jpeg`, `b.jpeg`, `c.jpeg`. -/
theorem ParseCBZ_sorted_by_display_name {Img : Type} (lib : Codecs Img) (cfg : Features)
    (filename : Bytes) (files : List ZipEntry) (order : List Nat) :
    (∃ f, ParseCBZ lib cfg filename (Except.ok files) order = Except.ok f ∧
      f.Images.Pairwise (fun a b => strLE a.Name b.Name) ∧
      ∀ first, f.Images.head? = some first → ∀ p ∈ f.Images, strLE first.Name p.Name) ∧
    (ParseCBZ demoLib Features.default (bytesOf "x.cbz") (Except.ok roundTrip)
        [2, 0, 1]).toOption.map (fun f => f.Images.map Image.Name)
      = some [bytesOf "a.jpeg", bytesOf "b.jpeg", bytesOf "c.jpeg"] := by
  refine ⟨⟨_, rfl, ?_, ?_⟩, by decide⟩
  · exact (sortSlice_pairwise lessByName_strictWeak _).imp (fun h => strLE_of_not_less h)
  · intro first hf p hp
    have hs : (sortSlice lessByName (collected lib cfg files order)).Pairwise
        (fun a b => strLE a.Name b.Name) :=
      (sortSlice_pairwise lessByName_strictWeak _).imp (fun h => strLE_of_not_less h)
    revert hs hf hp
    generalize sortSlice lessByName (collected lib cfg files order) = l
    intro hf hp hs
    cases l with
    | nil => cases hf
    | cons x xs =>
      simp only [List.head?_cons, Option.some.injEq] at hf
      subst hf
      rcases List.mem_cons.mp hp with rfl | hp
      · exact Or.inr rfl
      · exact (List.pairwise_cons.mp hs).1 p hp

/-- Witness of C1 (amended) on the archive `b.png`, `a.jpg`, `c.gif`, the workers finishing
in the order 2, 0, 1. -/
theorem ParseCBZ_sorted_by_display_name_witness :
    ∃ f, ParseCBZ demoLib Features.default (bytesOf "x.cbz") (Except.ok roundTrip) [2, 0, 1]
        = Except.ok f ∧
      f.Images.Pairwise (fun a b => strLE a.Name b.Name) ∧
      ∀ first, f.Images.head? = some first → ∀ p ∈ f.Images, strLE first.Name p.Name :=
  (ParseCBZ_sorted_by_display_name demoLib Features.default (bytesOf "x.cbz") roundTrip
    [2, 0, 1]).1

/-- C4: for every archive and every completion order that handles each entry once, `ParseCBZ`
returns a file whose number of pages is the number of entries that are not directories, open,
sniff as a supported format, decode and encode; the pages are, up to order, exactly the pages
of those entries, so a failing entry adds no page and removes none. -/
theorem ParseCBZ_page_count {Img : Type} (lib : Codecs Img) (cfg : Features)
    (filename : Bytes) (files : List ZipEntry) (order : List Nat) (h : Schedule files order) :
    ∃ f, ParseCBZ lib cfg filename (Except.ok files) order = Except.ok f ∧
      f.Images.length = files.countP (rendersPage lib cfg) ∧
      f.Images.Perm (files.filterMap (processEntry lib cfg)) ∧
      ∀ e ∈ files, rendersPage lib cfg e = false → processEntry lib cfg e = none := by
  refine ⟨_, rfl, ?_, images_perm lib cfg h, ?_⟩
  · rw [(images_perm lib cfg h).length_eq, length_filterMap_eq_countP]
    congr 1
    funext e
    exact processEntry_isSome lib cfg e
  · intro e _ he
    have := processEntry_isSome lib cfg e
    rw [he] at this
    simpa using this

/-- Witness of C4: three valid and four invalid entries give three pages. -/
theorem ParseCBZ_page_count_witness :
    Schedule mixedArchive [6, 5, 4, 3, 2, 1, 0] ∧
    ∃ f, ParseCBZ demoLib Features.default (bytesOf "x.cbz") (Except.ok mixedArchive)
        [6, 5, 4, 3, 2, 1, 0] = Except.ok f ∧
      f.Images.length = mixedArchive.countP (rendersPage demoLib Features.default) ∧
      f.Images.Perm (mixedArchive.filterMap (processEntry demoLib Features.default)) ∧
      ∀ e ∈ mixedArchive, rendersPage demoLib Features.default e = false →
        processEntry demoLib Features.default e = none :=
  ⟨by decide, ParseCBZ_page_count demoLib Features.default (bytesOf "x.cbz") mixedArchive
    [6, 5, 4, 3, 2, 1, 0] (by decide)⟩


/-- C5, as stated, fails: the archive `a.png`, `a.jpg` yields two pages named `a.jpeg`; when
the workers finish in archive order the page of `a.png` comes first, when they finish in the
other order the page of `a.jpg` comes first, so the two runs return different sequences and the
second is not in archive order. -/
theorem ParseCBZ_depends_on_completion_order :
    Schedule twins [0, 1] ∧ Schedule twins [1, 0] ∧
    (ParseCBZ demoLib Features.default (bytesOf "x.cbz") (Except.ok twins) [0, 1]).toOption
      = some ⟨bytesOf "x.cbz",
          [⟨bytesOf "a.jpeg", 25 :: pngBytes [1], bytesOf "image/jpeg"⟩,
           ⟨bytesOf "a.jpeg", 25 :: jpegBytes [2], bytesOf "image/jpeg"⟩]⟩ ∧
    (ParseCBZ demoLib Features.default (bytesOf "x.cbz") (Except.ok twins) [1, 0]).toOption
      = some ⟨bytesOf "x.cbz",
          [⟨bytesOf "a.jpeg", 25 :: jpegBytes [2], bytesOf "image/jpeg"⟩,
           ⟨bytesOf "a.jpeg", 25 :: pngBytes [1], bytesOf "image/jpeg"⟩]⟩ ∧
    (ParseCBZ demoLib Features.default (bytesOf "x.cbz") (Except.ok twins) [0, 1]).toOption
      ≠ (ParseCBZ demoLib Features.default (bytesOf "x.cbz") (Except.ok twins) [1, 0]).toOption := by
  decide

/-- C5 (amended): for every archive whose rendered pages have pairwise distinct display names,
any two completion orders that handle each entry once make `ParseCBZ` return the same file. -/
theorem ParseCBZ_order_independent {Img : Type} (lib : Codecs Img) (cfg : Features)
    (filename : Bytes) (files : List ZipEntry) (order₁ order₂ : List Nat)
    (h₁ : Schedule files order₁) (h₂ : Schedule files order₂)
    (hn : ((files.filterMap (processEntry lib cfg)).map Image.Name).Nodup) :
    ParseCBZ lib cfg filename (Except.ok files) order₁ =
      ParseCBZ lib cfg filename (Except.ok files) order₂ := by
  have hp₁ := images_perm lib cfg h₁
  have hp₂ := images_perm lib cfg h₂
  have hs : ∀ order, Schedule files order →
      (sortSlice lessByName (collected lib cfg files order)).Pairwise
        (fun a b => strLess a.Name b.Name = true) := by
    intro order ho
    refine sorted_strict_of_nodup (sortSlice_pairwise lessByName_strictWeak _) ?_
    exact ((images_perm lib cfg ho).map Image.Name).nodup_iff.mpr hn
  have : sortSlice lessByName (collected lib cfg files order₁) =
      sortSlice lessByName (collected lib cfg files order₂) :=
    sorted_unique (hp₁.trans hp₂.symm) (hs _ h₁) (hs _ h₂)
  simp [ParseCBZ, this]

/-- Witness of C5 (amended) on the archive `b.png`, `a.jpg`, `c.gif`. -/
theorem ParseCBZ_order_independent_witness :
    Schedule roundTrip [0, 1, 2] ∧ Schedule roundTrip [2, 0, 1] ∧
    ((roundTrip.filterMap (processEntry demoLib Features.default)).map Image.Name).Nodup ∧
    ParseCBZ demoLib Features.default (bytesOf "x.cbz") (Except.ok roundTrip) [0, 1, 2] =
      ParseCBZ demoLib Features.default (bytesOf "x.cbz") (Except.ok roundTrip) [2, 0, 1] :=
  ⟨by decide, by decide, by decide,
    ParseCBZ_order_independent demoLib Features.default (bytesOf "x.cbz") roundTrip
      [0, 1, 2] [2, 0, 1] (by decide) (by decide) (by decide)⟩

/-- C6, as stated, fails: the entries `a.png` and `a.jpg` have different names, and both pages
are named `a.jpeg`. -/
theorem ParseCBZ_display_names_collide :
    (twins.map ZipEntry.Name).Nodup ∧
    (ParseCBZ demoLib Features.default (bytesOf "x.cbz") (Except.ok twins)
        [0, 1]).toOption.map (fun f => f.Images.map Image.Name)
      = some [bytesOf "a.jpeg", bytesOf "a.jpeg"] ∧
    ¬ [bytesOf "a.jpeg", bytesOf "a.jpeg"].Nodup := by
  decide

/-- C6 (amended): for every archive in which the entries that yield a page have pairwise
distinct derived base names (final path element without its extension), and every completion
order that handles each entry once, the display names of the pages `ParseCBZ` returns are
pairwise distinct. -/
theorem ParseCBZ_display_names_distinct {Img : Type} (lib : Codecs Img) (cfg : Features)
    (filename : Bytes) (files : List ZipEntry) (order : List Nat) (h : Schedule files order)
    (hb : ((files.filter (rendersPage lib cfg)).map (fun e => derivedBase e.Name)).Nodup) :
    ∃ f, ParseCBZ lib cfg filename (Except.ok files) order = Except.ok f ∧
      (f.Images.map Image.Name).Nodup := by
  refine ⟨_, rfl, ?_⟩
  refine ((images_perm lib cfg h).map Image.Name).nodup_iff.mpr ?_
  rw [names_filterMap]
  exact hb.map (List.append_left_injective (bytesOf ".jpeg"))

/-- Witness of C6 (amended) on the archive `b.png`, `a.jpg`, `c.gif`. -/
theorem ParseCBZ_display_names_distinct_witness :
    Schedule roundTrip [1, 2, 0] ∧
    ((roundTrip.filter (rendersPage demoLib Features.default)).map
      (fun e => derivedBase e.Name)).Nodup ∧
    ∃ f, ParseCBZ demoLib Features.default (bytesOf "x.cbz") (Except.ok roundTrip) [1, 2, 0]
        = Except.ok f ∧ (f.Images.map Image.Name).Nodup :=
  ⟨by decide, by decide,
    ParseCBZ_display_names_distinct demoLib Features.default (bytesOf "x.cbz") roundTrip
      [1, 2, 0] (by decide) (by decide)⟩

/-! ## The archive written by `CreateEPUB` -/

theorem appendLast_snoc (a : Archive) (e : ArchiveEntry) (data : Bytes) :
    appendLast (a ++ [e]) data = a ++ [{ e with Data := e.Data ++ data }] := by
  simp [appendLast]

theorem writePages_ok (w : World) (imgs : List Image) :
    ∀ (i : Nat) (a : Archive) (items : List Item) (a' : Archive) (items' : List Item),
      writePages w i imgs a items = (a', items', none) →
      a' = a ++ pageEntries w i imgs ∧ items' = items ++ pageItems i imgs := by
  induction imgs with
  | nil =>
    intro i a items a' items' h
    simp only [writePages, Prod.mk.injEq] at h
    simp [pageEntries, pageItems, h.1.symm, h.2.1.symm]
  | cons image rest ih =>
    intro i a items a' items' h
    simp only [writePages] at h
    split at h
    · simp at h
    · split at h
      · simp at h
      · split at h
        · simp at h
        · rename_i out hout
          split at h
          · simp at h
          · split at h
            · simp at h
            · obtain ⟨h1, h2⟩ := ih _ _ _ _ _ h
              subst h1 h2
              rw [appendLast_snoc, appendLast_snoc]
              simp [pageEntries, pageItems, hout]

theorem writePages_extends (w : World) (imgs : List Image) :
    ∀ (i : Nat) (a : Archive) (items : List Item),
      ∃ added, (writePages w i imgs a items).1 = a ++ added := by
  induction imgs with
  | nil => intro i a items; exact ⟨[], by simp [writePages]⟩
  | cons image rest ih =>
    intro i a items
    simp only [writePages]
    split
    · exact ⟨[], by simp⟩
    · split
      · exact ⟨[], by simp⟩
      · split
        · exact ⟨_, by rw [appendLast_snoc]⟩
        · split
          · exact ⟨_, by rw [appendLast_snoc]⟩
          · split
            · exact ⟨_, by rw [appendLast_snoc, List.append_assoc]⟩
            · obtain ⟨added, h⟩ := ih (i + 1) _ _
              rw [h, appendLast_snoc, appendLast_snoc]
              exact ⟨_, by rw [List.append_assoc, List.append_assoc]⟩

theorem writeMeta_extends (w : World) (literals : Literals) (metas : List (Bytes × Bytes)) :
    ∀ (a : Archive), ∃ added, (writeMeta w literals metas a).archive = a ++ added := by
  induction metas with
  | nil => intro a; exact ⟨[], by simp [writeMeta]⟩
  | cons m rest ih =>
    intro a
    obtain ⟨pathOutput, pathTemplate⟩ := m
    simp only [writeMeta]
    split
    · exact ⟨[], by simp⟩
    · split
      · exact ⟨[], by simp⟩
      · split
        · exact ⟨_, by rw [appendLast_snoc]⟩
        · obtain ⟨added, h⟩ := ih _
          rw [h, appendLast_snoc]
          exact ⟨_, by rw [List.append_assoc]⟩

theorem writeMeta_ok (w : World) (literals : Literals) (metas : List (Bytes × Bytes)) :
    ∀ (a : Archive), (writeMeta w literals metas a).err = none →
      (writeMeta w literals metas a).archive =
        a ++ metas.map (fun m =>
          { Name := m.1, Method := Method.Deflate, Data := (w.executeMeta m.2 literals).1 }) := by
  induction metas with
  | nil => intro a _; simp [writeMeta]
  | cons m rest ih =>
    intro a h
    obtain ⟨pathOutput, pathTemplate⟩ := m
    cases hp : w.parseFS pathTemplate with
    | some e => simp [writeMeta, hp] at h
    | none =>
      cases hc : w.createHeader a pathOutput with
      | some e => simp [writeMeta, hp, hc] at h
      | none =>
        rcases hx : w.executeMeta pathTemplate literals with ⟨out, _ | e⟩
        · simp only [writeMeta, hp, hc, hx] at h ⊢
          rw [ih _ h, appendLast_snoc]
          simp [hx]
        · simp [writeMeta, hp, hc, hx] at h

theorem CreateEPUB_ok (w : World) (input : File) (filename : Bytes)
    (h : (CreateEPUB w input filename).err = none) :
    (CreateEPUB w input filename).archive =
      mimetypeEntry :: (pageEntries w 0 input.Images ++ metaEntries w input) := by
  unfold CreateEPUB at h ⊢
  cases ho : w.osCreate (filename ++ bytesOf ".epub") with
  | some e => simp [ho] at h
  | none =>
    cases hc : w.createHeader [] (bytesOf "mimetype") with
    | some e => simp [ho, hc] at h
    | none =>
      cases hw : w.write [{ Name := bytesOf "mimetype", Method := Method.Store, Data := [] }]
          (bytesOf "application/epub+zip") with
      | some e => simp [ho, hc, hw] at h
      | none =>
        rcases hp : writePages w 0 input.Images
            (appendLast [{ Name := bytesOf "mimetype", Method := Method.Store, Data := [] }]
              (bytesOf "application/epub+zip")) [] with ⟨a2, items, _ | e⟩
        · simp only [ho, hc, hw, hp] at h ⊢
          obtain ⟨h1, h2⟩ := writePages_ok w _ _ _ _ _ _ hp
          simp only [List.nil_append] at h2
          subst h1 h2
          rw [writeMeta_ok w _ _ _ h]
          simp [appendLast, mimetypeEntry, metaEntries, literalsOf]
        · simp [ho, hc, hw, hp] at h

theorem CreateEPUB_head (w : World) (input : File) (filename : Bytes) :
    (CreateEPUB w input filename).archive = [] ∨
    ∃ data rest,
      (CreateEPUB w input filename).archive =
        { Name := bytesOf "mimetype", Method := Method.Store, Data := data } :: rest ∧
      (data = bytesOf "application/epub+zip" ∨
        (data = [] ∧ rest = [] ∧ (CreateEPUB w input filename).err ≠ none)) := by
  cases ho : w.osCreate (filename ++ bytesOf ".epub") with
  | some e => exact Or.inl (by simp [CreateEPUB, ho])
  | none =>
    cases hc : w.createHeader [] (bytesOf "mimetype") with
    | some e => exact Or.inl (by simp [CreateEPUB, ho, hc])
    | none =>
      refine Or.inr ?_
      cases hw : w.write [{ Name := bytesOf "mimetype", Method := Method.Store, Data := [] }]
          (bytesOf "application/epub+zip") with
      | some e =>
        exact ⟨[], [], by simp [CreateEPUB, ho, hc, hw],
          Or.inr ⟨rfl, rfl, by simp [CreateEPUB, ho, hc, hw]⟩⟩
      | none =>
        obtain ⟨added, hadd⟩ := writePages_extends w input.Images 0
            (appendLast [{ Name := bytesOf "mimetype", Method := Method.Store, Data := [] }]
              (bytesOf "application/epub+zip")) []
        rcases hp : writePages w 0 input.Images
            (appendLast [{ Name := bytesOf "mimetype", Method := Method.Store, Data := [] }]
              (bytesOf "application/epub+zip")) [] with ⟨a2, items, _ | e⟩
        · rw [hp] at hadd
          simp only at hadd
          subst hadd
          obtain ⟨more, hmore⟩ := writeMeta_extends w
            { ContentTitle := derivedBase input.Name
              ContentDate := w.today
              ContentUUID := w.uuid
              ContentImages := items } metaFiles
            (appendLast [{ Name := bytesOf "mimetype", Method := Method.Store, Data := [] }]
              (bytesOf "application/epub+zip") ++ added)
          refine ⟨bytesOf "application/epub+zip", added ++ more, ?_, Or.inl rfl⟩
          simp only [CreateEPUB, ho, hc, hw, hp]
          rw [hmore]
          simp [appendLast]
        · rw [hp] at hadd
          simp only at hadd
          subst hadd
          refine ⟨bytesOf "application/epub+zip", added, ?_, Or.inl rfl⟩
          simp only [CreateEPUB, ho, hc, hw, hp]
          simp [appendLast]

/-- An interrupted page loop leaves the entries of a run without failure up to some point,
followed by at most one entry that was created but not completed. -/
theorem writePages_shape (w : World) (imgs : List Image) :
    ∀ (i : Nat) (a : Archive) (items : List Item),
      (writePages w i imgs a items).2.2 = none ∨
      ∃ n tail,
        (writePages w i imgs a items).1 = a ++ ((pageEntries w i imgs).take n ++ tail) ∧
        (tail = [] ∨ ∃ e e', tail = [e] ∧ (pageEntries w i imgs)[n]? = some e' ∧
          e.Name = e'.Name ∧ e.Method = e'.Method) := by
  induction imgs with
  | nil => intro i a items; exact Or.inl (by simp [writePages])
  | cons image rest ih =>
    intro i a items
    cases hp : w.parseFS (bytesOf "templates/page.xml") with
    | some err =>
      exact Or.inr ⟨0, [], by simp [writePages, hp], Or.inl rfl⟩
    | none =>
      cases hc : w.createHeader a (xhtmlPath i) with
      | some err =>
        exact Or.inr ⟨0, [], by simp [writePages, hp, hc], Or.inl rfl⟩
      | none =>
        rcases hx : w.executePage (pathItem i image) with ⟨out, _ | err⟩
        · cases hc2 : w.createHeader
              (a ++ [{ Name := xhtmlPath i, Method := Method.Deflate, Data := out }])
              (imagePath i) with
          | some err =>
            refine Or.inr ⟨1, [], ?_, Or.inl rfl⟩
            simp [writePages, hp, hc, hx, hc2, appendLast_snoc, pageEntries]
          | none =>
            cases hw : w.write
                (a ++ [{ Name := xhtmlPath i, Method := Method.Deflate, Data := out },
                  { Name := imagePath i, Method := Method.Deflate, Data := [] }])
                image.Data with
            | some err =>
              refine Or.inr ⟨1, [{ Name := imagePath i, Method := Method.Deflate, Data := [] }],
                ?_, Or.inr ⟨_, ArchiveEntry.mk (imagePath i) Method.Deflate image.Data,
                  rfl, ?_, rfl, rfl⟩⟩
              · simp [writePages, hp, hc, hx, hc2, hw, appendLast_snoc, pageEntries]
              · simp [pageEntries]
            | none =>
              have hrec : writePages w i (image :: rest) a items =
                  writePages w (i + 1) rest
                    (a ++ [{ Name := xhtmlPath i, Method := Method.Deflate, Data := out },
                      { Name := imagePath i, Method := Method.Deflate, Data := image.Data }])
                    (items ++ [pathItem i image]) := by
                have e : a ++ [{ Name := xhtmlPath i, Method := Method.Deflate, Data := out },
                    { Name := imagePath i, Method := Method.Deflate, Data := [] }] =
                    (a ++ [{ Name := xhtmlPath i, Method := Method.Deflate, Data := out }]) ++
                      [{ Name := imagePath i, Method := Method.Deflate, Data := [] }] := by simp
                simp [writePages, hp, hc, hx, appendLast_snoc, hc2, hw]
                rw [e, appendLast_snoc]
                simp
              rw [hrec]
              rcases ih (i + 1) _ (items ++ [pathItem i image]) with h | ⟨n, tail, h1, h2⟩
              · exact Or.inl h
              · refine Or.inr ⟨n + 2, tail, ?_, ?_⟩
                · rw [h1]
                  simp [pageEntries, hx]
                · simpa [pageEntries] using h2
        · refine Or.inr ⟨0, [{ Name := xhtmlPath i, Method := Method.Deflate, Data := out }],
            ?_, Or.inr ⟨_, ArchiveEntry.mk (xhtmlPath i) Method.Deflate
              (w.executePage (pathItem i image)).1, rfl, ?_, rfl, rfl⟩⟩
          · simp [writePages, hp, hc, hx, appendLast_snoc]
          · simp [pageEntries]

/-- The container of any run: nothing; or the `mimetype` entry alone, not yet filled, with an
error; or the `mimetype` entry and an interrupted page loop, with an error; or the `mimetype`
entry, all page entries and what the metadata loop added. -/
theorem CreateEPUB_shape (w : World) (input : File) (filename : Bytes) :
    (CreateEPUB w input filename).archive = [] ∨
    ((CreateEPUB w input filename).archive =
        [{ Name := bytesOf "mimetype", Method := Method.Store, Data := [] }] ∧
      (CreateEPUB w input filename).err ≠ none) ∨
    ((CreateEPUB w input filename).err ≠ none ∧
      ∃ n tail,
        (CreateEPUB w input filename).archive =
          mimetypeEntry :: ((pageEntries w 0 input.Images).take n ++ tail) ∧
        (tail = [] ∨ ∃ e e', tail = [e] ∧ (pageEntries w 0 input.Images)[n]? = some e' ∧
          e.Name = e'.Name ∧ e.Method = e'.Method)) ∨
    ∃ more,
      (CreateEPUB w input filename).archive =
        mimetypeEntry :: (pageEntries w 0 input.Images ++ more) := by
  cases ho : w.osCreate (filename ++ bytesOf ".epub") with
  | some e => exact Or.inl (by simp [CreateEPUB, ho])
  | none =>
    cases hc : w.createHeader [] (bytesOf "mimetype") with
    | some e => exact Or.inl (by simp [CreateEPUB, ho, hc])
    | none =>
      cases hw : w.write [{ Name := bytesOf "mimetype", Method := Method.Store, Data := [] }]
          (bytesOf "application/epub+zip") with
      | some e =>
        exact Or.inr (Or.inl ⟨by simp [CreateEPUB, ho, hc, hw], by simp [CreateEPUB, ho, hc, hw]⟩)
      | none =>
        have hm : appendLast [{ Name := bytesOf "mimetype", Method := Method.Store, Data := [] }]
            (bytesOf "application/epub+zip") = [mimetypeEntry] := by
          simp [appendLast, mimetypeEntry]
        rcases hp : writePages w 0 input.Images [mimetypeEntry] [] with ⟨a2, items, _ | e⟩
        · obtain ⟨h1, h2⟩ := writePages_ok w _ _ _ _ _ _ hp
          subst h1
          obtain ⟨more, hmore⟩ := writeMeta_extends w
            { ContentTitle := derivedBase input.Name
              ContentDate := w.today
              ContentUUID := w.uuid
              ContentImages := items } metaFiles
            ([mimetypeEntry] ++ pageEntries w 0 input.Images)
          refine Or.inr (Or.inr (Or.inr ⟨more, ?_⟩))
          simp only [CreateEPUB, ho, hc, hw, hm, hp]
          rw [hmore]
          simp
        · refine Or.inr (Or.inr (Or.inl ⟨by simp [CreateEPUB, ho, hc, hw, hm, hp], ?_⟩))
          rcases writePages_shape w input.Images 0 [mimetypeEntry] [] with h | ⟨n, tail, h1, h2⟩
          · rw [hp] at h; cases h
          · rw [hp] at h1
            simp only at h1
            refine ⟨n, tail, ?_, h2⟩
            simp only [CreateEPUB, ho, hc, hw, hm, hp]
            rw [h1]
            simp

/-! ## Entry names -/

theorem decimalLoop_append (fuel : Nat) :
    ∀ (n : Nat) (acc : Bytes), decimalLoop fuel n acc = decimalLoop fuel n [] ++ acc := by
  induction fuel with
  | zero => intro n acc; simp [decimalLoop]
  | succ f ih =>
    intro n acc
    unfold decimalLoop
    split
    · simp
    · rw [ih (n / 10) ((48 + n % 10) :: acc), ih (n / 10) [48 + n % 10]]
      simp

theorem digitsValue_snoc (s : Bytes) (c : Nat) :
    digitsValue (s ++ [c]) = 10 * digitsValue s + (c - 48) := by
  simp [digitsValue, List.foldl_append]

theorem digitsValue_decimalLoop (fuel : Nat) :
    ∀ n : Nat, n < fuel → digitsValue (decimalLoop fuel n []) = n := by
  induction fuel with
  | zero => intro n h; omega
  | succ f ih =>
    intro n h
    unfold decimalLoop
    split
    · simp [digitsValue]
    · rw [decimalLoop_append, digitsValue_snoc, ih (n / 10) (by omega)]
      omega

theorem digitsValue_zeros (k : Nat) (s : Bytes) :
    digitsValue (List.replicate k 48 ++ s) = digitsValue s := by
  induction k with
  | zero => simp
  | succ k ih =>
    rw [List.replicate_succ, List.cons_append]
    unfold digitsValue at ih ⊢
    rw [List.foldl_cons]
    simpa using ih

theorem digitsValue_decimal03 (n : Nat) : digitsValue (decimal03 n) = n := by
  unfold decimal03
  rw [digitsValue_zeros]
  exact digitsValue_decimalLoop (n + 1) n (by omega)

theorem pageBase_injective {i j : Nat} (h : pageBase i = pageBase j) : i = j := by
  unfold pageBase at h
  have h2 := congrArg digitsValue (List.append_cancel_left h)
  rw [digitsValue_decimal03, digitsValue_decimal03] at h2
  omega

theorem xhtmlPath_injective {i j : Nat} (h : xhtmlPath i = xhtmlPath j) : i = j := by
  unfold xhtmlPath at h
  exact pageBase_injective (List.append_cancel_left (List.append_cancel_right h))

theorem imagePath_injective {i j : Nat} (h : imagePath i = imagePath j) : i = j := by
  unfold imagePath at h
  exact pageBase_injective (List.append_cancel_left (List.append_cancel_right h))

theorem xhtmlPath_take (i : Nat) : (xhtmlPath i).take 7 = bytesOf "OEBPS/p" := by
  have h : bytesOf "OEBPS/pages/" = bytesOf "OEBPS/p" ++ bytesOf "ages/" := by decide
  have hl : (bytesOf "OEBPS/p").length = 7 := by decide
  rw [xhtmlPath, h, List.append_assoc, List.append_assoc, List.take_left' hl]

theorem imagePath_take (i : Nat) : (imagePath i).take 7 = bytesOf "OEBPS/i" := by
  have h : bytesOf "OEBPS/images/" = bytesOf "OEBPS/i" ++ bytesOf "mages/" := by decide
  have hl : (bytesOf "OEBPS/i").length = 7 := by decide
  rw [imagePath, h, List.append_assoc, List.append_assoc, List.take_left' hl]

theorem mem_pageNames {x : Bytes} {i n : Nat} (h : x ∈ pageNames i n) :
    ∃ k, i ≤ k ∧ (x = xhtmlPath k ∨ x = imagePath k) := by
  induction n generalizing i with
  | zero => simp [pageNames] at h
  | succ n ih =>
    simp only [pageNames, List.mem_cons] at h
    rcases h with h | h | h
    · exact ⟨i, le_refl _, Or.inl h⟩
    · exact ⟨i, le_refl _, Or.inr h⟩
    · obtain ⟨k, hk, hx⟩ := ih h
      exact ⟨k, by omega, hx⟩

theorem pageNames_nodup (i n : Nat) : (pageNames i n).Nodup := by
  induction n generalizing i with
  | zero => simp [pageNames]
  | succ n ih =>
    have hne : ∀ a b, xhtmlPath a ≠ imagePath b := by
      intro a b h
      have := congrArg (List.take 7) h
      rw [xhtmlPath_take, imagePath_take] at this
      revert this
      decide
    simp only [pageNames, List.nodup_cons, List.mem_cons, not_or]
    refine ⟨⟨hne i i, ?_⟩, ?_, ih (i + 1)⟩
    · intro h
      obtain ⟨k, hk, hx | hx⟩ := mem_pageNames h
      · have := xhtmlPath_injective hx; omega
      · exact hne _ _ hx
    · intro h
      obtain ⟨k, hk, hx | hx⟩ := mem_pageNames h
      · exact hne _ _ hx.symm
      · have := imagePath_injective hx; omega

theorem pageEntries_names (w : World) (imgs : List Image) :
    ∀ i, (pageEntries w i imgs).map ArchiveEntry.Name = pageNames i imgs.length := by
  induction imgs with
  | nil => intro i; rfl
  | cons image rest ih => intro i; simp [pageEntries, pageNames, ih]

theorem pageEntries_image (w : World) (imgs : List Image) :
    ∀ (i k : Nat) (image : Image), imgs[k]? = some image →
      (pageEntries w i imgs)[2 * k + 1]? =
        some { Name := imagePath (i + k), Method := Method.Deflate, Data := image.Data } := by
  induction imgs with
  | nil => intro i k image h; simp at h
  | cons x rest ih =>
    intro i k image h
    cases k with
    | zero =>
      simp only [List.getElem?_cons_zero, Option.some.injEq] at h
      subst h
      simp [pageEntries]
    | succ k =>
      simp only [List.getElem?_cons_succ] at h
      have := ih (i + 1) k image h
      have e : 2 * (k + 1) + 1 = (2 * k + 1) + 1 + 1 := by omega
      rw [e]
      simp only [pageEntries, List.getElem?_cons_succ]
      rw [this]
      have e2 : i + 1 + k = i + (k + 1) := by omega
      rw [e2]

theorem allNames_nodup (n : Nat) :
    (bytesOf "mimetype" :: (pageNames 0 n ++ metaFiles.map Prod.fst)).Nodup := by
  have htag : ∀ x ∈ pageNames 0 n,
      x.take 7 = bytesOf "OEBPS/p" ∨ x.take 7 = bytesOf "OEBPS/i" := by
    intro x hx
    obtain ⟨k, _, h | h⟩ := mem_pageNames hx
    · exact Or.inl (h ▸ xhtmlPath_take k)
    · exact Or.inr (h ▸ imagePath_take k)
  rw [List.nodup_cons]
  refine ⟨?_, ?_⟩
  · intro h
    rcases List.mem_append.mp h with h | h
    · rcases htag _ h with h | h <;> revert h <;> decide
    · revert h; decide
  · rw [List.nodup_append]
    refine ⟨pageNames_nodup 0 n, by decide, ?_⟩
    intro x hx hm
    have hm2 : x.take 7 ∈ (metaFiles.map Prod.fst).map (List.take 7) :=
      List.mem_map_of_mem _ hm
    rcases htag x hx with h | h <;> rw [h] at hm2 <;> revert hm2 <;> decide

/-! ## Claims on `CreateEPUB` -/

/-- C8: for every input (with any number of pages, none included) and whatever the outside
world answers, the first entry `CreateEPUB` creates, if it creates one at all, is named
`mimetype` and uses the Store method; its payload is exactly `application/epub+zip` unless that
very write failed, in which case nothing else is written and an error is returned. A run that
returns no error always has this entry, payload included, as the first of the container. -/
theorem CreateEPUB_first_entry (w : World) (input : File) (filename : Bytes) :
    ((CreateEPUB w input filename).archive = [] ∨
      ∃ data rest,
        (CreateEPUB w input filename).archive =
          { Name := bytesOf "mimetype", Method := Method.Store, Data := data } :: rest ∧
        (data = bytesOf "application/epub+zip" ∨
          (data = [] ∧ rest = [] ∧ (CreateEPUB w input filename).err ≠ none))) ∧
    ((CreateEPUB w input filename).err = none →
      (CreateEPUB w input filename).archive.head? =
        some { Name := bytesOf "mimetype", Method := Method.Store,
               Data := bytesOf "application/epub+zip" }) := by
  refine ⟨CreateEPUB_head w input filename, ?_⟩
  intro h
  rw [CreateEPUB_ok w input filename h]
  rfl

/-- Witness of C8 on a document without pages, in a world where nothing fails. -/
theorem CreateEPUB_first_entry_witness :
    (CreateEPUB calmWorld ⟨bytesOf "empty.cbz", []⟩ (bytesOf "out/empty")).err = none ∧
    (CreateEPUB calmWorld ⟨bytesOf "empty.cbz", []⟩ (bytesOf "out/empty")).archive.head? =
      some { Name := bytesOf "mimetype", Method := Method.Store,
             Data := bytesOf "application/epub+zip" } :=
  ⟨by decide,
    (CreateEPUB_first_entry calmWorld ⟨bytesOf "empty.cbz", []⟩ (bytesOf "out/empty")).2
      (by decide)⟩

/-- C9: when `CreateEPUB` succeeds on an input of `N` pages, the names of the entries are, in
this order, `mimetype`, then for each page index `i = 0..N-1` the markup document
`OEBPS/pages/page<i+1>.xhtml` followed by the image `OEBPS/images/page<i+1>.jpeg` (the number
padded with zeros to three digits), then `OEBPS/content.opf`, `OEBPS/toc.ncx` and
`META-INF/container.xml`; there are `2N + 4` entries and no two have the same name. -/
theorem CreateEPUB_entries (w : World) (input : File) (filename : Bytes)
    (h : (CreateEPUB w input filename).err = none) :
    (CreateEPUB w input filename).archive.map ArchiveEntry.Name =
      bytesOf "mimetype" ::
        (pageNames 0 input.Images.length ++
          [bytesOf "OEBPS/content.opf", bytesOf "OEBPS/toc.ncx",
           bytesOf "META-INF/container.xml"]) ∧
    (CreateEPUB w input filename).archive.length = 2 * input.Images.length + 4 ∧
    ((CreateEPUB w input filename).archive.map ArchiveEntry.Name).Nodup ∧
    (∀ i, i < input.Images.length →
      ((CreateEPUB w input filename).archive.map ArchiveEntry.Name)[2 * i + 1]? =
        some (bytesOf "OEBPS/pages/page" ++ decimal03 (i + 1) ++ bytesOf ".xhtml") ∧
      ((CreateEPUB w input filename).archive.map ArchiveEntry.Name)[2 * i + 2]? =
        some (bytesOf "OEBPS/images/page" ++ decimal03 (i + 1) ++ bytesOf ".jpeg")) := by
  have hnames : (CreateEPUB w input filename).archive.map ArchiveEntry.Name =
      bytesOf "mimetype" :: (pageNames 0 input.Images.length ++ metaFiles.map Prod.fst) := by
    rw [CreateEPUB_ok w input filename h]
    simp [mimetypeEntry, metaEntries, pageEntries_names, Function.comp_def]
  have hlen : ∀ i n, (pageNames i n).length = 2 * n := by
    intro i n
    induction n generalizing i with
    | zero => rfl
    | succ n ih => simp only [pageNames, List.length_cons, ih]; omega
  have hidx : ∀ n i k, k < n →
      (pageNames i n)[2 * k]? = some (xhtmlPath (i + k)) ∧
      (pageNames i n)[2 * k + 1]? = some (imagePath (i + k)) := by
    intro n
    induction n with
    | zero => intro i k hk; omega
    | succ n ih =>
      intro i k hk
      cases k with
      | zero => simp [pageNames]
      | succ k =>
        have e1 : 2 * (k + 1) = 2 * k + 1 + 1 := by omega
        have e2 : 2 * (k + 1) + 1 = 2 * k + 1 + 1 + 1 := by omega
        have e3 : i + (k + 1) = i + 1 + k := by omega
        obtain ⟨h1, h2⟩ := ih (i + 1) k (by omega)
        rw [e2, e1, e3]
        simp only [pageNames, List.getElem?_cons_succ]
        exact ⟨h1, h2⟩
  refine ⟨hnames, ?_, ?_, ?_⟩
  · have := congrArg List.length hnames
    simp only [List.length_map, List.length_cons, List.length_append, hlen] at this
    rw [this]
    simp [metaFiles]
  · rw [hnames]
    exact allNames_nodup _
  · intro i hi
    obtain ⟨h1, h2⟩ := hidx input.Images.length 0 i hi
    have hl1 : 2 * i < (pageNames 0 input.Images.length).length := by rw [hlen]; omega
    have hl2 : 2 * i + 1 < (pageNames 0 input.Images.length).length := by rw [hlen]; omega
    rw [hnames]
    have e : 2 * i + 2 = 2 * i + 1 + 1 := by omega
    rw [e]
    simp only [List.getElem?_cons_succ]
    rw [List.getElem?_append_left hl1, List.getElem?_append_left hl2, h1, h2]
    simp [xhtmlPath, imagePath, pageBase, bytesOf]

/-- Witness of C9 on a document of two pages: eight entries, named as listed. -/
theorem CreateEPUB_entries_witness :
    (CreateEPUB calmWorld twoPages (bytesOf "out/book")).err = none ∧
    (CreateEPUB calmWorld twoPages (bytesOf "out/book")).archive.map ArchiveEntry.Name =
      [bytesOf "mimetype",
       bytesOf "OEBPS/pages/page001.xhtml", bytesOf "OEBPS/images/page001.jpeg",
       bytesOf "OEBPS/pages/page002.xhtml", bytesOf "OEBPS/images/page002.jpeg",
       bytesOf "OEBPS/content.opf", bytesOf "OEBPS/toc.ncx",
       bytesOf "META-INF/container.xml"] ∧
    (CreateEPUB calmWorld twoPages (bytesOf "out/book")).archive.length = 8 :=
  ⟨by decide,
    (CreateEPUB_entries calmWorld twoPages (bytesOf "out/book") (by decide)).1.trans
      (by decide),
    (CreateEPUB_entries calmWorld twoPages (bytesOf "out/book") (by decide)).2.1⟩

/-- C10: for every run of `CreateEPUB` and every page at index `k` (position `k + 1`), an
entry at index `2k + 2` of the container is the image entry `OEBPS/images/page<k+1>.jpeg` of
that page, and its content is exactly the `Data` of the page, unless the write of that very
entry failed (then it is the last entry and the run returns an error). When the run succeeds
the entry is there, with exactly the `Data` of the page. -/
theorem CreateEPUB_image_content (w : World) (input : File) (filename : Bytes) (k : Nat)
    (image : Image) (hk : input.Images[k]? = some image) :
    (∀ e, (CreateEPUB w input filename).archive[2 * k + 2]? = some e →
      e.Name = bytesOf "OEBPS/images/page" ++ decimal03 (k + 1) ++ bytesOf ".jpeg" ∧
      e.Method = Method.Deflate ∧
      (e.Data = image.Data ∨
        ((CreateEPUB w input filename).err ≠ none ∧
          (CreateEPUB w input filename).archive.length = 2 * k + 3))) ∧
    ((CreateEPUB w input filename).err = none →
      (CreateEPUB w input filename).archive[2 * k + 2]? =
        some { Name := bytesOf "OEBPS/images/page" ++ decimal03 (k + 1) ++ bytesOf ".jpeg",
               Method := Method.Deflate, Data := image.Data }) := by
  have hname : imagePath k =
      bytesOf "OEBPS/images/page" ++ decimal03 (k + 1) ++ bytesOf ".jpeg" := by
    simp [imagePath, pageBase, bytesOf]
  have hexp := pageEntries_image w input.Images 0 k image hk
  rw [Nat.zero_add, hname] at hexp
  have hlen : 2 * k + 1 < (pageEntries w 0 input.Images).length := by
    rcases Nat.lt_or_ge (2 * k + 1) (pageEntries w 0 input.Images).length with h | h
    · exact h
    · rw [List.getElem?_eq_none h] at hexp; cases hexp
  have e2 : 2 * k + 2 = 2 * k + 1 + 1 := by omega
  constructor
  · intro e he
    rcases CreateEPUB_shape w input filename with h | ⟨h, _⟩ | ⟨herr, n, tail, h, ht⟩ | ⟨more, h⟩
    · rw [h] at he; cases he
    · rw [h, e2] at he; cases he
    · rw [h, e2, List.getElem?_cons_succ] at he
      have hlt : (List.take n (pageEntries w 0 input.Images)).length =
          min n (pageEntries w 0 input.Images).length := List.length_take _ _
      rcases Nat.lt_or_ge (2 * k + 1) n with hn | hn
      · have hin : 2 * k + 1 < (List.take n (pageEntries w 0 input.Images)).length := by
          rw [hlt]; omega
        rw [List.getElem?_append_left hin, List.getElem?_take_of_lt hn, hexp] at he
        cases he
        exact ⟨rfl, rfl, Or.inl rfl⟩
      · rcases ht with ht | ⟨e0, e', ht, hn', hN, hM⟩
        · subst ht
          rw [List.append_nil, List.getElem?_eq_none (by rw [hlt]; omega)] at he
          cases he
        · subst ht
          have hnl : n < (pageEntries w 0 input.Images).length := by
            rcases Nat.lt_or_ge n (pageEntries w 0 input.Images).length with h1 | h1
            · exact h1
            · rw [List.getElem?_eq_none h1] at hn'; cases hn'
          have hge : (List.take n (pageEntries w 0 input.Images)).length ≤ 2 * k + 1 := by
            rw [hlt]; omega
          rw [List.getElem?_append_right hge, hlt, Nat.min_eq_left hnl.le] at he
          rcases Nat.eq_or_lt_of_le hn with h1 | h1
          · subst h1
            simp only [Nat.sub_self, List.getElem?_cons_zero, Option.some.injEq] at he
            subst he
            rw [hexp] at hn'
            cases hn'
            refine ⟨hN, hM, Or.inr ⟨herr, ?_⟩⟩
            rw [h]
            simp only [List.length_cons, List.length_append, hlt, Nat.min_eq_left hnl.le,
              List.length_nil]
          · have : 2 * k + 1 - n = (2 * k + 1 - n - 1) + 1 := by omega
            rw [this] at he
            cases he
    · rw [h, e2, List.getElem?_cons_succ, List.getElem?_append_left hlen, hexp] at he
      cases he
      exact ⟨rfl, rfl, Or.inl rfl⟩
  · intro h
    rw [CreateEPUB_ok w input filename h, e2, List.getElem?_cons_succ,
      List.getElem?_append_left hlen, hexp]

/-- Witness of C10: the second page of a two-page document, in a run without failure and in a
run where the disk fills up before the first image is written. -/
theorem CreateEPUB_image_content_witness :
    twoPages.Images[1]? = some ⟨bytesOf "b.jpeg", [4, 5], bytesOf "image/jpeg"⟩ ∧
    (CreateEPUB calmWorld twoPages (bytesOf "out/book")).err = none ∧
    (CreateEPUB calmWorld twoPages (bytesOf "out/book")).archive[2 * 1 + 2]? =
      some { Name := bytesOf "OEBPS/images/page" ++ decimal03 (1 + 1) ++ bytesOf ".jpeg",
             Method := Method.Deflate, Data := [4, 5] } ∧
    (CreateEPUB fullDisk twoPages (bytesOf "out/book")).archive[2 * 0 + 2]? =
      some { Name := bytesOf "OEBPS/images/page001.jpeg", Method := Method.Deflate, Data := [] } :=
  ⟨by decide, by decide,
    (CreateEPUB_image_content calmWorld twoPages (bytesOf "out/book") 1
      ⟨bytesOf "b.jpeg", [4, 5], bytesOf "image/jpeg"⟩ (by decide)).2 (by decide),
    by decide⟩

/-! ## Rounding error of `Float64.round` -/

theorem scaleUp_spec (fuel : Nat) :
    ∀ (n d : Nat), 2 ^ 52 * d ≤ n * 2 ^ fuel →
      (scaleUp fuel n d).1 = n * 2 ^ (scaleUp fuel n d).2 ∧ 2 ^ 52 * d ≤ (scaleUp fuel n d).1 := by
  induction fuel with
  | zero => intro n d h; simpa [scaleUp] using h
  | succ f ih =>
    intro n d h
    unfold scaleUp
    split
    · have h2 : 2 ^ 52 * d ≤ 2 * n * 2 ^ f := by
        rw [pow_succ] at h
        calc 2 ^ 52 * d ≤ n * (2 ^ f * 2) := h
          _ = 2 * n * 2 ^ f := by ring
      obtain ⟨h3, h4⟩ := ih (2 * n) d h2
      refine ⟨?_, h4⟩
      simp only []
      rw [h3, pow_succ]
      ring
    · rename_i hn
      exact ⟨by simp, by simpa using hn⟩

theorem scaleDown_spec (fuel : Nat) :
    ∀ (n d : Nat), 2 ^ 52 * d ≤ n →
      (scaleDown fuel n d).1 = d * 2 ^ (scaleDown fuel n d).2 ∧
      2 ^ 52 * (scaleDown fuel n d).1 ≤ n := by
  induction fuel with
  | zero => intro n d h; simpa [scaleDown] using h
  | succ f ih =>
    intro n d h
    unfold scaleDown
    split
    · rename_i hn
      have h2 : 2 ^ 52 * (2 * d) ≤ n := by
        calc 2 ^ 52 * (2 * d) = 2 ^ 53 * d := by ring
          _ ≤ n := hn
      obtain ⟨h3, h4⟩ := ih n (2 * d) h2
      refine ⟨?_, h4⟩
      simp only []
      rw [h3, pow_succ]
      ring
    · exact ⟨by simp, by simpa using h⟩

theorem round_approx (n d : Nat) (hd : 0 < d) : Approx (Float64.round n d) n d := by
  unfold Float64.round
  split
  · rename_i h
    rcases h with h | h
    · subst h; simp [Approx]
    · omega
  · rename_i h
    have hn : 0 < n := by omega
    dsimp only
    unfold Approx
    dsimp only
    have hfuel : 2 ^ 52 * d ≤ n * 2 ^ (52 + d) := by
      have h1 : d ≤ 2 ^ d := Nat.le_of_lt (Nat.lt_two_pow d)
      calc 2 ^ 52 * d ≤ 2 ^ 52 * 2 ^ d := Nat.mul_le_mul_left _ h1
        _ = 1 * 2 ^ (52 + d) := by rw [pow_add]; ring
        _ ≤ n * 2 ^ (52 + d) := Nat.mul_le_mul_right _ hn
    obtain ⟨hu1, hu2⟩ := scaleUp_spec (52 + d) n d hfuel
    obtain ⟨hd1, hd2⟩ := scaleDown_spec n (scaleUp (52 + d) n d).1 d hu2
    generalize (scaleUp (52 + d) n d).1 = N1 at *
    generalize (scaleUp (52 + d) n d).2 = k at *
    generalize (scaleDown n N1 d).1 = D1 at *
    generalize (scaleDown n N1 d).2 = j at *
    have hk : 0 < 2 ^ k := Nat.pow_pos (by norm_num)
    have hj : 0 < 2 ^ j := Nat.pow_pos (by norm_num)
    have hD1 : 0 < D1 := by rw [hd1]; exact Nat.mul_pos hd hj
    have hdm := Nat.div_add_mod N1 D1
    have hmod := Nat.mod_lt N1 hD1
    generalize hm : N1 / D1 = m at *
    generalize hr : N1 % D1 = rem at *
    -- the rounded mantissa times `D1` is within `D1 / 2` of `N1`
    have key : ∀ m1 : Nat,
        m1 = (if D1 < 2 * rem ∨ (2 * rem = D1 ∧ m % 2 = 1) then m + 1 else m) →
        2 * (m1 * D1) ≤ 2 * N1 + D1 ∧ 2 * N1 ≤ 2 * (m1 * D1) + D1 := by
      intro m1 hm1
      have e1 : (m + 1) * D1 = D1 * m + D1 := by ring
      have e2 : m * D1 = D1 * m := by ring
      split at hm1
      · rename_i hc
        rw [hm1, e1]
        rcases hc with hc | ⟨hc, _⟩ <;> omega
      · rename_i hc
        rw [hm1, e2]
        have : ¬ D1 < 2 * rem := fun h => hc (Or.inl h)
        omega
    obtain ⟨k1, k2⟩ := key _ rfl
    generalize (if D1 < 2 * rem ∨ (2 * rem = D1 ∧ m % 2 = 1) then m + 1 else m) = m1 at *
    refine ⟨hk, ?_, ?_⟩
    · show (2 ^ 53 - 1) * (n * 2 ^ k) ≤ 2 ^ 53 * (m1 * 2 ^ j * d)
      have e : m1 * 2 ^ j * d = m1 * D1 := by rw [hd1]; ring
      rw [e, ← hu1]
      have : 2 ^ 52 * D1 ≤ N1 := hd2
      generalize m1 * D1 = X at *
      omega
    · show 2 ^ 53 * (m1 * 2 ^ j * d) ≤ (2 ^ 53 + 1) * (n * 2 ^ k)
      have e : m1 * 2 ^ j * d = m1 * D1 := by rw [hd1]; ring
      rw [e, ← hu1]
      have : 2 ^ 52 * D1 ≤ N1 := hd2
      generalize m1 * D1 = X at *
      omega

theorem round_den_pos (n d : Nat) : 0 < (Float64.round n d).den := by
  unfold Float64.round
  split
  · exact Nat.one_pos
  · exact Nat.pow_pos (by norm_num)

theorem roundLo_pos : 0 < roundLo := by norm_num [roundLo]

theorem roundHi_pos : 0 < roundHi := by norm_num [roundHi]

theorem within_round (n d : Nat) (hd : 0 < d) :
    Within (Float64.round n d).toRat ((n : ℚ) / (d : ℚ)) roundLo roundHi := by
  obtain ⟨h0, h1, h2⟩ := round_approx n d hd
  generalize Float64.round n d = v at *
  have hd' : (0 : ℚ) < (d : ℚ) := by exact_mod_cast hd
  have hv : (0 : ℚ) < (v.den : ℚ) := by exact_mod_cast h0
  have e1 : ((2 ^ 53 - 1 : ℕ) : ℚ) * ((n : ℚ) * (v.den : ℚ)) ≤
      2 ^ 53 * ((v.num : ℚ) * (d : ℚ)) := by exact_mod_cast h1
  have e2 : (2 : ℚ) ^ 53 * ((v.num : ℚ) * (d : ℚ)) ≤
      (2 ^ 53 + 1) * ((n : ℚ) * (v.den : ℚ)) := by exact_mod_cast h2
  have e3 : ((2 ^ 53 - 1 : ℕ) : ℚ) = 2 ^ 53 - 1 := by norm_num
  rw [e3] at e1
  unfold Within Float64.toRat roundLo roundHi
  constructor
  · rw [div_mul_eq_mul_div, div_le_div_iff₀ hd' hv]
    have : (n : ℚ) * (1 - 1 / 2 ^ 53) * (v.den : ℚ) * 2 ^ 53 =
        (2 ^ 53 - 1) * ((n : ℚ) * (v.den : ℚ)) := by ring
    nlinarith
  · rw [div_mul_eq_mul_div, div_le_div_iff₀ hv hd']
    have : (n : ℚ) * (1 + 1 / 2 ^ 53) * (v.den : ℚ) * 2 ^ 53 =
        (2 ^ 53 + 1) * ((n : ℚ) * (v.den : ℚ)) := by ring
    nlinarith

theorem within_nonneg {x A c₁ c₂ : ℚ} (h : Within x A c₁ c₂) (hA : 0 ≤ A) (hc : 0 ≤ c₁) :
    0 ≤ x := le_trans (mul_nonneg hA hc) h.1

theorem within_pos {x A c₁ c₂ : ℚ} (h : Within x A c₁ c₂) (hA : 0 < A) (hc : 0 < c₁) :
    0 < x := lt_of_lt_of_le (mul_pos hA hc) h.1

theorem within_mul {x y A B c₁ c₂ d₁ d₂ : ℚ} (hx : Within x A c₁ c₂) (hy : Within y B d₁ d₂)
    (hA : 0 ≤ A) (hB : 0 ≤ B) (hc : 0 ≤ c₁) (hd : 0 ≤ d₁) :
    Within (x * y) (A * B) (c₁ * d₁) (c₂ * d₂) := by
  have hx0 := within_nonneg hx hA hc
  have hy0 := within_nonneg hy hB hd
  constructor
  · calc A * B * (c₁ * d₁) = (A * c₁) * (B * d₁) := by ring
      _ ≤ x * y := mul_le_mul hx.1 hy.1 (mul_nonneg hB hd) hx0
  · calc x * y ≤ (A * c₂) * (B * d₂) := mul_le_mul hx.2 hy.2 hy0 (le_trans hx0 hx.2)
      _ = A * B * (c₂ * d₂) := by ring

theorem within_div {x y A B c₁ c₂ d₁ d₂ : ℚ} (hx : Within x A c₁ c₂) (hy : Within y B d₁ d₂)
    (hA : 0 ≤ A) (hB : 0 < B) (hc : 0 ≤ c₁) (hd : 0 < d₁) :
    Within (x / y) (A / B) (c₁ / d₂) (c₂ / d₁) := by
  have hx0 := within_nonneg hx hA hc
  have hy0 := within_pos hy hB hd
  have hBd1 : 0 < B * d₁ := mul_pos hB hd
  have hBd2 : 0 < B * d₂ := lt_of_lt_of_le hy0 hy.2
  have hd2 : 0 < d₂ := by
    rcases lt_or_ge 0 d₂ with h | h
    · exact h
    · exact absurd (mul_nonpos_of_nonneg_of_nonpos hB.le h) (not_le.mpr hBd2)
  constructor
  · calc A / B * (c₁ / d₂) = (A * c₁) / (B * d₂) := by field_simp
      _ ≤ x / (B * d₂) := div_le_div_of_nonneg_right hx.1 hBd2.le
      _ ≤ x / y := div_le_div_of_nonneg_left hx0 hy0 hy.2
  · calc x / y ≤ x / (B * d₁) := div_le_div_of_nonneg_left hx0 hBd1 hy.1
      _ ≤ (A * c₂) / (B * d₁) := div_le_div_of_nonneg_right hx.2 hBd1.le
      _ = A / B * (c₂ / d₁) := by field_simp

theorem within_min {x y A B c₁ c₂ : ℚ} (hx : Within x A c₁ c₂) (hy : Within y B c₁ c₂)
    (hc₁ : 0 ≤ c₁) (hc₂ : 0 ≤ c₂) : Within (min x y) (min A B) c₁ c₂ := by
  constructor
  · rw [min_mul_of_nonneg _ _ hc₁]
    exact min_le_min hx.1 hy.1
  · rw [min_mul_of_nonneg _ _ hc₂]
    exact min_le_min hx.2 hy.2

theorem within_trans {x y A c₁ c₂ d₁ d₂ : ℚ} (hx : Within x y d₁ d₂) (hy : Within y A c₁ c₂)
    (hd₁ : 0 ≤ d₁) (hd₂ : 0 ≤ d₂) : Within x A (c₁ * d₁) (c₂ * d₂) := by
  constructor
  · calc A * (c₁ * d₁) = (A * c₁) * d₁ := by ring
      _ ≤ y * d₁ := mul_le_mul_of_nonneg_right hy.1 hd₁
      _ ≤ x := hx.1
  · calc x ≤ y * d₂ := hx.2
      _ ≤ (A * c₂) * d₂ := mul_le_mul_of_nonneg_right hy.2 hd₂
      _ = A * (c₂ * d₂) := by ring

theorem within_ofInt (n : Nat) : Within (Float64.ofInt n).toRat (n : ℚ) roundLo roundHi := by
  have := within_round n 1 Nat.one_pos
  simpa [Float64.ofInt] using this

theorem toRat_pos_iff (v : Float64) (hv : 0 < v.den) : 0 < v.toRat ↔ 0 < v.num := by
  unfold Float64.toRat
  have hv' : (0 : ℚ) < (v.den : ℚ) := by exact_mod_cast hv
  rw [div_pos_iff_of_pos_right hv']
  exact Nat.cast_pos

theorem within_fdiv (x y : Float64) (hx : 0 < x.den) (hy : 0 < y.den) (hn : 0 < y.num) :
    Within (Float64.div x y).toRat (x.toRat / y.toRat) roundLo roundHi := by
  have h := within_round (x.num * y.den) (x.den * y.num) (Nat.mul_pos hx hn)
  have hx' : (x.den : ℚ) ≠ 0 := by exact_mod_cast hx.ne'
  have hy' : (y.den : ℚ) ≠ 0 := by exact_mod_cast hy.ne'
  have hn' : (y.num : ℚ) ≠ 0 := by exact_mod_cast hn.ne'
  have e : ((x.num * y.den : ℕ) : ℚ) / ((x.den * y.num : ℕ) : ℚ) = x.toRat / y.toRat := by
    unfold Float64.toRat
    push_cast
    field_simp
  rw [e] at h
  exact h

theorem within_fmul (x y : Float64) (hx : 0 < x.den) (hy : 0 < y.den) :
    Within (Float64.mul x y).toRat (x.toRat * y.toRat) roundLo roundHi := by
  have h := within_round (x.num * y.num) (x.den * y.den) (Nat.mul_pos hx hy)
  have hx' : (x.den : ℚ) ≠ 0 := by exact_mod_cast hx.ne'
  have hy' : (y.den : ℚ) ≠ 0 := by exact_mod_cast hy.ne'
  have e : ((x.num * y.num : ℕ) : ℚ) / ((x.den * y.den : ℕ) : ℚ) = x.toRat * y.toRat := by
    unfold Float64.toRat
    push_cast
    field_simp
  rw [e] at h
  exact h

theorem toRat_min (x y : Float64) (hx : 0 < x.den) (hy : 0 < y.den) :
    (Float64.min x y).toRat = min x.toRat y.toRat := by
  have hx' : (0 : ℚ) < (x.den : ℚ) := by exact_mod_cast hx
  have hy' : (0 : ℚ) < (y.den : ℚ) := by exact_mod_cast hy
  have key : x.num * y.den ≤ y.num * x.den ↔ x.toRat ≤ y.toRat := by
    unfold Float64.toRat
    rw [div_le_div_iff₀ hx' hy']
    exact_mod_cast Iff.rfl
  unfold Float64.min
  split
  · rename_i h
    exact (min_eq_left (key.mp h)).symm
  · rename_i h
    have : y.toRat ≤ x.toRat := le_of_lt (not_le.mp (fun h2 => h (key.mpr h2)))
    exact (min_eq_right this).symm

theorem min_den_pos (x y : Float64) (hx : 0 < x.den) (hy : 0 < y.den) :
    0 < (Float64.min x y).den := by
  unfold Float64.min
  split <;> assumption

theorem toInt_eq_floor (v : Float64) : v.toInt = ⌊v.toRat⌋₊ := by
  unfold Float64.toInt Float64.toRat
  exact (Nat.floor_div_eq_div v.num v.den).symm

/-- The float product `float64(s) * ratio` of `scaledSize`, for the side `s` of the source,
stays within the accumulated rounding factors of the exact `s * min(TW / W, TH / H)`. -/
theorem within_scaled (s W H TW TH : Nat) (hs : 1 ≤ s) (hW : 1 ≤ W) (hH : 1 ≤ H) :
    Within
      (Float64.mul (Float64.ofInt s)
        (Float64.min (Float64.div (Float64.ofInt TW) (Float64.ofInt W))
          (Float64.div (Float64.ofInt TH) (Float64.ofInt H)))).toRat
      ((s : ℚ) * min ((TW : ℚ) / (W : ℚ)) ((TH : ℚ) / (H : ℚ))) chainLo chainHi := by
  have hlo := roundLo_pos
  have hhi := roundHi_pos
  have hW' : (0 : ℚ) < (W : ℚ) := by exact_mod_cast hW
  have hH' : (0 : ℚ) < (H : ℚ) := by exact_mod_cast hH
  have hs' : (0 : ℚ) < (s : ℚ) := by exact_mod_cast hs
  have hTW : (0 : ℚ) ≤ (TW : ℚ) := Nat.cast_nonneg _
  have hTH : (0 : ℚ) ≤ (TH : ℚ) := Nat.cast_nonneg _
  have pos : ∀ n : Nat, 1 ≤ n → 0 < (Float64.ofInt n).num := by
    intro n hn
    have hn' : (0 : ℚ) < (n : ℚ) := by exact_mod_cast hn
    exact (toRat_pos_iff _ (round_den_pos n 1)).mp (within_pos (within_ofInt n) hn' hlo)
  have quot : ∀ T D : Nat, 1 ≤ D →
      Within (Float64.div (Float64.ofInt T) (Float64.ofInt D)).toRat ((T : ℚ) / (D : ℚ))
        (roundLo / roundHi * roundLo) (roundHi / roundLo * roundHi) := by
    intro T D hD
    have hD' : (0 : ℚ) < (D : ℚ) := by exact_mod_cast hD
    have h1 := within_div (within_ofInt T) (within_ofInt D) (Nat.cast_nonneg T) hD' hlo.le hlo
    have h2 := within_fdiv (Float64.ofInt T) (Float64.ofInt D) (round_den_pos T 1)
      (round_den_pos D 1) (pos D hD)
    exact within_trans h2 h1 hlo.le hhi.le
  have hc1 : 0 ≤ roundLo / roundHi * roundLo := mul_nonneg (div_nonneg hlo.le hhi.le) hlo.le
  have hc2 : 0 ≤ roundHi / roundLo * roundHi := mul_nonneg (div_nonneg hhi.le hlo.le) hhi.le
  have hmin := within_min (quot TW W hW) (quot TH H hH) hc1 hc2
  rw [← toRat_min (Float64.div (Float64.ofInt TW) (Float64.ofInt W))
    (Float64.div (Float64.ofInt TH) (Float64.ofInt H)) (round_den_pos _ _)
    (round_den_pos _ _)] at hmin
  have hr : (0 : ℚ) ≤ min ((TW : ℚ) / (W : ℚ)) ((TH : ℚ) / (H : ℚ)) :=
    le_min (div_nonneg hTW hW'.le) (div_nonneg hTH hH'.le)
  have hprod := within_mul (within_ofInt s) hmin hs'.le hr hlo.le hc1
  have hmul := within_fmul (Float64.ofInt s)
    (Float64.min (Float64.div (Float64.ofInt TW) (Float64.ofInt W))
      (Float64.div (Float64.ofInt TH) (Float64.ofInt H)))
    (round_den_pos s 1) (min_den_pos _ _ (round_den_pos _ _) (round_den_pos _ _))
  exact within_trans hmul hprod hlo.le hhi.le

theorem chainLo_bound : 1 - 6 / 2 ^ 53 ≤ chainLo := by
  norm_num [chainLo, roundLo, roundHi]

theorem chainHi_bound : chainHi ≤ 1 + 6 / 2 ^ 53 := by
  norm_num [chainHi, roundLo, roundHi]

/-- A value within the accumulated rounding factors of the fraction `K / D`, with `K` below
`2^50`, has the floor of `K / D` or one less. -/
theorem floor_close (K D : Nat) (P : ℚ) (hD : 0 < D) (hK : K < 2 ^ 50)
    (h : Within P ((K : ℚ) / (D : ℚ)) chainLo chainHi) :
    ⌊P⌋₊ = K / D ∨ ⌊P⌋₊ + 1 = K / D := by
  have hD' : (0 : ℚ) < (D : ℚ) := by exact_mod_cast hD
  have hK' : (K : ℚ) < 2 ^ 50 := by exact_mod_cast hK
  have hK0 : (0 : ℚ) ≤ (K : ℚ) := Nat.cast_nonneg _
  have hq0 : (0 : ℚ) ≤ (K : ℚ) / (D : ℚ) := div_nonneg hK0 hD'.le
  have hdm : (K : ℚ) = (D : ℚ) * ((K / D : ℕ) : ℚ) + ((K % D : ℕ) : ℚ) := by
    exact_mod_cast (Nat.div_add_mod K D).symm
  have hmod : ((K % D : ℕ) : ℚ) + 1 ≤ (D : ℚ) := by
    exact_mod_cast Nat.mod_lt K hD
  have hmod0 : (0 : ℚ) ≤ ((K % D : ℕ) : ℚ) := Nat.cast_nonneg _
  have hE0 : (0 : ℚ) ≤ ((K / D : ℕ) : ℚ) := Nat.cast_nonneg _
  have hP0 : 0 ≤ P := by
    refine le_trans (mul_nonneg hq0 ?_) h.1
    exact le_trans (by norm_num) chainLo_bound
  -- upper bound: P < K / D + 1
  have hup : P < ((K / D : ℕ) : ℚ) + 1 := by
    have h1 : P ≤ (K : ℚ) / (D : ℚ) * (1 + 6 / 2 ^ 53) :=
      le_trans h.2 (mul_le_mul_of_nonneg_left chainHi_bound hq0)
    have h2 : (K : ℚ) / (D : ℚ) * (1 + 6 / 2 ^ 53) < ((K / D : ℕ) : ℚ) + 1 := by
      rw [div_mul_eq_mul_div, div_lt_iff₀ hD']
      generalize ((K / D : ℕ) : ℚ) = E at *
      generalize ((K % D : ℕ) : ℚ) = r at *
      nlinarith
    exact lt_of_le_of_lt h1 h2
  -- lower bound: K / D - 1 < P
  have hlow : ((K / D : ℕ) : ℚ) - 1 < P := by
    have h1 : (K : ℚ) / (D : ℚ) * (1 - 6 / 2 ^ 53) ≤ P :=
      le_trans (mul_le_mul_of_nonneg_left chainLo_bound hq0) h.1
    have h2 : ((K / D : ℕ) : ℚ) - 1 < (K : ℚ) / (D : ℚ) * (1 - 6 / 2 ^ 53) := by
      rw [div_mul_eq_mul_div, lt_div_iff₀ hD']
      generalize ((K / D : ℕ) : ℚ) = E at *
      generalize ((K % D : ℕ) : ℚ) = r at *
      nlinarith
    exact lt_of_lt_of_le h2 h1
  have hlt : ⌊P⌋₊ < K / D + 1 := by
    rw [Nat.floor_lt hP0]
    push_cast
    exact hup
  rcases Nat.eq_zero_or_pos (K / D) with h0 | h0
  · left; omega
  · have hge : K / D - 1 ≤ ⌊P⌋₊ := by
      apply Nat.le_floor
      have : ((K / D - 1 : ℕ) : ℚ) = ((K / D : ℕ) : ℚ) - 1 := by
        rw [Nat.cast_sub h0]; simp
      rw [this]
      exact hlow.le
    omega

theorem exact_width (W H TW TH : Nat) (hW : 1 ≤ W) (hH : 1 ≤ H) :
    (W : ℚ) * min ((TW : ℚ) / (W : ℚ)) ((TH : ℚ) / (H : ℚ)) =
      ((min (TW * H) (W * TH) : ℕ) : ℚ) / (H : ℚ) := by
  have hW' : (0 : ℚ) < (W : ℚ) := by exact_mod_cast hW
  have hH' : (0 : ℚ) < (H : ℚ) := by exact_mod_cast hH
  rw [mul_min_of_nonneg _ _ hW'.le, Nat.cast_min, ← min_div_div_right hH'.le]
  congr 1
  · push_cast; field_simp
  · push_cast; field_simp

theorem exact_height (W H TW TH : Nat) (hW : 1 ≤ W) (hH : 1 ≤ H) :
    (H : ℚ) * min ((TW : ℚ) / (W : ℚ)) ((TH : ℚ) / (H : ℚ)) =
      ((min (TW * H) (W * TH) : ℕ) : ℚ) / (W : ℚ) := by
  have hW' : (0 : ℚ) < (W : ℚ) := by exact_mod_cast hW
  have hH' : (0 : ℚ) < (H : ℚ) := by exact_mod_cast hH
  rw [mul_min_of_nonneg _ _ hH'.le, Nat.cast_min, ← min_div_div_right hW'.le]
  congr 1
  · push_cast; field_simp; ring
  · push_cast; field_simp

/-- The design document's formula in integer arithmetic. -/
theorem exactScaled_eq (W H TW TH : Nat) (hW : 1 ≤ W) (hH : 1 ≤ H) :
    exactScaled W H TW TH = (min (TW * H) (W * TH) / H, min (TW * H) (W * TH) / W) := by
  unfold exactScaled
  simp only []
  rw [exact_width W H TW TH hW hH, exact_height W H TW TH hW hH,
    Nat.floor_div_eq_div, Nat.floor_div_eq_div]

theorem Rect_of_nonneg (x y : Int) (w h : Nat) :
    Rect x y (x + (w : Int)) (y + (h : Int)) = ⟨x, y, x + (w : Int), y + (h : Int)⟩ := by
  have hw : ¬ x > x + (w : Int) := by omega
  have hh : ¬ y > y + (h : Int) := by omega
  simp [Rect, hw, hh]

theorem offset_floor (T s : Nat) (h : s ≤ T) :
    Int.tdiv ((T : Int) - (s : Int)) 2 = ⌊((T : ℚ) - (s : ℚ)) / 2⌋ := by
  have h0 : (0 : Int) ≤ (T : Int) - (s : Int) := by omega
  rw [Int.tdiv_eq_ediv h0 (by norm_num)]
  have e : ((T : ℚ) - (s : ℚ)) / 2 = (((T : Int) - (s : Int) : Int) : ℚ) / ((2 : ℕ) : ℚ) := by
    push_cast; rfl
  rw [e, Rat.floor_intCast_div_natCast]
  rfl

/-! ## Claim on the renderer -/

/-- C7, as stated, fails: a 281×281 source on the default 600×800 canvas is scaled to 599×599
by the float64 computation of the code (`600/281` rounds down and `281 * ratio` stays just
below 600), while `floor(W * r)` with `r = min(TW/W, TH/H)` is 600 for both sides. -/
theorem scaledSize_differs_from_exact :
    scaledSize 281 281 600 800 = (599, 599) ∧ exactScaled 281 281 600 800 = (600, 600) := by
  refine ⟨by decide, ?_⟩
  rw [exactScaled_eq 281 281 600 800 (by norm_num) (by norm_num)]
  decide

/-- C7 (amended): for every source size `W × H` with `W, H ≥ 1` and every canvas `TW × TH` with
`TW * H < 2^50` (so whenever the sizes are below `2^25`), the scaled width and height the
renderer computes in float64 are the exact `floor(W * r)`, `floor(H * r)` with
`r = min(TW/W, TH/H)` or one less; they do not exceed the canvas; the offsets are
`floor((TW - sw) / 2)` and `floor((TH - sh) / 2)`, and the source is drawn into the rectangle
with that top-left corner and size `sw × sh`. For a 100×200 source and a 600×800 canvas this is
400×800 at offset (100, 0). -/
theorem scaledSize_close_to_exact (W H TW TH : Nat) (hW : 1 ≤ W) (hH : 1 ≤ H)
    (hb : TW * H < 2 ^ 50) :
    ((scaledSize W H TW TH).1 = (exactScaled W H TW TH).1 ∨
      (scaledSize W H TW TH).1 + 1 = (exactScaled W H TW TH).1) ∧
    ((scaledSize W H TW TH).2 = (exactScaled W H TW TH).2 ∨
      (scaledSize W H TW TH).2 + 1 = (exactScaled W H TW TH).2) ∧
    (scaledSize W H TW TH).1 ≤ TW ∧ (scaledSize W H TW TH).2 ≤ TH ∧
    offsets TW TH (scaledSize W H TW TH).1 (scaledSize W H TW TH).2 =
      (⌊((TW : ℚ) - ((scaledSize W H TW TH).1 : ℚ)) / 2⌋,
       ⌊((TH : ℚ) - ((scaledSize W H TW TH).2 : ℚ)) / 2⌋) ∧
    drawRect W H TW TH =
      ⟨(offsets TW TH (scaledSize W H TW TH).1 (scaledSize W H TW TH).2).1,
       (offsets TW TH (scaledSize W H TW TH).1 (scaledSize W H TW TH).2).2,
       (offsets TW TH (scaledSize W H TW TH).1 (scaledSize W H TW TH).2).1 +
         ((scaledSize W H TW TH).1 : Int),
       (offsets TW TH (scaledSize W H TW TH).1 (scaledSize W H TW TH).2).2 +
         ((scaledSize W H TW TH).2 : Int)⟩ ∧
    scaledSize 100 200 600 800 = (400, 800) ∧
    drawRect 100 200 600 800 = ⟨100, 0, 500, 800⟩ := by
  have hK : min (TW * H) (W * TH) < 2 ^ 50 :=
    lt_of_le_of_lt (Nat.min_le_left _ _) hb
  have hx := exactScaled_eq W H TW TH hW hH
  have h1 : (scaledSize W H TW TH).1 = (exactScaled W H TW TH).1 ∨
      (scaledSize W H TW TH).1 + 1 = (exactScaled W H TW TH).1 := by
    have hw := within_scaled W W H TW TH hW hW hH
    rw [exact_width W H TW TH hW hH] at hw
    have := floor_close _ H _ hH hK hw
    rw [← toInt_eq_floor] at this
    rw [hx]
    exact this
  have h2 : (scaledSize W H TW TH).2 = (exactScaled W H TW TH).2 ∨
      (scaledSize W H TW TH).2 + 1 = (exactScaled W H TW TH).2 := by
    have hw := within_scaled H W H TW TH hH hW hH
    rw [exact_height W H TW TH hW hH] at hw
    have := floor_close _ W _ hW hK hw
    rw [← toInt_eq_floor] at this
    rw [hx]
    exact this
  have e1 : (exactScaled W H TW TH).1 ≤ TW := by
    rw [hx]
    exact le_trans (Nat.div_le_div_right (Nat.min_le_left _ _)) (by rw [Nat.mul_div_cancel _ hH])
  have e2 : (exactScaled W H TW TH).2 ≤ TH := by
    rw [hx]
    exact le_trans (Nat.div_le_div_right (Nat.min_le_right _ _))
      (by rw [Nat.mul_div_cancel_left _ hW])
  have l1 : (scaledSize W H TW TH).1 ≤ TW := by omega
  have l2 : (scaledSize W H TW TH).2 ≤ TH := by omega
  refine ⟨h1, h2, l1, l2, ?_, ?_, by decide, by decide⟩
  · unfold offsets
    rw [offset_floor TW _ l1, offset_floor TH _ l2]
  · unfold drawRect
    exact Rect_of_nonneg _ _ _ _

/-- Witness of C7 (amended) at the source 281×281 on the default canvas, where both sides come
out one less than the exact size. -/
theorem scaledSize_close_to_exact_witness :
    (1 ≤ 281 ∧ 1 ≤ 281 ∧ 600 * 281 < 2 ^ 50) ∧
    ((scaledSize 281 281 600 800).1 = (exactScaled 281 281 600 800).1 ∨
      (scaledSize 281 281 600 800).1 + 1 = (exactScaled 281 281 600 800).1) ∧
    ((scaledSize 281 281 600 800).2 = (exactScaled 281 281 600 800).2 ∨
      (scaledSize 281 281 600 800).2 + 1 = (exactScaled 281 281 600 800).2) ∧
    (scaledSize 281 281 600 800).1 ≤ 600 ∧ (scaledSize 281 281 600 800).2 ≤ 800 :=
  ⟨by norm_num,
    (scaledSize_close_to_exact 281 281 600 800 (by norm_num) (by norm_num) (by norm_num)).1,
    (scaledSize_close_to_exact 281 281 600 800 (by norm_num) (by norm_num) (by norm_num)).2.1,
    (scaledSize_close_to_exact 281 281 600 800 (by norm_num) (by norm_num) (by norm_num)).2.2.1,
    (scaledSize_close_to_exact 281 281 600 800 (by norm_num) (by norm_num)
      (by norm_num)).2.2.2.1⟩

/-! ## Claim on the item list of `CreateEPUB` -/

theorem pageItems_length (imgs : List Image) :
    ∀ i, (pageItems i imgs).length = imgs.length := by
  induction imgs with
  | nil => intro i; rfl
  | cons x rest ih => intro i; simp [pageItems, ih]

theorem pageItems_getElem (imgs : List Image) :
    ∀ (i k : Nat) (image : Image), imgs[k]? = some image →
      (pageItems i imgs)[k]? = some (pathItem (i + k) image) := by
  induction imgs with
  | nil => intro i k image h; simp at h
  | cons x rest ih =>
    intro i k image h
    cases k with
    | zero =>
      simp only [List.getElem?_cons_zero, Option.some.injEq] at h
      subst h
      simp [pageItems]
    | succ k =>
      simp only [List.getElem?_cons_succ] at h
      have := ih (i + 1) k image h
      simp only [pageItems, List.getElem?_cons_succ]
      rw [this]
      have e : i + 1 + k = i + (k + 1) := by omega
      rw [e]

theorem pageItems_ids (imgs : List Image) :
    ∀ i, (pageItems i imgs).map Item.ID = (List.range imgs.length).map (fun k => i + k + 1) := by
  induction imgs with
  | nil => intro i; rfl
  | cons x rest ih =>
    intro i
    rw [List.length_cons, List.range_succ_eq_map, List.map_cons, List.map_map]
    simp only [pageItems, List.map_cons, ih (i + 1), pathItem]
    congr 1
    apply List.map_congr_left
    intro k _
    simp only [Function.comp, Nat.succ_eq_add_one]
    omega

/-- Every run of `CreateEPUB` either ends before the metadata loop (the output file, the
`mimetype` entry or the page loop failed) or is the metadata loop run on `literalsOf`, with the
container holding the `mimetype` entry and all page entries. -/
theorem CreateEPUB_meta_stage (w : World) (input : File) (filename : Bytes) :
    (((w.osCreate (filename ++ bytesOf ".epub")).isSome ∨
        (w.createHeader [] (bytesOf "mimetype")).isSome ∨
        (w.write [{ Name := bytesOf "mimetype", Method := Method.Store, Data := [] }]
          (bytesOf "application/epub+zip")).isSome ∨
        (writePages w 0 input.Images [mimetypeEntry] []).2.2.isSome) ∧
      (CreateEPUB w input filename).err ≠ none) ∨
    CreateEPUB w input filename =
      writeMeta w (literalsOf w input) metaFiles
        (mimetypeEntry :: pageEntries w 0 input.Images) := by
  cases ho : w.osCreate (filename ++ bytesOf ".epub") with
  | some e => exact Or.inl ⟨Or.inl rfl, by simp [CreateEPUB, ho]⟩
  | none =>
    cases hc : w.createHeader [] (bytesOf "mimetype") with
    | some e => exact Or.inl ⟨Or.inr (Or.inl rfl), by simp [CreateEPUB, ho, hc]⟩
    | none =>
      cases hw : w.write [{ Name := bytesOf "mimetype", Method := Method.Store, Data := [] }]
          (bytesOf "application/epub+zip") with
      | some e =>
        exact Or.inl ⟨Or.inr (Or.inr (Or.inl rfl)), by simp [CreateEPUB, ho, hc, hw]⟩
      | none =>
        have hm : appendLast [{ Name := bytesOf "mimetype", Method := Method.Store, Data := [] }]
            (bytesOf "application/epub+zip") = [mimetypeEntry] := by
          simp [appendLast, mimetypeEntry]
        rcases hp : writePages w 0 input.Images [mimetypeEntry] [] with ⟨a2, items, _ | e⟩
        · obtain ⟨h1, h2⟩ := writePages_ok w _ _ _ _ _ _ hp
          simp only [List.nil_append] at h2
          subst h1 h2
          refine Or.inr ?_
          simp only [CreateEPUB, ho, hc, hw, hm, hp]
          rfl
        · exact Or.inl ⟨Or.inr (Or.inr (Or.inr rfl)), by simp [CreateEPUB, ho, hc, hw, hm, hp]⟩

/-- In a world in which nothing fails the page loop goes through all pages: it adds the page
entries and the items of all pages and returns no error. -/
theorem writePages_calm (w : World) (h : NoFailure w) (imgs : List Image) :
    ∀ (i : Nat) (a : Archive) (items : List Item),
      writePages w i imgs a items = (a ++ pageEntries w i imgs, items ++ pageItems i imgs, none) := by
  obtain ⟨_, hc, hw, hp, hx, _⟩ := h
  induction imgs with
  | nil => intro i a items; simp [writePages, pageEntries, pageItems]
  | cons image rest ih =>
    intro i a items
    rcases he : w.executePage (pathItem i image) with ⟨out, e⟩
    have h2 := hx (pathItem i image)
    rw [he] at h2
    simp only at h2
    subst h2
    simp only [writePages, hp, hc, hw, he]
    rw [ih, appendLast_snoc, appendLast_snoc]
    simp [pageEntries, pageItems, he]

/-- In a world in which nothing fails the metadata loop stores the output of every template. -/
theorem writeMeta_calm (w : World) (h : NoFailure w) (literals : Literals)
    (metas : List (Bytes × Bytes)) :
    ∀ (a : Archive), writeMeta w literals metas a =
      ⟨a ++ metas.map (fun m =>
        { Name := m.1, Method := Method.Deflate, Data := (w.executeMeta m.2 literals).1 }),
        none⟩ := by
  obtain ⟨_, hc, _, hp, _, hx⟩ := h
  induction metas with
  | nil => intro a; simp [writeMeta]
  | cons m rest ih =>
    intro a
    obtain ⟨pathOutput, pathTemplate⟩ := m
    rcases he : w.executeMeta pathTemplate literals with ⟨out, e⟩
    have h2 := hx pathTemplate literals
    rw [he] at h2
    simp only at h2
    subst h2
    simp only [writeMeta, hp, hc, he]
    rw [ih, appendLast_snoc]
    simp [he]

/-- In a world in which nothing fails `CreateEPUB` returns no error and leaves the `mimetype`
entry, the page entries and the output of the three metadata templates run on `literalsOf`. -/
theorem CreateEPUB_calm (w : World) (h : NoFailure w) (input : File) (filename : Bytes) :
    CreateEPUB w input filename =
      ⟨mimetypeEntry :: (pageEntries w 0 input.Images ++ metaEntries w input), none⟩ := by
  have hp := writePages_calm w h input.Images 0 [mimetypeEntry] []
  have hm := writeMeta_calm w h (literalsOf w input) metaFiles
    (mimetypeEntry :: pageEntries w 0 input.Images)
  obtain ⟨ho, hc, hw, _, _, _⟩ := h
  have ha : appendLast [{ Name := bytesOf "mimetype", Method := Method.Store, Data := [] }]
      (bytesOf "application/epub+zip") = [mimetypeEntry] := by
    simp [appendLast, mimetypeEntry]
  simp only [List.nil_append, List.singleton_append] at hp
  simp only [CreateEPUB, ho, hc, hw, ha, hp]
  exact hm

/-- C11: for every input of `N` pages, the item list that `CreateEPUB` builds in its page loop
and hands to the metadata templates (the manifest `content.opf` and the navigation map
`toc.ncx` among them) has exactly `N` items; the item for the page at index `k` (position
`k + 1`) has `ID` `k + 1`, `Base` `page` followed by `k + 1` padded with zeros to three digits,
and the media type of that page, so the ids are 1, 2, .., N in page order.

The list is tied to the run as follows. A page loop that ends without error has returned
exactly this list. Every run of `CreateEPUB` either fails before the metadata loop (creating
the output file, creating or writing the `mimetype` entry, or the page loop failed, and an
error is returned) or is the metadata loop run on literals that carry this list. A run without
error has stored the output of the three templates executed on these literals, and in a world
in which no call fails the run is without error. -/
theorem CreateEPUB_items (w : World) (input : File) (filename : Bytes) :
    (pageItems 0 input.Images).length = input.Images.length ∧
    (∀ k image, input.Images[k]? = some image →
      (pageItems 0 input.Images)[k]? =
        some (Item.mk (k + 1) (bytesOf "page" ++ decimal03 (k + 1)) image.MimeType)) ∧
    (pageItems 0 input.Images).map Item.ID =
      (List.range input.Images.length).map (fun k => k + 1) ∧
    (∀ a items, writePages w 0 input.Images [mimetypeEntry] [] = (a, items, none) →
      items = pageItems 0 input.Images) ∧
    ((((w.osCreate (filename ++ bytesOf ".epub")).isSome ∨
        (w.createHeader [] (bytesOf "mimetype")).isSome ∨
        (w.write [{ Name := bytesOf "mimetype", Method := Method.Store, Data := [] }]
          (bytesOf "application/epub+zip")).isSome ∨
        (writePages w 0 input.Images [mimetypeEntry] []).2.2.isSome) ∧
      (CreateEPUB w input filename).err ≠ none) ∨
      CreateEPUB w input filename =
        writeMeta w
          (Literals.mk (derivedBase input.Name) w.today w.uuid (pageItems 0 input.Images))
          metaFiles (mimetypeEntry :: pageEntries w 0 input.Images)) ∧
    ((CreateEPUB w input filename).err = none →
      (CreateEPUB w input filename).archive =
        mimetypeEntry :: (pageEntries w 0 input.Images ++
          [{ Name := bytesOf "OEBPS/content.opf", Method := Method.Deflate,
             Data := (w.executeMeta (bytesOf "templates/content.opf")
               (Literals.mk (derivedBase input.Name) w.today w.uuid
                 (pageItems 0 input.Images))).1 },
           { Name := bytesOf "OEBPS/toc.ncx", Method := Method.Deflate,
             Data := (w.executeMeta (bytesOf "templates/toc.ncx")
               (Literals.mk (derivedBase input.Name) w.today w.uuid
                 (pageItems 0 input.Images))).1 },
           { Name := bytesOf "META-INF/container.xml", Method := Method.Deflate,
             Data := (w.executeMeta (bytesOf "templates/container.xml")
               (Literals.mk (derivedBase input.Name) w.today w.uuid
                 (pageItems 0 input.Images))).1 }])) ∧
    (NoFailure w → (CreateEPUB w input filename).err = none) := by
  refine ⟨pageItems_length _ 0, ?_, ?_, ?_, ?_, ?_, ?_⟩
  · intro k image hk
    have := pageItems_getElem input.Images 0 k image hk
    rw [Nat.zero_add] at this
    simpa [pathItem, pageBase] using this
  · have := pageItems_ids input.Images 0
    simpa using this
  · intro a items hp
    have := (writePages_ok w _ _ _ _ _ _ hp).2
    simpa using this
  · exact CreateEPUB_meta_stage w input filename
  · intro h
    rw [CreateEPUB_ok w input filename h]
    rfl
  · intro h
    rw [CreateEPUB_calm w h input filename]

/-- Witness of C11: a run on a document of two pages in a world whose metadata templates print
the item list they are handed. The run returns no error, and the manifest and the navigation
map hold the two items, with ids 1 and 2, in page order. -/
theorem CreateEPUB_items_witness :
    (CreateEPUB listingWorld twoPages (bytesOf "out/book")).err = none ∧
    (CreateEPUB listingWorld twoPages (bytesOf "out/book")).archive =
      [⟨bytesOf "mimetype", Method.Store, bytesOf "application/epub+zip"⟩,
       ⟨bytesOf "OEBPS/pages/page001.xhtml", Method.Deflate, bytesOf "page001"⟩,
       ⟨bytesOf "OEBPS/images/page001.jpeg", Method.Deflate, [1, 2, 3]⟩,
       ⟨bytesOf "OEBPS/pages/page002.xhtml", Method.Deflate, bytesOf "page002"⟩,
       ⟨bytesOf "OEBPS/images/page002.jpeg", Method.Deflate, [4, 5]⟩,
       ⟨bytesOf "OEBPS/content.opf", Method.Deflate,
         bytesOf "1 page001 image/jpeg\n2 page002 image/jpeg\n"⟩,
       ⟨bytesOf "OEBPS/toc.ncx", Method.Deflate,
         bytesOf "1 page001 image/jpeg\n2 page002 image/jpeg\n"⟩,
       ⟨bytesOf "META-INF/container.xml", Method.Deflate,
         bytesOf "1 page001 image/jpeg\n2 page002 image/jpeg\n"⟩] :=
  ⟨(CreateEPUB_items listingWorld twoPages (bytesOf "out/book")).2.2.2.2.2.2
      ⟨fun _ => rfl, fun _ _ => rfl, fun _ _ => rfl, fun _ => rfl, fun _ => rfl,
        fun _ _ => rfl⟩,
    ((CreateEPUB_items listingWorld twoPages (bytesOf "out/book")).2.2.2.2.2.1
      (by decide)).trans (by decide)⟩

/-! ## Claim on `CreateDirectory` -/

theorem splitSlash_ne_nil (p : Bytes) : splitSlash p ≠ [] := by
  cases p with
  | nil => simp [splitSlash]
  | cons c cs =>
    unfold splitSlash
    split
    · simp
    · split <;> simp

theorem splitSlash_slash (cs : Bytes) : splitSlash (47 :: cs) = [] :: splitSlash cs := by
  simp [splitSlash]

theorem splitSlash_other (c : Nat) (cs e : Bytes) (es : List Bytes) (hc : c ≠ 47)
    (h : splitSlash cs = e :: es) : splitSlash (c :: cs) = (c :: e) :: es := by
  simp [splitSlash, hc, h]

theorem splitSlash_append (a b : Bytes) :
    splitSlash (a ++ 47 :: b) = splitSlash a ++ splitSlash b := by
  induction a with
  | nil => rw [List.nil_append, splitSlash_slash]; rfl
  | cons c cs ih =>
    rw [List.cons_append]
    by_cases hc : c = 47
    · subst hc
      rw [splitSlash_slash, splitSlash_slash, ih]
      rfl
    · cases h : splitSlash cs with
      | nil => exact absurd h (splitSlash_ne_nil cs)
      | cons e es =>
        have h2 : splitSlash (cs ++ 47 :: b) = e :: (es ++ splitSlash b) := by
          rw [ih, h]; rfl
        rw [splitSlash_other c _ _ _ hc h2, splitSlash_other c _ _ _ hc h]
        rfl

theorem splitSlash_plain (name : Bytes) (h : 47 ∉ name) : splitSlash name = [name] := by
  induction name with
  | nil => rfl
  | cons c cs ih =>
    have hc : c ≠ 47 := fun e => h (by simp [e])
    have hcs : 47 ∉ cs := fun e => h (List.mem_cons_of_mem _ e)
    unfold splitSlash
    rw [if_neg hc, ih hcs]

theorem cleanStep_plain (rooted : Bool) (kept : List Bytes) (name : Bytes)
    (h : PlainName name) : cleanStep rooted kept name = kept ++ [name] := by
  obtain ⟨h1, _, h3, h4⟩ := h
  unfold cleanStep
  rw [if_neg (by simp [h1, h3]), if_neg h4]

theorem joinSlash_snoc (kept : List Bytes) :
    ∃ lead : Bytes, ∀ name : Bytes, joinSlash (kept ++ [name]) = lead ++ name := by
  induction kept with
  | nil => exact ⟨[], fun name => by simp [joinSlash]⟩
  | cons e es ih =>
    obtain ⟨lead, hl⟩ := ih
    refine ⟨e ++ 47 :: lead, fun name => ?_⟩
    have := hl name
    cases hes : es ++ [name] with
    | nil => simp at hes
    | cons x xs =>
      rw [List.cons_append, hes]
      rw [hes] at this
      simp only [joinSlash]
      rw [this]
      simp

/-- A plain file name joined to a directory is the name behind a lead that depends on the
directory only. -/
theorem Join_plain (dir : Bytes) :
    ∃ lead : Bytes, ∀ name : Bytes, PlainName name → Join dir name = lead ++ name := by
  by_cases hd : dir = []
  · refine ⟨[], fun name h => ?_⟩
    obtain ⟨h1, h2, h3, h4⟩ := h
    have hr : ¬ name.head? = some 47 := by
      intro e
      cases name with
      | nil => exact h1 rfl
      | cons c cs =>
        simp only [List.head?_cons, Option.some.injEq] at e
        exact h2 (by simp [e])
    subst hd
    simp only [Join, h1, and_false, if_false, if_true, Clean, splitSlash_plain name h2,
      List.foldl_cons, List.foldl_nil, cleanStep_plain _ [] name ⟨h1, h2, h3, h4⟩,
      List.nil_append, hr, decide_False, Bool.false_eq_true, joinSlash]
    simp
  · obtain ⟨lead, hl⟩ := joinSlash_snoc
      ((splitSlash dir).foldl (cleanStep (decide (dir.head? = some 47))) [])
    refine ⟨if dir.head? = some 47 then 47 :: lead else lead, fun name h => ?_⟩
    have hne : dir ++ 47 :: name ≠ [] := by simp [hd]
    have hh : (dir ++ 47 :: name).head? = dir.head? := by
      cases dir with
      | nil => exact absurd rfl hd
      | cons c cs => rfl
    have hfold : (splitSlash (dir ++ 47 :: name)).foldl
        (cleanStep (decide (dir.head? = some 47))) [] =
        (splitSlash dir).foldl (cleanStep (decide (dir.head? = some 47))) [] ++ [name] := by
      rw [splitSlash_append, splitSlash_plain name h.2.1, List.foldl_append]
      simp only [List.foldl_cons, List.foldl_nil]
      exact cleanStep_plain _ _ name h
    simp only [Join, hd, h.1, false_and, if_false, Clean, hne, hh, hfold, hl]
    by_cases hr : dir.head? = some 47
    · simp [hr]
    · simp [hr]

theorem decimalLoop_digits (fuel : Nat) :
    ∀ (n : Nat) (acc : Bytes), ∀ c ∈ decimalLoop fuel n acc, c ∈ acc ∨ (48 ≤ c ∧ c ≤ 57) := by
  induction fuel with
  | zero => intro n acc c hc; exact Or.inl (by simpa [decimalLoop] using hc)
  | succ f ih =>
    intro n acc c hc
    unfold decimalLoop at hc
    split at hc
    · rcases List.mem_cons.mp hc with h | h
      · exact Or.inr (by omega)
      · exact Or.inl h
    · rcases ih _ _ c hc with h | h
      · rcases List.mem_cons.mp h with h | h
        · exact Or.inr (by omega)
        · exact Or.inl h
      · exact Or.inr h

theorem decimal03_digits (n : Nat) : ∀ c ∈ decimal03 n, 48 ≤ c ∧ c ≤ 57 := by
  intro c hc
  unfold decimal03 at hc
  rcases List.mem_append.mp hc with h | h
  · have := List.eq_of_mem_replicate h
    omega
  · rcases decimalLoop_digits _ _ _ c h with h | h
    · simp at h
    · exact h

theorem imageName_plain (i : Nat) : PlainName (imageName i) := by
  have hp : bytesOf "page" = [112, 97, 103, 101] := by decide
  have hj : bytesOf ".jpeg" = [46, 106, 112, 101, 103] := by decide
  unfold PlainName imageName
  rw [hp, hj]
  refine ⟨by simp, ?_, by simp, by simp⟩
  intro h
  rcases List.mem_append.mp h with h | h
  · rcases List.mem_append.mp h with h | h
    · simp at h
    · have := decimal03_digits (i + 1) 47 h
      omega
  · simp at h

theorem imageName_injective {i j : Nat} (h : imageName i = imageName j) : i = j := by
  unfold imageName at h
  have h2 := congrArg digitsValue (List.append_cancel_left (List.append_cancel_right h))
  rw [digitsValue_decimal03, digitsValue_decimal03] at h2
  omega

theorem writeImages_ok (fs : Disk) (filename : Bytes) (imgs : List Image) :
    ∀ (i : Nat) (done : List (Bytes × Bytes)),
      (writeImages fs filename i imgs done).err = none →
      (writeImages fs filename i imgs done).files = done ++ imageFiles filename i imgs := by
  induction imgs with
  | nil => intro i done _; simp [writeImages, imageFiles]
  | cons image rest ih =>
    intro i done h
    cases hw : fs.writeFile done (Join filename (imageName i)) image.Data with
    | some e => simp [writeImages, hw] at h
    | none =>
      simp only [writeImages, hw] at h ⊢
      rw [ih _ _ h]
      simp [imageFiles]

theorem imageFiles_getElem (filename : Bytes) (imgs : List Image) :
    ∀ (i k : Nat) (image : Image), imgs[k]? = some image →
      (imageFiles filename i imgs)[k]? = some (Join filename (imageName (i + k)), image.Data) := by
  induction imgs with
  | nil => intro i k image h; simp at h
  | cons x rest ih =>
    intro i k image h
    cases k with
    | zero =>
      simp only [List.getElem?_cons_zero, Option.some.injEq] at h
      subst h
      simp [imageFiles]
    | succ k =>
      simp only [List.getElem?_cons_succ] at h
      have := ih (i + 1) k image h
      simp only [imageFiles, List.getElem?_cons_succ]
      rw [this]
      have e : i + 1 + k = i + (k + 1) := by omega
      rw [e]

theorem imageFiles_length (filename : Bytes) (imgs : List Image) :
    ∀ i, (imageFiles filename i imgs).length = imgs.length := by
  induction imgs with
  | nil => intro i; rfl
  | cons x rest ih => intro i; simp [imageFiles, ih]

theorem mem_imageFiles_paths (filename : Bytes) (imgs : List Image) :
    ∀ (i : Nat) (p : Bytes), p ∈ (imageFiles filename i imgs).map Prod.fst →
      ∃ k, i ≤ k ∧ p = Join filename (imageName k) := by
  induction imgs with
  | nil => intro i p h; simp [imageFiles] at h
  | cons x rest ih =>
    intro i p h
    simp only [imageFiles, List.map_cons, List.mem_cons] at h
    rcases h with h | h
    · exact ⟨i, le_refl _, h⟩
    · obtain ⟨k, hk, hp⟩ := ih (i + 1) p h
      exact ⟨k, by omega, hp⟩

theorem imageFiles_nodup (filename : Bytes) (imgs : List Image) :
    ∀ i, ((imageFiles filename i imgs).map Prod.fst).Nodup := by
  obtain ⟨lead, hl⟩ := Join_plain filename
  induction imgs with
  | nil => intro i; simp [imageFiles]
  | cons x rest ih =>
    intro i
    simp only [imageFiles, List.map_cons, List.nodup_cons]
    refine ⟨?_, ih (i + 1)⟩
    intro h
    obtain ⟨k, hk, hp⟩ := mem_imageFiles_paths filename rest (i + 1) _ h
    rw [hl _ (imageName_plain i), hl _ (imageName_plain k)] at hp
    have := imageName_injective (List.append_cancel_left hp)
    omega

/-- C12: when `CreateDirectory` succeeds on an input of `N` pages, the files it has written
are exactly `N`, with pairwise distinct paths: the page at index `k` (position `k + 1`) is
written to the file named `page` + `k + 1` padded with zeros to three digits + `.jpeg` in the
output directory (`path.Join` puts every plain file name behind the same lead), with exactly the
`Data` of that page as content; nothing else is written. -/
theorem CreateDirectory_files (fs : Disk) (input : File) (filename : Bytes)
    (h : (CreateDirectory fs input filename).err = none) :
    (CreateDirectory fs input filename).files = imageFiles filename 0 input.Images ∧
    (CreateDirectory fs input filename).files.length = input.Images.length ∧
    ((CreateDirectory fs input filename).files.map Prod.fst).Nodup ∧
    ∃ lead : Bytes,
      (∀ name, PlainName name → Join filename name = lead ++ name) ∧
      ∀ k image, input.Images[k]? = some image →
        (CreateDirectory fs input filename).files[k]? =
          some (lead ++ (bytesOf "page" ++ decimal03 (k + 1) ++ bytesOf ".jpeg"),
            image.Data) := by
  have hfiles : (CreateDirectory fs input filename).files =
      imageFiles filename 0 input.Images := by
    unfold CreateDirectory at h ⊢
    cases hm : fs.mkdirAll filename with
    | some e => simp [hm] at h
    | none =>
      simp only [hm] at h ⊢
      rw [writeImages_ok fs filename input.Images 0 [] h]
      rfl
  obtain ⟨lead, hl⟩ := Join_plain filename
  refine ⟨hfiles, ?_, ?_, lead, hl, ?_⟩
  · rw [hfiles, imageFiles_length]
  · rw [hfiles]; exact imageFiles_nodup filename input.Images 0
  · intro k image hk
    rw [hfiles, imageFiles_getElem filename input.Images 0 k image hk, Nat.zero_add,
      hl _ (imageName_plain k)]
    rfl

/-- Witness of C12: three pages give `page001.jpeg`, `page002.jpeg`, `page003.jpeg` in the
output directory and nothing else. -/
theorem CreateDirectory_files_witness :
    (CreateDirectory calmDisk threePages (bytesOf "convert/book")).err = none ∧
    (CreateDirectory calmDisk threePages (bytesOf "convert/book")).files =
      imageFiles (bytesOf "convert/book") 0 threePages.Images ∧
    (CreateDirectory calmDisk threePages (bytesOf "convert/book")).files =
      [(bytesOf "convert/book/page001.jpeg", [1, 2, 3]),
       (bytesOf "convert/book/page002.jpeg", [4, 5]),
       (bytesOf "convert/book/page003.jpeg", [6])] :=
  ⟨by decide,
    (CreateDirectory_files calmDisk threePages (bytesOf "convert/book") (by decide)).1,
    by decide⟩

/-! ## Claim on `GenerateUUID` -/

theorem hexDigit_lower (n : Nat) (h : n < 16) : LowerHex (hexDigit n) := by
  unfold LowerHex hexDigit
  split <;> omega

theorem hexValue_hexDigit (n : Nat) (h : n < 16) : hexValue (hexDigit n) = some n := by
  unfold hexValue hexDigit
  by_cases h10 : n < 10
  · rw [if_pos h10, if_pos (by omega)]
    congr 1; omega
  · rw [if_neg h10, if_neg (by omega), if_pos (by omega)]
    congr 1; omega

theorem hexBytes_append (xs ys : Bytes) : hexBytes (xs ++ ys) = hexBytes xs ++ hexBytes ys := by
  induction xs with
  | nil => rfl
  | cons x xs ih => simp [hexBytes, ih]

theorem hexBytes_length (xs : Bytes) : (hexBytes xs).length = 2 * xs.length := by
  induction xs with
  | nil => rfl
  | cons x xs ih => simp [hexBytes, hexByte, ih]; omega

theorem hexBytes_lower (xs : Bytes) (h : ∀ b ∈ xs, b < 256) :
    ∀ c ∈ hexBytes xs, LowerHex c := by
  induction xs with
  | nil => intro c hc; simp [hexBytes] at hc
  | cons x xs ih =>
    intro c hc
    have hx : x < 256 := h x (List.mem_cons_self _ _)
    simp only [hexBytes, hexByte, List.cons_append, List.nil_append, List.mem_cons] at hc
    rcases hc with hc | hc | hc
    · rw [hc]; exact hexDigit_lower _ (by omega)
    · rw [hc]; exact hexDigit_lower _ (by omega)
    · exact ih (fun b hb => h b (List.mem_cons_of_mem _ hb)) c hc

theorem unhex_hexBytes (xs : Bytes) (h : ∀ b ∈ xs, b < 256) : unhex (hexBytes xs) = some xs := by
  induction xs with
  | nil => rfl
  | cons x xs ih =>
    have hx : x < 256 := h x (List.mem_cons_self _ _)
    have hxs := ih (fun b hb => h b (List.mem_cons_of_mem _ hb))
    have e : 16 * (x / 16) + x % 16 = x := by omega
    have hc : hexBytes (x :: xs) = hexDigit (x / 16) :: hexDigit (x % 16) :: hexBytes xs := rfl
    rw [hc]
    simp only [unhex, hexValue_hexDigit (x / 16) (by omega),
      hexValue_hexDigit (x % 16) (by omega), hxs, e]

theorem slices_cover (u : Bytes) (h : u.length = 16) :
    slice u 0 4 ++ slice u 4 6 ++ slice u 6 8 ++ slice u 8 10 ++ slice u 10 16 = u ∧
    (slice u 0 4).length = 4 ∧ (slice u 4 6).length = 2 ∧ (slice u 6 8).length = 2 ∧
    (slice u 8 10).length = 2 ∧ (slice u 10 16).length = 6 := by
  rcases u with _ | ⟨a0, _ | ⟨a1, _ | ⟨a2, _ | ⟨a3, _ | ⟨a4, _ | ⟨a5, _ | ⟨a6, _ | ⟨a7, _ | ⟨a8, _ | ⟨a9, _ | ⟨a10, _ | ⟨a11, _ | ⟨a12, _ | ⟨a13, _ | ⟨a14, _ | ⟨a15, _ | ⟨b, t⟩⟩⟩⟩⟩⟩⟩⟩⟩⟩⟩⟩⟩⟩⟩⟩⟩ <;>
    simp at h
  simp [slice]

set_option maxRecDepth 100000 in
theorem version_bits : ∀ x, x < 256 →
    ((x &&& 0x0f) ||| 0x40) / 16 = 4 ∧ ((x &&& 0x0f) ||| 0x40) % 16 = x % 16 ∧
    ((x &&& 0x0f) ||| 0x40) < 256 := by
  decide

set_option maxRecDepth 100000 in
theorem variant_bits : ∀ x, x < 256 →
    ((x &&& 0x3f) ||| 0x80) / 64 = 2 ∧ ((x &&& 0x3f) ||| 0x80) % 64 = x % 64 ∧
    ((x &&& 0x3f) ||| 0x80) < 256 := by
  decide

theorem setVersionVariant_length (random : Bytes) :
    (setVersionVariant random).length = random.length := by
  simp [setVersionVariant]

theorem setVersionVariant_other (random : Bytes) (i : Nat) (h6 : i ≠ 6) (h8 : i ≠ 8) :
    (setVersionVariant random)[i]? = random[i]? := by
  unfold setVersionVariant
  simp only []
  rw [List.getElem?_set_ne (Ne.symm h8), List.getElem?_set_ne (Ne.symm h6)]

theorem setVersionVariant_six (random : Bytes) (h : random.length = 16) :
    (setVersionVariant random)[6]? = some ((random.getD 6 0 &&& 0x0f) ||| 0x40) := by
  unfold setVersionVariant
  simp only []
  rw [List.getElem?_set_ne (by decide), List.getElem?_set_self (by omega)]

theorem setVersionVariant_eight (random : Bytes) (h : random.length = 16) :
    (setVersionVariant random)[8]? = some ((random.getD 8 0 &&& 0x3f) ||| 0x80) := by
  unfold setVersionVariant
  simp only []
  rw [List.getElem?_set_self (by rw [List.length_set]; omega), List.getD_eq_getElem?_getD,
    List.getElem?_set_ne (by decide), ← List.getD_eq_getElem?_getD]

theorem getD_lt (random : Bytes) (hb : ∀ b ∈ random, b < 256) (i : Nat) :
    random.getD i 0 < 256 := by
  rw [List.getD_eq_getElem?_getD]
  cases h : random[i]? with
  | none => simp
  | some b => exact hb b (List.getElem?_mem h)

theorem setVersionVariant_bytes (random : Bytes) (hb : ∀ b ∈ random, b < 256) :
    ∀ b ∈ setVersionVariant random, b < 256 := by
  intro b h
  unfold setVersionVariant at h
  simp only [] at h
  rcases List.mem_or_eq_of_mem_set h with h | h
  · rcases List.mem_or_eq_of_mem_set h with h | h
    · exact hb b h
    · rw [h]; exact (version_bits _ (getD_lt random hb 6)).2.2
  · rw [h]
    refine (variant_bits _ ?_).2.2
    rw [List.getD_eq_getElem?_getD]
    cases h2 : (random.set 6 ((random.getD 6 0 &&& 0x0f) ||| 0x40))[8]? with
    | none => simp
    | some c =>
      rw [List.getElem?_set_ne (by decide)] at h2
      exact hb c (List.getElem?_mem h2)

/-- C13: for every 16 bytes the randomness source delivers, `GenerateUUID` returns 36
characters: five groups of 8, 4, 4, 4 and 12 lowercase hexadecimal digits with a hyphen between
them. The groups encode, two digits for a byte and in order, the bytes 0..4, 4..6, 6..8, 8..10
and 10..16 of the random bytes after the two assignments: byte 6 has its high nibble set to 4
and keeps its low nibble, byte 8 has its top two bits set to `10` and keeps its low six bits,
and every other byte is unchanged. -/
theorem GenerateUUID_format (random : Bytes) (unixNano : Int) (hlen : random.length = 16)
    (hb : ∀ b ∈ random, b < 256) :
    (GenerateUUID (Except.ok random) unixNano).length = 36 ∧
    (∃ g1 g2 g3 g4 g5 : Bytes,
      GenerateUUID (Except.ok random) unixNano =
        g1 ++ 45 :: (g2 ++ 45 :: (g3 ++ 45 :: (g4 ++ 45 :: g5))) ∧
      g1.length = 8 ∧ g2.length = 4 ∧ g3.length = 4 ∧ g4.length = 4 ∧ g5.length = 12 ∧
      (∀ c ∈ g1 ++ g2 ++ g3 ++ g4 ++ g5, LowerHex c) ∧
      unhex g1 = some (slice (setVersionVariant random) 0 4) ∧
      unhex g2 = some (slice (setVersionVariant random) 4 6) ∧
      unhex g3 = some (slice (setVersionVariant random) 6 8) ∧
      unhex g4 = some (slice (setVersionVariant random) 8 10) ∧
      unhex g5 = some (slice (setVersionVariant random) 10 16) ∧
      unhex (g1 ++ g2 ++ g3 ++ g4 ++ g5) = some (setVersionVariant random)) ∧
    (setVersionVariant random).length = 16 ∧
    (∀ i, i ≠ 6 → i ≠ 8 → (setVersionVariant random)[i]? = random[i]?) ∧
    (∃ b v, random[6]? = some b ∧ (setVersionVariant random)[6]? = some v ∧
      v / 16 = 4 ∧ v % 16 = b % 16) ∧
    (∃ b v, random[8]? = some b ∧ (setVersionVariant random)[8]? = some v ∧
      v / 64 = 2 ∧ v % 64 = b % 64) := by
  have hu : (setVersionVariant random).length = 16 := by
    rw [setVersionVariant_length, hlen]
  have hub := setVersionVariant_bytes random hb
  obtain ⟨hcover, l1, l2, l3, l4, l5⟩ := slices_cover (setVersionVariant random) hu
  have hsub : ∀ lo hi, ∀ b ∈ slice (setVersionVariant random) lo hi, b < 256 := by
    intro lo hi b hmem
    exact hub b (List.mem_of_mem_drop (List.mem_of_mem_take hmem))
  have hg : GenerateUUID (Except.ok random) unixNano =
      hexBytes (slice (setVersionVariant random) 0 4) ++ 45 ::
        (hexBytes (slice (setVersionVariant random) 4 6) ++ 45 ::
          (hexBytes (slice (setVersionVariant random) 6 8) ++ 45 ::
            (hexBytes (slice (setVersionVariant random) 8 10) ++ 45 ::
              hexBytes (slice (setVersionVariant random) 10 16)))) := rfl
  refine ⟨?_, ⟨_, _, _, _, _, hg, ?_, ?_, ?_, ?_, ?_, ?_,
    unhex_hexBytes _ (hsub 0 4), unhex_hexBytes _ (hsub 4 6), unhex_hexBytes _ (hsub 6 8),
    unhex_hexBytes _ (hsub 8 10), unhex_hexBytes _ (hsub 10 16), ?_⟩, hu,
    setVersionVariant_other random, ?_, ?_⟩
  · rw [hg]
    simp only [List.length_append, List.length_cons, hexBytes_length, l1, l2, l3, l4, l5]
  · rw [hexBytes_length, l1]
  · rw [hexBytes_length, l2]
  · rw [hexBytes_length, l3]
  · rw [hexBytes_length, l4]
  · rw [hexBytes_length, l5]
  · rw [← hexBytes_append, ← hexBytes_append, ← hexBytes_append, ← hexBytes_append, hcover]
    exact hexBytes_lower _ hub
  · rw [← hexBytes_append, ← hexBytes_append, ← hexBytes_append, ← hexBytes_append, hcover]
    exact unhex_hexBytes _ hub
  · have h6 : random[6]? = some (random.getD 6 0) := by
      rw [List.getD_eq_getElem?_getD, List.getElem?_eq_getElem (by omega)]
      rfl
    refine ⟨_, _, h6, setVersionVariant_six random hlen, ?_, ?_⟩
    · exact (version_bits _ (getD_lt random hb 6)).1
    · exact (version_bits _ (getD_lt random hb 6)).2.1
  · have h8 : random[8]? = some (random.getD 8 0) := by
      rw [List.getD_eq_getElem?_getD, List.getElem?_eq_getElem (by omega)]
      rfl
    refine ⟨_, _, h8, setVersionVariant_eight random hlen, ?_, ?_⟩
    · exact (variant_bits _ (getD_lt random hb 8)).1
    · exact (variant_bits _ (getD_lt random hb 8)).2.1

/-- Witness of C13 at the sixteen bytes `00 11 22 .. ff`. -/
theorem GenerateUUID_format_witness :
    ([0x00, 0x11, 0x22, 0x33, 0x44, 0x55, 0x66, 0x77, 0x88, 0x99, 0xaa, 0xbb, 0xcc, 0xdd, 0xee,
      0xff] : Bytes).length = 16 ∧
    (GenerateUUID (Except.ok [0x00, 0x11, 0x22, 0x33, 0x44, 0x55, 0x66, 0x77, 0x88, 0x99, 0xaa,
      0xbb, 0xcc, 0xdd, 0xee, 0xff]) 0).length = 36 ∧
    GenerateUUID (Except.ok [0x00, 0x11, 0x22, 0x33, 0x44, 0x55, 0x66, 0x77, 0x88, 0x99, 0xaa,
      0xbb, 0xcc, 0xdd, 0xee, 0xff]) 0 = bytesOf "00112233-4455-4677-8899-aabbccddeeff" :=
  ⟨by decide,
    (GenerateUUID_format [0x00, 0x11, 0x22, 0x33, 0x44, 0x55, 0x66, 0x77, 0x88, 0x99, 0xaa,
      0xbb, 0xcc, 0xdd, 0xee, 0xff] 0 (by decide) (by decide)).1,
    by decide⟩

/-! ## Claim on the command line of crunchy -/

theorem parseArgs_noise (args : List Bytes) :
    ∀ o o' : Options, parseArgs args o = Except.ok o' → o'.optionNoise = o.optionNoise := by
  induction args with
  | nil =>
    intro o o' h
    simp only [parseArgs, Except.ok.injEq] at h
    rw [h]
  | cons arg rest ih =>
    intro o o' h
    unfold parseArgs at h
    split at h
    · split at h
      · split at h
        · cases h
        · have h2 := ih _ _ h; exact h2
      · split at h
        · split at h
          · cases h
          · have h2 := ih _ _ h; exact h2
        · split at h
          · split at h
            · cases h
            · have h2 := ih _ _ h; exact h2
          · cases h
    · have h2 := ih _ _ h; exact h2

/-- C15, at the failing input: every argument list crunchy accepts leaves the noise level at
its default 25, because the branch for `--noise` assigns the value to `optionQuality`. With
`--noise=50 in.png` the noise level stays 25 and the quality becomes 50; with
`--quality=80 --noise=10 in.png` the quality ends up 10. -/
theorem crunchy_noise_flag_sets_quality :
    (∀ (args : List Bytes) (o : Options),
      crunchyOptions args = Except.ok o → o.optionNoise = 25) ∧
    crunchyOptions [bytesOf "--noise=50", bytesOf "in.png"] =
      Except.ok { optionQuality := 50, optionNoise := 25, optionGenerations := 5,
                  flags := [bytesOf "in.png"] } ∧
    crunchyOptions [bytesOf "--quality=80", bytesOf "--noise=10", bytesOf "in.png"] =
      Except.ok { optionQuality := 10, optionNoise := 25, optionGenerations := 5,
                  flags := [bytesOf "in.png"] } := by
  refine ⟨?_, by rfl, by rfl⟩
  intro args o h
  unfold crunchyOptions at h
  cases hp : parseArgs args Options.initial with
  | error code => simp [hp] at h
  | ok o' =>
    simp only [hp] at h
    split at h
    · cases h
    · cases h
      exact parseArgs_noise args _ _ hp

/-- Witness of C15 at `--noise=50 in.png`. -/
theorem crunchy_noise_flag_sets_quality_witness :
    crunchyOptions [bytesOf "--noise=50", bytesOf "in.png"] =
      Except.ok (Options.mk 50 25 5 [bytesOf "in.png"]) ∧
    (Options.mk 50 25 5 [bytesOf "in.png"]).optionNoise = 25 :=
  ⟨by rfl,
    crunchy_noise_flag_sets_quality.1 [bytesOf "--noise=50", bytesOf "in.png"]
      (Options.mk 50 25 5 [bytesOf "in.png"]) (by rfl)⟩

/-! ## Claims on the aspect ratio and the fit of the scaled image -/

/-- The float ratio of `scaledSize` is within three roundings of the exact
`min(TW / W, TH / H)`. -/
theorem within_ratio (W H TW TH : Nat) (hW : 1 ≤ W) (hH : 1 ≤ H) :
    Within
      (Float64.min (Float64.div (Float64.ofInt TW) (Float64.ofInt W))
        (Float64.div (Float64.ofInt TH) (Float64.ofInt H))).toRat
      (min ((TW : ℚ) / (W : ℚ)) ((TH : ℚ) / (H : ℚ)))
      (roundLo / roundHi * roundLo) (roundHi / roundLo * roundHi) := by
  have hlo := roundLo_pos
  have hhi := roundHi_pos
  have pos : ∀ n : Nat, 1 ≤ n → 0 < (Float64.ofInt n).num := by
    intro n hn
    have hn' : (0 : ℚ) < (n : ℚ) := by exact_mod_cast hn
    exact (toRat_pos_iff _ (round_den_pos n 1)).mp (within_pos (within_ofInt n) hn' hlo)
  have quot : ∀ T D : Nat, 1 ≤ D →
      Within (Float64.div (Float64.ofInt T) (Float64.ofInt D)).toRat ((T : ℚ) / (D : ℚ))
        (roundLo / roundHi * roundLo) (roundHi / roundLo * roundHi) := by
    intro T D hD
    have hD' : (0 : ℚ) < (D : ℚ) := by exact_mod_cast hD
    have h1 := within_div (within_ofInt T) (within_ofInt D) (Nat.cast_nonneg T) hD' hlo.le hlo
    have h2 := within_fdiv (Float64.ofInt T) (Float64.ofInt D) (round_den_pos T 1)
      (round_den_pos D 1) (pos D hD)
    exact within_trans h2 h1 hlo.le hhi.le
  have hc1 : 0 ≤ roundLo / roundHi * roundLo := mul_nonneg (div_nonneg hlo.le hhi.le) hlo.le
  have hc2 : 0 ≤ roundHi / roundLo * roundHi := mul_nonneg (div_nonneg hhi.le hlo.le) hhi.le
  have hmin := within_min (quot TW W hW) (quot TH H hH) hc1 hc2
  rw [← toRat_min (Float64.div (Float64.ofInt TW) (Float64.ofInt W))
    (Float64.div (Float64.ofInt TH) (Float64.ofInt H)) (round_den_pos _ _)
    (round_den_pos _ _)] at hmin
  exact hmin

/-- The float product `float64(s) * ratio` is within two roundings of `s * ratio`. -/
theorem within_side (s : Nat) (ratio : Float64) (hd : 0 < ratio.den) :
    Within (Float64.mul (Float64.ofInt s) ratio).toRat ((s : ℚ) * ratio.toRat)
      (roundLo * roundLo) (roundHi * roundHi) := by
  have hlo := roundLo_pos
  have hhi := roundHi_pos
  have hr0 : 0 ≤ ratio.toRat := by
    unfold Float64.toRat
    exact div_nonneg (Nat.cast_nonneg _) (Nat.cast_nonneg _)
  have h1 : Within ((Float64.ofInt s).toRat * ratio.toRat) ((s : ℚ) * ratio.toRat)
      roundLo roundHi := by
    obtain ⟨a, b⟩ := within_ofInt s
    constructor
    · calc (s : ℚ) * ratio.toRat * roundLo = (s : ℚ) * roundLo * ratio.toRat := by ring
        _ ≤ (Float64.ofInt s).toRat * ratio.toRat := mul_le_mul_of_nonneg_right a hr0
    · calc (Float64.ofInt s).toRat * ratio.toRat ≤ (s : ℚ) * roundHi * ratio.toRat :=
          mul_le_mul_of_nonneg_right b hr0
        _ = (s : ℚ) * ratio.toRat * roundHi := by ring
  exact within_trans (within_fmul (Float64.ofInt s) ratio (round_den_pos s 1) hd) h1 hlo.le
    hhi.le

/-- The two sides of `scaledSize` are floors of values close to `W * ratio` and `H * ratio` for
one and the same ratio, so their cross products differ by at most `W` one way and `H` the other
way. -/
theorem cross_bound (W H TW TH : Nat) (hW : 1 ≤ W) (hH : 1 ≤ H) (hb : TW * H < 2 ^ 50) :
    ((scaledSize W H TW TH).1 : Int) * (H : Int) - ((scaledSize W H TW TH).2 : Int) * (W : Int)
      ≤ (W : Int) ∧
    ((scaledSize W H TW TH).2 : Int) * (W : Int) - ((scaledSize W H TW TH).1 : Int) * (H : Int)
      ≤ (H : Int) := by
  have hlo := roundLo_pos
  have hhi := roundHi_pos
  have hW' : (0 : ℚ) < (W : ℚ) := by exact_mod_cast hW
  have hH' : (0 : ℚ) < (H : ℚ) := by exact_mod_cast hH
  have hTW : (0 : ℚ) ≤ (TW : ℚ) := Nat.cast_nonneg _
  have hTH : (0 : ℚ) ≤ (TH : ℚ) := Nat.cast_nonneg _
  have hb' : (TW : ℚ) * (H : ℚ) < 2 ^ 50 := by exact_mod_cast hb
  have hrat := within_ratio W H TW TH hW hH
  have hden : 0 < (Float64.min (Float64.div (Float64.ofInt TW) (Float64.ofInt W))
      (Float64.div (Float64.ofInt TH) (Float64.ofInt H))).den :=
    min_den_pos _ _ (round_den_pos _ _) (round_den_pos _ _)
  have hw := within_side W _ hden
  have hh := within_side H _ hden
  have e1 : (scaledSize W H TW TH).1 = ⌊(Float64.mul (Float64.ofInt W)
      (Float64.min (Float64.div (Float64.ofInt TW) (Float64.ofInt W))
        (Float64.div (Float64.ofInt TH) (Float64.ofInt H)))).toRat⌋₊ := toInt_eq_floor _
  have e2 : (scaledSize W H TW TH).2 = ⌊(Float64.mul (Float64.ofInt H)
      (Float64.min (Float64.div (Float64.ofInt TW) (Float64.ofInt W))
        (Float64.div (Float64.ofInt TH) (Float64.ofInt H)))).toRat⌋₊ := toInt_eq_floor _
  generalize (scaledSize W H TW TH).1 = sw at *
  generalize (scaledSize W H TW TH).2 = sh at *
  generalize (Float64.mul (Float64.ofInt W)
      (Float64.min (Float64.div (Float64.ofInt TW) (Float64.ofInt W))
        (Float64.div (Float64.ofInt TH) (Float64.ofInt H)))).toRat = Pw at *
  generalize (Float64.mul (Float64.ofInt H)
      (Float64.min (Float64.div (Float64.ofInt TW) (Float64.ofInt W))
        (Float64.div (Float64.ofInt TH) (Float64.ofInt H)))).toRat = Ph at *
  generalize (Float64.min (Float64.div (Float64.ofInt TW) (Float64.ofInt W))
        (Float64.div (Float64.ofInt TH) (Float64.ofInt H))).toRat = ρ at *
  -- the ratio is non-negative and `W * ρ` is at most a little more than `TW`
  have hr0 : 0 ≤ min ((TW : ℚ) / (W : ℚ)) ((TH : ℚ) / (H : ℚ)) :=
    le_min (div_nonneg hTW hW'.le) (div_nonneg hTH hH'.le)
  have hρ0 : 0 ≤ ρ :=
    within_nonneg hrat hr0 (mul_nonneg (div_nonneg hlo.le hhi.le) hlo.le)
  have hρ : (W : ℚ) * ρ ≤ (TW : ℚ) * (roundHi / roundLo * roundHi) := by
    have h1 : ρ ≤ (TW : ℚ) / (W : ℚ) * (roundHi / roundLo * roundHi) :=
      le_trans hrat.2 (mul_le_mul_of_nonneg_right (min_le_left _ _)
        (mul_nonneg (div_nonneg hhi.le hlo.le) hhi.le))
    calc (W : ℚ) * ρ ≤ (W : ℚ) * ((TW : ℚ) / (W : ℚ) * (roundHi / roundLo * roundHi)) :=
          mul_le_mul_of_nonneg_left h1 hW'.le
      _ = (TW : ℚ) * (roundHi / roundLo * roundHi) := by
          field_simp
          ring
  have hc : roundHi / roundLo * roundHi ≤ 1 + 4 / 2 ^ 53 := by
    norm_num [roundLo, roundHi]
  have hX : (W : ℚ) * ρ * (H : ℚ) ≤ 2 ^ 50 * (1 + 4 / 2 ^ 53) := by
    have h1 : (W : ℚ) * ρ * (H : ℚ) ≤ (TW : ℚ) * (roundHi / roundLo * roundHi) * (H : ℚ) :=
      mul_le_mul_of_nonneg_right hρ hH'.le
    have h2 : (TW : ℚ) * (roundHi / roundLo * roundHi) * (H : ℚ) ≤
        (TW : ℚ) * (H : ℚ) * (1 + 4 / 2 ^ 53) := by
      have : (TW : ℚ) * (roundHi / roundLo * roundHi) * (H : ℚ) =
          (TW : ℚ) * (H : ℚ) * (roundHi / roundLo * roundHi) := by ring
      rw [this]
      exact mul_le_mul_of_nonneg_left hc (mul_nonneg hTW hH'.le)
    have h3 : (TW : ℚ) * (H : ℚ) * (1 + 4 / 2 ^ 53) ≤ 2 ^ 50 * (1 + 4 / 2 ^ 53) :=
      mul_le_mul_of_nonneg_right hb'.le (by norm_num)
    exact le_trans h1 (le_trans h2 h3)
  have hX0 : 0 ≤ (W : ℚ) * ρ * (H : ℚ) := mul_nonneg (mul_nonneg hW'.le hρ0) hH'.le
  have hPw0 : 0 ≤ Pw := within_nonneg hw (mul_nonneg hW'.le hρ0) (mul_nonneg hlo.le hlo.le)
  have hPh0 : 0 ≤ Ph := within_nonneg hh (mul_nonneg hH'.le hρ0) (mul_nonneg hlo.le hlo.le)
  have fw1 : (sw : ℚ) ≤ Pw := by rw [e1]; exact Nat.floor_le hPw0
  have fw2 : Pw < (sw : ℚ) + 1 := by rw [e1]; exact Nat.lt_floor_add_one Pw
  have fh1 : (sh : ℚ) ≤ Ph := by rw [e2]; exact Nat.floor_le hPh0
  have fh2 : Ph < (sh : ℚ) + 1 := by rw [e2]; exact Nat.lt_floor_add_one Ph
  have hlo2 : 1 - 2 / 2 ^ 53 ≤ roundLo * roundLo := by norm_num [roundLo]
  have hhi2 : roundHi * roundHi ≤ 1 + 3 / 2 ^ 53 := by norm_num [roundHi]
  -- bounds of the two products in terms of `X = W * ρ * H`
  have uw : Pw * (H : ℚ) ≤ (W : ℚ) * ρ * (H : ℚ) * (1 + 3 / 2 ^ 53) := by
    have := mul_le_mul_of_nonneg_right hw.2 hH'.le
    have h2 : (W : ℚ) * ρ * (roundHi * roundHi) * (H : ℚ) ≤
        (W : ℚ) * ρ * (H : ℚ) * (1 + 3 / 2 ^ 53) := by
      have : (W : ℚ) * ρ * (roundHi * roundHi) * (H : ℚ) =
          (W : ℚ) * ρ * (H : ℚ) * (roundHi * roundHi) := by ring
      rw [this]
      exact mul_le_mul_of_nonneg_left hhi2 hX0
    linarith
  have lw : (W : ℚ) * ρ * (H : ℚ) * (1 - 2 / 2 ^ 53) ≤ Pw * (H : ℚ) := by
    have := mul_le_mul_of_nonneg_right hw.1 hH'.le
    have h2 : (W : ℚ) * ρ * (H : ℚ) * (1 - 2 / 2 ^ 53) ≤
        (W : ℚ) * ρ * (roundLo * roundLo) * (H : ℚ) := by
      have : (W : ℚ) * ρ * (roundLo * roundLo) * (H : ℚ) =
          (W : ℚ) * ρ * (H : ℚ) * (roundLo * roundLo) := by ring
      rw [this]
      exact mul_le_mul_of_nonneg_left hlo2 hX0
    linarith
  have uh : Ph * (W : ℚ) ≤ (W : ℚ) * ρ * (H : ℚ) * (1 + 3 / 2 ^ 53) := by
    have := mul_le_mul_of_nonneg_right hh.2 hW'.le
    have h2 : (H : ℚ) * ρ * (roundHi * roundHi) * (W : ℚ) ≤
        (W : ℚ) * ρ * (H : ℚ) * (1 + 3 / 2 ^ 53) := by
      have : (H : ℚ) * ρ * (roundHi * roundHi) * (W : ℚ) =
          (W : ℚ) * ρ * (H : ℚ) * (roundHi * roundHi) := by ring
      rw [this]
      exact mul_le_mul_of_nonneg_left hhi2 hX0
    linarith
  have lh : (W : ℚ) * ρ * (H : ℚ) * (1 - 2 / 2 ^ 53) ≤ Ph * (W : ℚ) := by
    have := mul_le_mul_of_nonneg_right hh.1 hW'.le
    have h2 : (W : ℚ) * ρ * (H : ℚ) * (1 - 2 / 2 ^ 53) ≤
        (H : ℚ) * ρ * (roundLo * roundLo) * (W : ℚ) := by
      have : (H : ℚ) * ρ * (roundLo * roundLo) * (W : ℚ) =
          (W : ℚ) * ρ * (H : ℚ) * (roundLo * roundLo) := by ring
      rw [this]
      exact mul_le_mul_of_nonneg_left hlo2 hX0
    linarith
  generalize (W : ℚ) * ρ * (H : ℚ) = X at *
  have a1 : (sw : ℚ) * (H : ℚ) ≤ Pw * (H : ℚ) := mul_le_mul_of_nonneg_right fw1 hH'.le
  have a2 : Ph * (W : ℚ) < ((sh : ℚ) + 1) * (W : ℚ) := mul_lt_mul_of_pos_right fh2 hW'
  have a3 : (sh : ℚ) * (W : ℚ) ≤ Ph * (W : ℚ) := mul_le_mul_of_nonneg_right fh1 hW'.le
  have a4 : Pw * (H : ℚ) < ((sw : ℚ) + 1) * (H : ℚ) := mul_lt_mul_of_pos_right fw2 hH'
  constructor
  · have q : (sw : ℚ) * (H : ℚ) - (sh : ℚ) * (W : ℚ) < (W : ℚ) + 1 := by linarith
    have z : ((sw : Int) * (H : Int) - (sh : Int) * (W : Int) : Int) < (W : Int) + 1 := by
      exact_mod_cast q
    omega
  · have q : (sh : ℚ) * (W : ℚ) - (sw : ℚ) * (H : ℚ) < (H : ℚ) + 1 := by linarith
    have z : ((sh : Int) * (W : Int) - (sw : Int) * (H : Int) : Int) < (H : Int) + 1 := by
      exact_mod_cast q
    omega

/-- Both sides of `scaledSize` are the integer quotients `K / H` and `K / W` with
`K = min (TW * H) (W * TH)`, or one less. -/
theorem scaledSize_floor (W H TW TH : Nat) (hW : 1 ≤ W) (hH : 1 ≤ H) (hb : TW * H < 2 ^ 50) :
    ((scaledSize W H TW TH).1 = min (TW * H) (W * TH) / H ∨
      (scaledSize W H TW TH).1 + 1 = min (TW * H) (W * TH) / H) ∧
    ((scaledSize W H TW TH).2 = min (TW * H) (W * TH) / W ∨
      (scaledSize W H TW TH).2 + 1 = min (TW * H) (W * TH) / W) := by
  have hK : min (TW * H) (W * TH) < 2 ^ 50 :=
    lt_of_le_of_lt (Nat.min_le_left _ _) hb
  constructor
  · have hw := within_scaled W W H TW TH hW hW hH
    rw [exact_width W H TW TH hW hH] at hw
    have := floor_close _ H _ hH hK hw
    rw [← toInt_eq_floor] at this
    exact this
  · have hw := within_scaled H W H TW TH hH hW hH
    rw [exact_height W H TW TH hW hH] at hw
    have := floor_close _ W _ hW hK hw
    rw [← toInt_eq_floor] at this
    exact this

/-- The scaled size fits the canvas and is at most one pixel short of it in one dimension. -/
theorem scaledSize_fit (W H TW TH : Nat) (hW : 1 ≤ W) (hH : 1 ≤ H) (hb : TW * H < 2 ^ 50) :
    (scaledSize W H TW TH).1 ≤ TW ∧ (scaledSize W H TW TH).2 ≤ TH ∧
    (TW ≤ (scaledSize W H TW TH).1 + 1 ∨ TH ≤ (scaledSize W H TW TH).2 + 1) := by
  obtain ⟨h1, h2⟩ := scaledSize_floor W H TW TH hW hH hb
  have e1 : min (TW * H) (W * TH) / H ≤ TW :=
    le_trans (Nat.div_le_div_right (Nat.min_le_left _ _)) (by rw [Nat.mul_div_cancel _ hH])
  have e2 : min (TW * H) (W * TH) / W ≤ TH :=
    le_trans (Nat.div_le_div_right (Nat.min_le_right _ _))
      (by rw [Nat.mul_div_cancel_left _ hW])
  refine ⟨by omega, by omega, ?_⟩
  rcases Nat.le_total (TW * H) (W * TH) with h | h
  · left
    rw [Nat.min_eq_left h, Nat.mul_div_cancel _ hH] at h1
    omega
  · right
    rw [Nat.min_eq_right h, Nat.mul_div_cancel_left _ hW] at h2
    omega

/-- Go's truncating division by two of a non-negative difference: never negative, and zero when
the difference is at most one. -/
theorem offset_small (T s : Nat) (h : s ≤ T) :
    0 ≤ Int.tdiv ((T : Int) - (s : Int)) 2 ∧
    (T ≤ s + 1 → Int.tdiv ((T : Int) - (s : Int)) 2 = 0) := by
  have h0 : (0 : Int) ≤ (T : Int) - (s : Int) := by omega
  rw [Int.tdiv_eq_ediv h0 (by norm_num)]
  constructor
  · omega
  · intro h1
    omega

/-- C14, as stated, fails: a 28×21 source on the default 600×800 canvas is scaled to 600×449
(the float product `21 * ratio` falls just below 450), and `|600·21 − 449·28| = 28`, which is
`max(28, 21)` and not below it. -/
theorem scaledSize_aspect_reaches_max :
    scaledSize 28 21 600 800 = (600, 449) ∧
    ¬ (Int.natAbs (((scaledSize 28 21 600 800).1 : Int) * ((21 : Nat) : Int) -
        ((scaledSize 28 21 600 800).2 : Int) * ((28 : Nat) : Int)) < max 28 21) := by
  have h : scaledSize 28 21 600 800 = (600, 449) := by decide
  refine ⟨h, ?_⟩
  rw [h]
  decide

/-- C14 (amended): for every source size `W × H` with `W, H ≥ 1` and every canvas `TW × TH`
with `TW * H < 2^50` (so whenever the sizes are below `2^25`), the scaled size `(sw, sh)` the
renderer computes preserves the source aspect ratio within rounding in this sense:
`sw·H − sh·W ≤ W` and `sh·W − sw·H ≤ H`, hence `|sw·H − sh·W| ≤ max(W, H)`; the bound is
reached, so it cannot be made strict. -/
theorem scaledSize_aspect_within_max (W H TW TH : Nat) (hW : 1 ≤ W) (hH : 1 ≤ H)
    (hb : TW * H < 2 ^ 50) :
    ((scaledSize W H TW TH).1 : Int) * (H : Int) - ((scaledSize W H TW TH).2 : Int) * (W : Int)
      ≤ (W : Int) ∧
    ((scaledSize W H TW TH).2 : Int) * (W : Int) - ((scaledSize W H TW TH).1 : Int) * (H : Int)
      ≤ (H : Int) ∧
    Int.natAbs (((scaledSize W H TW TH).1 : Int) * (H : Int) -
      ((scaledSize W H TW TH).2 : Int) * (W : Int)) ≤ max W H := by
  obtain ⟨h1, h2⟩ := cross_bound W H TW TH hW hH hb
  refine ⟨h1, h2, ?_⟩
  omega

/-- Witness of C14 (amended) at the source 28×21 on the default canvas, where the bound
`max(W, H)` is reached. -/
theorem scaledSize_aspect_within_max_witness :
    (1 ≤ 28 ∧ 1 ≤ 21 ∧ 600 * 21 < 2 ^ 50) ∧
    Int.natAbs (((scaledSize 28 21 600 800).1 : Int) * ((21 : Nat) : Int) -
      ((scaledSize 28 21 600 800).2 : Int) * ((28 : Nat) : Int)) ≤ max 28 21 :=
  ⟨by norm_num,
    (scaledSize_aspect_within_max 28 21 600 800 (by norm_num) (by norm_num)
      (by norm_num)).2.2⟩

/-- C16, as stated, fails: a 281×281 source on the default 600×800 canvas is scaled to 599×599,
which touches the canvas in neither dimension; the destination rectangle is
`(0, 100)-(599, 699)`, so the white background shows on both axes: the column `x = 599` to the
right and the rows above `y = 100` and from `y = 699` on. -/
theorem scaledSize_touches_neither_side :
    scaledSize 281 281 600 800 = (599, 599) ∧
    ¬ ((scaledSize 281 281 600 800).1 = 600 ∨ (scaledSize 281 281 600 800).2 = 800) ∧
    drawRect 281 281 600 800 = ⟨0, 100, 599, 699⟩ ∧
    (drawRect 281 281 600 800).x1 < 600 ∧ 0 < (drawRect 281 281 600 800).y0 := by
  have h : scaledSize 281 281 600 800 = (599, 599) := by decide
  have r : drawRect 281 281 600 800 = ⟨0, 100, 599, 699⟩ := by decide
  refine ⟨h, ?_, r, ?_, ?_⟩
  · rw [h]
    decide
  · rw [r]
    decide
  · rw [r]
    decide

/-- C16 (amended): for every source size `W × H` with `W, H ≥ 1` and every canvas `TW × TH`
with `TW * H < 2^50` (so whenever the sizes are below `2^25`), the scaled size fits the canvas,
`sw ≤ TW` and `sh ≤ TH`, and comes within one pixel of it in at least one dimension,
`TW ≤ sw + 1` or `TH ≤ sh + 1`; hence both offsets are non-negative, Go's truncating division
agrees with floor, and at least one of the two offsets is zero. -/
theorem scaledSize_fits_canvas (W H TW TH : Nat) (hW : 1 ≤ W) (hH : 1 ≤ H)
    (hb : TW * H < 2 ^ 50) :
    (scaledSize W H TW TH).1 ≤ TW ∧ (scaledSize W H TW TH).2 ≤ TH ∧
    (TW ≤ (scaledSize W H TW TH).1 + 1 ∨ TH ≤ (scaledSize W H TW TH).2 + 1) ∧
    0 ≤ (offsets TW TH (scaledSize W H TW TH).1 (scaledSize W H TW TH).2).1 ∧
    0 ≤ (offsets TW TH (scaledSize W H TW TH).1 (scaledSize W H TW TH).2).2 ∧
    offsets TW TH (scaledSize W H TW TH).1 (scaledSize W H TW TH).2 =
      (⌊((TW : ℚ) - ((scaledSize W H TW TH).1 : ℚ)) / 2⌋,
       ⌊((TH : ℚ) - ((scaledSize W H TW TH).2 : ℚ)) / 2⌋) ∧
    ((offsets TW TH (scaledSize W H TW TH).1 (scaledSize W H TW TH).2).1 = 0 ∨
      (offsets TW TH (scaledSize W H TW TH).1 (scaledSize W H TW TH).2).2 = 0) := by
  obtain ⟨l1, l2, t⟩ := scaledSize_fit W H TW TH hW hH hb
  have o1 := offset_small TW _ l1
  have o2 := offset_small TH _ l2
  refine ⟨l1, l2, t, o1.1, o2.1, ?_, ?_⟩
  · unfold offsets
    rw [offset_floor TW _ l1, offset_floor TH _ l2]
  · rcases t with t | t
    · exact Or.inl (o1.2 t)
    · exact Or.inr (o2.2 t)

/-- Witness of C16 (amended) at the source 281×281 on the default canvas: the scaled size is
one pixel short of the canvas width. -/
theorem scaledSize_fits_canvas_witness :
    (1 ≤ 281 ∧ 1 ≤ 281 ∧ 600 * 281 < 2 ^ 50) ∧
    (scaledSize 281 281 600 800).1 ≤ 600 ∧ (scaledSize 281 281 600 800).2 ≤ 800 ∧
    (600 ≤ (scaledSize 281 281 600 800).1 + 1 ∨ 800 ≤ (scaledSize 281 281 600 800).2 + 1) :=
  ⟨by norm_num,
    (scaledSize_fits_canvas 281 281 600 800 (by norm_num) (by norm_num) (by norm_num)).1,
    (scaledSize_fits_canvas 281 281 600 800 (by norm_num) (by norm_num) (by norm_num)).2.1,
    (scaledSize_fits_canvas 281 281 600 800 (by norm_num) (by norm_num) (by norm_num)).2.2.1⟩

end Clitools
